import Mathlib

/-!
Verification of the `orderedmap` package (an order-preserving string-keyed
container with a custom JSON codec) against its specification.

The embedding fixes the container's generic value type `T` to `GoVal`, the
dynamic JSON value universe that the package's tests exercise
(`OrderedMap[interface{}]`): strings, integral numbers, booleans, null,
arrays, plain (unordered) Go maps, and nested ordered maps.

A Go `map[string]T` is unordered; it is modelled canonically as an
association list strictly sorted by a lexicographic key order (`strLt`), so
that two model maps are equal exactly when they hold the same entries, the
way two Go maps are.  `mapInsert`, `mapErase` and `mapLookup` below preserve
and use that canonical form.

Numbers are modelled as integers rendered in decimal; this covers every
numeric literal appearing in the package's own tests.  Floating point
formatting is outside the model.
-/

namespace Orderedmap

/-- Dynamic JSON-shaped value universe for the container's value type:
the shapes `encoding/json` produces for `interface{}` values, plus nested
ordered maps (`vomap`, carrying entries in key order and its own
`escapeHTML` flag, mirroring the Go struct's fields). -/
inductive GoVal : Type where
  | vstr (s : String)
  | vnum (n : Int)
  | vbool (b : Bool)
  | vnull
  | varr (elems : List GoVal)
  | vmap (members : List (String × GoVal))
  | vomap (entries : List (String × GoVal)) (esc : Bool)

/-- Strict lexicographic order on character lists, comparing code points. -/
def charsLt : List Char → List Char → Bool
  | [], [] => false
  | [], _ :: _ => true
  | _ :: _, [] => false
  | a :: as, b :: bs =>
    if a.toNat < b.toNat then true
    else if b.toNat < a.toNat then false
    else charsLt as bs

/-- Strict lexicographic order on strings (canonical key order for the
model of Go's unordered maps). -/
def strLt (a b : String) : Bool := charsLt a.data b.data

theorem char_toNat_inj {a b : Char} (h : a.toNat = b.toNat) : a = b := by
  have := congrArg Char.ofNat h
  rwa [Char.ofNat_toNat, Char.ofNat_toNat] at this

theorem charsLt_irrefl : ∀ l : List Char, charsLt l l = false
  | [] => rfl
  | a :: as => by simp [charsLt, charsLt_irrefl as]

theorem charsLt_asymm : ∀ {l₁ l₂ : List Char},
    charsLt l₁ l₂ = true → charsLt l₂ l₁ = false
  | [], [], h => by simp [charsLt] at h
  | [], _ :: _, _ => rfl
  | _ :: _, [], h => by simp [charsLt] at h
  | a :: as, b :: bs, h => by
    by_cases hab : a.toNat < b.toNat
    · simp [charsLt, hab, Nat.lt_asymm hab]
    · by_cases hba : b.toNat < a.toNat
      · simp [charsLt, hab, hba] at h
      · simp only [charsLt, if_neg hab, if_neg hba] at h
        simp [charsLt, hab, hba, charsLt_asymm h]

theorem charsLt_eq_of_not : ∀ {l₁ l₂ : List Char},
    charsLt l₁ l₂ = false → charsLt l₂ l₁ = false → l₁ = l₂
  | [], [], _, _ => rfl
  | [], _ :: _, h, _ => by simp [charsLt] at h
  | _ :: _, [], _, h => by simp [charsLt] at h
  | a :: as, b :: bs, h₁, h₂ => by
    by_cases hab : a.toNat < b.toNat
    · simp [charsLt, hab] at h₁
    · by_cases hba : b.toNat < a.toNat
      · simp [charsLt, hba, Nat.lt_asymm hba] at h₂
      · simp only [charsLt, if_neg hab, if_neg hba] at h₁ h₂
        have hk : a = b := char_toNat_inj (by omega)
        rw [hk, charsLt_eq_of_not h₁ h₂]

theorem charsLt_trans : ∀ {l₁ l₂ l₃ : List Char},
    charsLt l₁ l₂ = true → charsLt l₂ l₃ = true → charsLt l₁ l₃ = true
  | [], _, c :: cs, _, _ => rfl
  | [], b :: bs, [], _, h₂ => by simp [charsLt] at h₂
  | [], [], [], h₁, _ => by simp [charsLt] at h₁
  | a :: as, _, [], h₁, h₂ => by
    cases ‹List Char› with
    | nil => simp [charsLt] at h₁
    | cons b bs => simp [charsLt] at h₂
  | a :: as, [], c :: cs, h₁, _ => by simp [charsLt] at h₁
  | a :: as, b :: bs, c :: cs, h₁, h₂ => by
    by_cases hab : a.toNat < b.toNat <;> by_cases hbc : b.toNat < c.toNat
    · simp [charsLt, Nat.lt_trans hab hbc]
    · by_cases hcb : c.toNat < b.toNat
      · simp [charsLt, hbc, hcb] at h₂
      · have hbceq : b = c := char_toNat_inj (by omega)
        subst hbceq
        simp [charsLt, hab]
    · by_cases hba : b.toNat < a.toNat
      · simp [charsLt, hab, hba] at h₁
      · have habeq : a = b := char_toNat_inj (by omega)
        subst habeq
        simp [charsLt, hbc]
    · by_cases hba : b.toNat < a.toNat
      · simp [charsLt, hab, hba] at h₁
      · by_cases hcb : c.toNat < b.toNat
        · simp [charsLt, hbc, hcb] at h₂
        · have habeq : a = b := char_toNat_inj (by omega)
          have hbceq : b = c := char_toNat_inj (by omega)
          subst habeq; subst hbceq
          simp only [charsLt, if_neg hab, if_neg hbc] at h₁ h₂
          simp [charsLt, hab, charsLt_trans h₁ h₂]

theorem strLt_irrefl (a : String) : strLt a a = false := charsLt_irrefl a.data

theorem strLt_asymm {a b : String} (h : strLt a b = true) : strLt b a = false :=
  charsLt_asymm h

theorem strLt_eq_of_not {a b : String} (h₁ : strLt a b = false)
    (h₂ : strLt b a = false) : a = b :=
  String.ext (charsLt_eq_of_not h₁ h₂)

theorem strLt_trans {a b c : String} (h₁ : strLt a b = true)
    (h₂ : strLt b c = true) : strLt a c = true :=
  charsLt_trans h₁ h₂

theorem strLt_ne {a b : String} (h : strLt a b = true) : a ≠ b := by
  intro hk
  subst hk
  rw [strLt_irrefl] at h
  exact Bool.noConfusion h

/-- Lookup in the association-list model of a Go map. -/
def mapLookup : List (String × GoVal) → String → Option GoVal
  | [], _ => none
  | (k', v) :: ms, k => if k = k' then some v else mapLookup ms k

/-- Insert/replace in the association-list model of a Go map, keeping the
list strictly sorted by `strLt` (the canonical form). -/
def mapInsert : List (String × GoVal) → String → GoVal → List (String × GoVal)
  | [], k, v => [(k, v)]
  | (k', v') :: ms, k, v =>
    if strLt k k' then (k, v) :: (k', v') :: ms
    else if k = k' then (k, v) :: ms
    else (k', v') :: mapInsert ms k v

/-- Deletion in the association-list model of a Go map. -/
def mapErase : List (String × GoVal) → String → List (String × GoVal)
  | [], _ => []
  | (k', v') :: ms, k => if k = k' then ms else (k', v') :: mapErase ms k

/-- Canonical-form invariant: keys strictly ascend in `strLt`. -/
def SortedKeys (ms : List (String × GoVal)) : Prop :=
  (ms.map Prod.fst).Pairwise (fun a b => strLt a b = true)

instance instDecSortedKeys (ms : List (String × GoVal)) :
    Decidable (SortedKeys ms) := by
  rw [SortedKeys]
  infer_instance

theorem mapLookup_insert_self (ms : List (String × GoVal)) (k : String)
    (v : GoVal) : mapLookup (mapInsert ms k v) k = some v := by
  induction ms with
  | nil => simp [mapInsert, mapLookup]
  | cons hd tl ih =>
    obtain ⟨k', v'⟩ := hd
    simp only [mapInsert]
    split
    · simp [mapLookup]
    · split
      · simp [mapLookup]
      · rename_i heq
        simp [mapLookup, heq, ih]

theorem mapLookup_insert_ne (ms : List (String × GoVal)) (k k' : String)
    (v : GoVal) (hne : k' ≠ k) :
    mapLookup (mapInsert ms k v) k' = mapLookup ms k' := by
  induction ms with
  | nil => simp [mapInsert, mapLookup, hne]
  | cons hd tl ih =>
    obtain ⟨k₀, v₀⟩ := hd
    simp only [mapInsert]
    split
    · simp [mapLookup, hne]
    · split
      · rename_i heq
        subst heq
        simp [mapLookup, hne]
      · by_cases h₀ : k' = k₀
        · simp [mapLookup, h₀]
        · simp [mapLookup, h₀, ih]

theorem mapLookup_none_of_lt {ms : List (String × GoVal)} {k : String}
    (h : ∀ a ∈ ms.map Prod.fst, strLt k a = true) : mapLookup ms k = none := by
  induction ms with
  | nil => rfl
  | cons hd tl ih =>
    obtain ⟨k₀, v₀⟩ := hd
    have hne : k ≠ k₀ := strLt_ne (h k₀ (by simp))
    simp only [mapLookup, if_neg hne]
    exact ih (fun a ha => h a (by simp [ha]))

theorem mapLookup_erase_self (ms : List (String × GoVal)) (k : String)
    (hs : SortedKeys ms) : mapLookup (mapErase ms k) k = none := by
  induction ms with
  | nil => rfl
  | cons hd tl ih =>
    obtain ⟨k₀, v₀⟩ := hd
    rw [SortedKeys, List.map_cons, List.pairwise_cons] at hs
    by_cases heq : k = k₀
    · subst heq
      simp only [mapErase, if_pos rfl]
      exact mapLookup_none_of_lt (fun a ha => hs.1 a ha)
    · simp only [mapErase, if_neg heq, mapLookup, if_neg heq]
      exact ih hs.2

theorem mapLookup_erase_ne (ms : List (String × GoVal)) (k k' : String)
    (hne : k' ≠ k) : mapLookup (mapErase ms k) k' = mapLookup ms k' := by
  induction ms with
  | nil => simp [mapErase]
  | cons hd tl ih =>
    obtain ⟨k₀, v₀⟩ := hd
    by_cases heq : k = k₀
    · subst heq
      simp [mapErase, mapLookup, hne]
    · by_cases h₀ : k' = k₀
      · simp [mapErase, heq, mapLookup, h₀]
      · simp [mapErase, heq, mapLookup, h₀, ih]

theorem mem_keys_mapInsert {ms : List (String × GoVal)} {k a : String}
    {v : GoVal} (ha : a ∈ (mapInsert ms k v).map Prod.fst) :
    a = k ∨ a ∈ ms.map Prod.fst := by
  induction ms with
  | nil => simpa [mapInsert] using ha
  | cons hd tl ih =>
    obtain ⟨k₀, v₀⟩ := hd
    simp only [mapInsert] at ha
    split at ha
    · simp only [List.map_cons, List.mem_cons] at ha ⊢
      tauto
    · split at ha
      · simp only [List.map_cons, List.mem_cons] at ha ⊢
        tauto
      · simp only [List.map_cons, List.mem_cons] at ha ⊢
        rcases ha with h | h
        · tauto
        · rcases ih h with h' | h' <;> tauto

theorem sortedKeys_insert (ms : List (String × GoVal)) (k : String) (v : GoVal)
    (hs : SortedKeys ms) : SortedKeys (mapInsert ms k v) := by
  induction ms with
  | nil => simp [mapInsert, SortedKeys]
  | cons hd tl ih =>
    obtain ⟨k₀, v₀⟩ := hd
    rw [SortedKeys, List.map_cons, List.pairwise_cons] at hs
    rw [SortedKeys]
    simp only [mapInsert]
    split
    · rename_i hlt
      simp only [List.map_cons, List.pairwise_cons]
      refine ⟨?_, ?_⟩
      · intro a ha
        simp only [List.mem_cons] at ha
        cases ha with
        | inl h => exact h ▸ hlt
        | inr h => exact strLt_trans hlt (hs.1 a (by simpa using h))
      · exact ⟨fun a ha => hs.1 a ha, hs.2⟩
    · split
      · rename_i heq
        subst heq
        simp only [List.map_cons, List.pairwise_cons]
        exact ⟨fun a ha => hs.1 a ha, hs.2⟩
      · rename_i hlt heq
        have hk₀k : strLt k₀ k = true := by
          by_cases hc : strLt k₀ k = true
          · exact hc
          · exact absurd (strLt_eq_of_not (Bool.eq_false_iff.mpr
              (fun h => hlt h)) (Bool.eq_false_iff.mpr (fun h => hc h))) heq
        simp only [List.map_cons, List.pairwise_cons]
        refine ⟨?_, ih hs.2⟩
        intro a ha
        rcases mem_keys_mapInsert ha with h | h
        · exact h ▸ hk₀k
        · exact hs.1 a h

theorem mem_keys_mapErase {ms : List (String × GoVal)} {k a : String}
    (ha : a ∈ (mapErase ms k).map Prod.fst) : a ∈ ms.map Prod.fst := by
  induction ms with
  | nil => simp [mapErase] at ha
  | cons hd tl ih =>
    obtain ⟨k₀, v₀⟩ := hd
    simp only [mapErase] at ha
    split at ha
    · simp only [List.map_cons, List.mem_cons]
      tauto
    · simp only [List.map_cons, List.mem_cons] at ha ⊢
      rcases ha with h | h
      · tauto
      · exact Or.inr (ih h)

theorem sortedKeys_erase (ms : List (String × GoVal)) (k : String)
    (hs : SortedKeys ms) : SortedKeys (mapErase ms k) := by
  induction ms with
  | nil => exact hs
  | cons hd tl ih =>
    obtain ⟨k₀, v₀⟩ := hd
    rw [SortedKeys, List.map_cons, List.pairwise_cons] at hs
    rw [SortedKeys]
    simp only [mapErase]
    split
    · exact hs.2
    · simp only [List.map_cons, List.pairwise_cons]
      exact ⟨fun a ha => hs.1 a (mem_keys_mapErase ha), ih hs.2⟩

theorem mapLookup_isSome_iff_mem (ms : List (String × GoVal)) (k : String) :
    (mapLookup ms k).isSome = true ↔ k ∈ ms.map Prod.fst := by
  induction ms with
  | nil => simp [mapLookup]
  | cons hd tl ih =>
    obtain ⟨k₀, v₀⟩ := hd
    by_cases heq : k = k₀
    · subst heq
      simp [mapLookup]
    · simp [mapLookup, heq, ih]

/-- Two canonically sorted maps with equal lookups are equal: the ordered
association list is a faithful quotient of Go's unordered map. -/
theorem mapExt : ∀ {m₁ m₂ : List (String × GoVal)}, SortedKeys m₁ →
    SortedKeys m₂ → (∀ k, mapLookup m₁ k = mapLookup m₂ k) → m₁ = m₂
  | [], [], _, _, _ => rfl
  | [], (k₂, v₂) :: t₂, _, _, hl => by
    have := hl k₂
    simp [mapLookup] at this
  | (k₁, v₁) :: t₁, [], _, _, hl => by
    have := hl k₁
    simp [mapLookup] at this
  | (k₁, v₁) :: t₁, (k₂, v₂) :: t₂, hs₁, hs₂, hl => by
    rw [SortedKeys, List.map_cons, List.pairwise_cons] at hs₁ hs₂
    have hkeq : k₁ = k₂ := by
      by_cases h₁₂ : k₁ = k₂
      · exact h₁₂
      · exfalso
        have e₁ := hl k₁
        have e₂ := hl k₂
        simp only [mapLookup, if_pos rfl] at e₁ e₂
        rw [if_neg h₁₂] at e₁
        rw [if_neg (fun h => h₁₂ h.symm)] at e₂
        -- k₁ appears in t₂ and k₂ appears in t₁, contradicting sortedness
        have hk₁t₂ : k₁ ∈ t₂.map Prod.fst := by
          rw [← mapLookup_isSome_iff_mem, ← e₁]
          rfl
        have hk₂t₁ : k₂ ∈ t₁.map Prod.fst := by
          rw [← mapLookup_isSome_iff_mem, e₂]
          rfl
        have h₂₁ : strLt k₂ k₁ = true := hs₂.1 k₁ hk₁t₂
        have h₁₂' : strLt k₁ k₂ = true := hs₁.1 k₂ hk₂t₁
        rw [strLt_asymm h₁₂'] at h₂₁
        exact Bool.noConfusion h₂₁
    subst hkeq
    have hveq : v₁ = v₂ := by
      have := hl k₁
      simpa [mapLookup] using this
    subst hveq
    have htl : t₁ = t₂ := by
      refine mapExt hs₁.2 hs₂.2 (fun k => ?_)
      by_cases heq : k = k₁
      · subst heq
        rw [mapLookup_none_of_lt (fun a ha => hs₁.1 a ha),
          mapLookup_none_of_lt (fun a ha => hs₂.1 a ha)]
      · have := hl k
        simpa [mapLookup, heq] using this
    rw [htl]

/-! ## The container

Shallow embedding of the Go type (src/orderedmap.go lines 31-35)

  type OrderedMap[T any] struct \x7b
      keys       []string
      values     map[string]T
      escapeHTML bool
  \x7d

with `T` fixed to `GoVal`.  Methods become functions from the receiver to
the updated container. -/

structure OrderedMap : Type where
  keys : List String
  values : List (String × GoVal)
  escapeHTML : Bool

/-- Embeds `New` (src/orderedmap.go lines 37-43): empty keys and values,
escapeHTML defaulting to true. -/
def New : OrderedMap := ⟨[], [], true⟩

/-- Embeds `SetEscapeHTML` (src/orderedmap.go lines 45-47). -/
def SetEscapeHTML (o : OrderedMap) (b : Bool) : OrderedMap :=
  { o with escapeHTML := b }

/-- Embeds `Get` (src/orderedmap.go lines 49-52): the comma-ok map read;
an absent key yields the zero value of `interface\x7b\x7d` (nil, that is
`vnull`) and false. -/
def Get (o : OrderedMap) (key : String) : GoVal × Bool :=
  ((mapLookup o.values key).getD .vnull, (mapLookup o.values key).isSome)

/-- Embeds `Set` (src/orderedmap.go lines 54-60): append the key to `keys`
only when it is not yet present in `values`, then write the value. -/
def Set (o : OrderedMap) (key : String) (value : GoVal) : OrderedMap :=
  if (mapLookup o.values key).isSome then
    { o with values := mapInsert o.values key value }
  else
    { o with keys := o.keys ++ [key], values := mapInsert o.values key value }

/-- Embeds `Delete` (src/orderedmap.go lines 62-77): return unchanged when
the key is not in `values`; otherwise remove the first occurrence from
`keys` (the loop with break) and delete from `values`. -/
def Delete (o : OrderedMap) (key : String) : OrderedMap :=
  if (mapLookup o.values key).isSome then
    { o with keys := o.keys.erase key, values := mapErase o.values key }
  else o

/-- Embeds `Keys` (src/orderedmap.go lines 79-81). -/
def Keys (o : OrderedMap) : List String := o.keys

/-- Embeds `SortKeys` (src/orderedmap.go lines 84-86): apply the
caller-supplied sorting function to the key slice. -/
def SortKeys (o : OrderedMap) (sortFunc : List String → List String) :
    OrderedMap :=
  { o with keys := sortFunc o.keys }

/-- Stable insertion of `a` into `l`, placing `a` before the first element
it is le-related to; building block of the stable sort below. -/
def insertLe {α : Type} (le : α → α → Bool) (a : α) : List α → List α
  | [] => [a]
  | b :: l => if le a b then a :: b :: l else b :: insertLe le a l

/-- Modelled from the spec: Go's `sort.Sort` (package `sort`, not under
src/) applied to the `ByPair` adapter.  The spec calls the result
"equivalent to a stable sort over pairs", so the model is a stable
insertion sort ordered by the negation of the swapped comparator (an
element goes before another exactly when the other is not `less` than
it). -/
def stableSortBy {α : Type} (le : α → α → Bool) : List α → List α
  | [] => []
  | a :: l => insertLe le a (stableSortBy le l)

/-- Embeds `Sort` (src/orderedmap.go lines 89-100): build the (key, value)
pairs from `keys` (an absent key would read the zero value), sort them
with the caller's less function via `sort.Sort`, and rewrite `keys` in
place from the sorted pairs. -/
def Sort' (o : OrderedMap) (lessFunc : (String × GoVal) → (String × GoVal) → Bool) :
    OrderedMap :=
  let pairs := o.keys.map fun k => (k, (mapLookup o.values k).getD .vnull)
  { o with keys := (stableSortBy (fun a b => ! lessFunc b a) pairs).map Prod.fst }

theorem insertLe_perm {α : Type} (le : α → α → Bool) (a : α) :
    ∀ l : List α, (insertLe le a l).Perm (a :: l)
  | [] => List.Perm.refl _
  | b :: l => by
    simp only [insertLe]
    split
    · exact List.Perm.refl _
    · exact ((insertLe_perm le a l).cons b).trans (List.Perm.swap a b l)

theorem stableSortBy_perm {α : Type} (le : α → α → Bool) :
    ∀ l : List α, (stableSortBy le l).Perm l
  | [] => List.Perm.refl _
  | a :: l =>
    (insertLe_perm le a (stableSortBy le l)).trans
      ((stableSortBy_perm le l).cons a)

/-! ## The encoder

MarshalJSON (src/orderedmap.go lines 189-210) writes a byte buffer:
an opening brace, then for each key in order a comma separator (except
before the first entry), the key encoded by an `encoding/json` stream
encoder honouring `SetEscapeHTML(o.escapeHTML)`, a colon, and the value
encoded the same way, and finally a closing brace.  The stream encoder's
`Encode` terminates every value with a newline character, so those
newlines appear in MarshalJSON's output (the package's own tests strip
them before comparing).

The value encoding itself is `encoding/json`'s, an external collaborator
modelled here at the byte level from its documented behaviour and
anchored below against the exact output strings the package's test file
asserts: strings are quoted with `\"`, `\\`, `\n`, `\r`, `\t`, `\u00XX`
escapes for other control characters, `<`, `>`, `&` for
the HTML-unsafe characters exactly when escapeHTML is on, and ` `,
` ` always; integers print in decimal; plain Go maps emit members in
sorted key order (the canonical list order of the model); and a value
that itself implements `json.Marshaler` — a nested ordered map — has its
`MarshalJSON` output compacted into the stream, which removes the inner
newlines and applies the outer encoder's HTML escaping on top of
whatever the inner flag produced (so a string nested in an ordered map
is escaped exactly when either flag is set). -/

/-- Lowercase hexadecimal digit, as `encoding/json` prints in escapes. -/
def hexDigit (n : Nat) : Char :=
  if n < 10 then Char.ofNat (48 + n) else Char.ofNat (87 + n)

/-- Byte-level encoding of one character of a JSON string, following
`encoding/json`'s string escaper with HTML escaping controlled by `esc`. -/
def escChar (esc : Bool) (c : Char) : List Char :=
  if c = '"' then ['\\', '"']
  else if c = '\\' then ['\\', '\\']
  else if c = '\n' then ['\\', 'n']
  else if c = '\r' then ['\\', 'r']
  else if c = '\t' then ['\\', 't']
  else if c.toNat < 32 then
    ['\\', 'u', '0', '0', hexDigit (c.toNat / 16), hexDigit (c.toNat % 16)]
  else if esc = true ∧ (c = '<' ∨ c = '>' ∨ c = '&') then
    ['\\', 'u', '0', '0', hexDigit (c.toNat / 16), hexDigit (c.toNat % 16)]
  else if c.toNat = 8232 ∨ c.toNat = 8233 then
    ['\\', 'u', '2', '0', '2', hexDigit (c.toNat % 16)]
  else [c]

/-- Byte-level encoding of a JSON string literal (quotes included). -/
def encStrL (esc : Bool) (s : String) : List Char :=
  '"' :: ((s.data.map (escChar esc)).flatten ++ ['"'])

/-- Decimal digit characters, least significant accumulated first; the
fuel is structural (a number needs no more digits than its own size). -/
def natDigitsAux : Nat → Nat → List Char → List Char
  | 0, n, acc => Char.ofNat (48 + n % 10) :: acc
  | fuel + 1, n, acc =>
    if n < 10 then Char.ofNat (48 + n) :: acc
    else natDigitsAux fuel (n / 10) (Char.ofNat (48 + n % 10) :: acc)

/-- Decimal digit characters of a natural number, most significant
first. -/
def natDigits (n : Nat) : List Char := natDigitsAux n n []

/-- Decimal rendering of an integer, as Go prints numeric values. -/
def intChars (i : Int) : List Char :=
  if i < 0 then '-' :: natDigits i.natAbs else natDigits i.natAbs

mutual
/-- Byte-level encoding of a value as `encoding/json` streams it with
HTML escaping `esc`; a nested ordered map contributes its compacted
`MarshalJSON` output, in which escaping is on when either the outer
stream's flag or the nested map's own flag is on. -/
def encValL (esc : Bool) : GoVal → List Char
  | .vstr s => encStrL esc s
  | .vnum n => intChars n
  | .vbool true => ['t', 'r', 'u', 'e']
  | .vbool false => ['f', 'a', 'l', 's', 'e']
  | .vnull => ['n', 'u', 'l', 'l']
  | .varr es => '[' :: (encElems esc es ++ [']'])
  | .vmap ms => '\x7b' :: (encMembers esc ms ++ ['\x7d'])
  | .vomap entries e => '\x7b' :: (encMembers (esc || e) entries ++ ['\x7d'])
/-- Comma-separated encodings of array elements. -/
def encElems (esc : Bool) : List GoVal → List Char
  | [] => []
  | v :: vs => encValL esc v ++ encElemsTail esc vs
def encElemsTail (esc : Bool) : List GoVal → List Char
  | [] => []
  | v :: vs => ',' :: (encValL esc v ++ encElemsTail esc vs)
/-- Comma-separated `"key":value` encodings of object members, emitted in
list order (for a plain map the canonical list is already in Go's sorted
emission order; for a nested ordered map the list is its key order). -/
def encMembers (esc : Bool) : List (String × GoVal) → List Char
  | [] => []
  | (k, v) :: ms => encStrL esc k ++ ':' :: (encValL esc v ++ encMembersTail esc ms)
def encMembersTail (esc : Bool) : List (String × GoVal) → List Char
  | [] => []
  | (k, v) :: ms =>
    ',' :: (encStrL esc k ++ ':' :: (encValL esc v ++ encMembersTail esc ms))
end

/-- One marshalled entry as MarshalJSON's loop body emits it: the
stream-encoded key (newline-terminated by `Encoder.Encode`), a colon,
and the stream-encoded value (newline-terminated). -/
def entryChars (esc : Bool) (vs : List (String × GoVal)) (k : String) :
    List Char :=
  encStrL esc k ++ '\n' :: ':' :: (encValL esc ((mapLookup vs k).getD .vnull) ++ ['\n'])

/-- The key loop of MarshalJSON: a comma before every entry except the
first (`if i > 0`), then the entry bytes. -/
def marshalEntries (esc : Bool) (vs : List (String × GoVal)) :
    List String → Bool → List Char
  | [], _ => []
  | k :: ks, first =>
    (if first then [] else [',']) ++ entryChars esc vs k
      ++ marshalEntries esc vs ks false

/-- Embeds `MarshalJSON` (src/orderedmap.go lines 189-210): brace, the
comma-separated newline-terminated entries in key order, brace. -/
def MarshalJSON (o : OrderedMap) : String :=
  ⟨'\x7b' :: (marshalEntries o.escapeHTML o.values o.keys true ++ ['\x7d'])⟩

/-- Modelled from the spec: the encoding algorithm exactly as section 4.2
states it — "emit `\x7b`; for each key in `order`, emit the JSON-encoded
key string, `:`, then the JSON-encoded value, separated by `,` between
entries (no trailing comma); emit `\x7d`" — with no newline after the
encoded key or value.  Kept for comparison against `MarshalJSON`. -/
def specAlgorithmEncode (o : OrderedMap) : String :=
  ⟨'\x7b' :: (encMembers o.escapeHTML
    (o.keys.map fun k => (k, (mapLookup o.values k).getD .vnull)) ++ ['\x7d'])⟩

/-- The container's entries read off in key order. -/
def entriesOf (o : OrderedMap) : List (String × GoVal) :=
  o.keys.map fun k => (k, (mapLookup o.values k).getD .vnull)

/-- Output of `json.Marshal(o)`: the standard library calls the
container's `MarshalJSON` and compacts the result with HTML escaping on
(`json.Marshal`'s default), which strips the newlines and escapes any
HTML-unsafe bytes the inner flag left literal. -/
def jsonMarshal (o : OrderedMap) : String :=
  ⟨encValL true (.vomap (entriesOf o) o.escapeHTML)⟩

/-! ## The decoder

UnmarshalJSON (src/orderedmap.go lines 102-116) first lets the standard
library decode the bytes into the `values` map — `json.Unmarshal`
validates the whole input before writing anything, and merges the
object's members into the existing map — then walks the token stream
with a `json.Decoder`, skipping the opening brace, and rebuilds `keys`
from scratch with `decodeOrderedMap` (lines 118-160), which appends each
first-seen key and moves a repeated key to the end by the
shift-and-overwrite in lines 129-141, skipping nested object and array
values with `decodeOrderedMap`/`decodeSlice` recursions.

The standard library's tokenizer is modelled by `lexAll` (characters to
tokens) and its strict value decoder by `parseV` over the token stream;
`json.Decoder.Token` never reports colons and commas, so the stream the
key loop sees is the lexed stream with punctuation filtered out.  Model
restrictions: numeric literals are integral decimals (no fractions,
exponents, or a leading-zero check), and a `\uXXXX` escape must denote
a valid scalar value (no surrogate-pair combining). -/

inductive JTok : Type where
  | tstr (s : String)
  | tnum (n : Int)
  | tbool (b : Bool)
  | tnull
  | lbrace
  | rbrace
  | lbrack
  | rbrack
  | tcolon
  | tcomma
deriving DecidableEq

/-- Decode-side errors: end of input, or anything else the standard
decoder rejects. -/
inductive DErr : Type where
  | eof
  | invalid
deriving DecidableEq

/-- Value of a hexadecimal digit character, if it is one. -/
def hexVal (c : Char) : Option Nat :=
  if 48 ≤ c.toNat && c.toNat ≤ 57 then some (c.toNat - 48)
  else if 97 ≤ c.toNat && c.toNat ≤ 102 then some (c.toNat - 87)
  else if 65 ≤ c.toNat && c.toNat ≤ 70 then some (c.toNat - 55)
  else none

/-- Decimal digit test on a character. -/
def isDigitC (c : Char) : Bool := 48 ≤ c.toNat && c.toNat ≤ 57

/-- Lexes the body of a JSON string after the opening quote: unescapes
the standard escapes, rejects raw control characters and unterminated
input, and returns the string's characters with the remaining input. -/
def lexStrAux : List Char → List Char → Option (List Char × List Char)
  | [], _ => none
  | c :: cs, acc =>
    if c = '"' then some (acc.reverse, cs)
    else if c = '\\' then
      match cs with
      | [] => none
      | e :: cs' =>
        if e = 'n' then lexStrAux cs' ('\n' :: acc)
        else if e = 'r' then lexStrAux cs' ('\r' :: acc)
        else if e = 't' then lexStrAux cs' ('\t' :: acc)
        else if e = 'b' then lexStrAux cs' (Char.ofNat 8 :: acc)
        else if e = 'f' then lexStrAux cs' (Char.ofNat 12 :: acc)
        else if e = '"' then lexStrAux cs' ('"' :: acc)
        else if e = '\\' then lexStrAux cs' ('\\' :: acc)
        else if e = '/' then lexStrAux cs' ('/' :: acc)
        else if e = 'u' then
          match cs' with
          | h1 :: h2 :: h3 :: h4 :: cs'' =>
            match hexVal h1, hexVal h2, hexVal h3, hexVal h4 with
            | some a, some b, some c', some d =>
              lexStrAux cs'' (Char.ofNat (((a * 16 + b) * 16 + c') * 16 + d) :: acc)
            | _, _, _, _ => none
          | _ => none
        else none
    else if c.toNat < 32 then none
    else lexStrAux cs (c :: acc)

/-- Accumulates a run of decimal digits into a number. -/
def lexDigits : List Char → Nat → Nat × List Char
  | [], acc => (acc, [])
  | c :: cs, acc =>
    if isDigitC c then lexDigits cs (acc * 10 + (c.toNat - 48))
    else (acc, c :: cs)

/-- After a numeral the model accepts only input that does not continue
the number (no fraction or exponent syntax). -/
def numBoundary : List Char → Bool
  | [] => true
  | c :: _ => !(isDigitC c || c = '.' || c = 'e' || c = 'E')

/-- One tokenizer step: skip one whitespace character (reported as no
token), or consume one token — structural (colons and commas included),
string, integral number or keyword — or fail. -/
def lexStep : List Char → Option (Option JTok × List Char)
  | [] => none
  | c :: cs =>
    if c = ' ' ∨ c = '\n' ∨ c = '\t' ∨ c = '\r' then some (none, cs)
    else if c = '\x7b' then some (some .lbrace, cs)
    else if c = '\x7d' then some (some .rbrace, cs)
    else if c = '[' then some (some .lbrack, cs)
    else if c = ']' then some (some .rbrack, cs)
    else if c = ':' then some (some .tcolon, cs)
    else if c = ',' then some (some .tcomma, cs)
    else if c = '"' then
      match lexStrAux cs [] with
      | some (body, rest) => some (some (.tstr ⟨body⟩), rest)
      | none => none
    else if c = '-' then
      match cs with
      | d :: cs' =>
        if isDigitC d then
          let p := lexDigits cs' (d.toNat - 48)
          if numBoundary p.2 then some (some (.tnum (-(p.1 : Int))), p.2)
          else none
        else none
      | [] => none
    else if isDigitC c then
      let p := lexDigits cs (c.toNat - 48)
      if numBoundary p.2 then some (some (.tnum (p.1 : Int)), p.2)
      else none
    else if c = 't' then
      match cs with
      | c1 :: c2 :: c3 :: rest =>
        if c1 = 'r' ∧ c2 = 'u' ∧ c3 = 'e' then some (some (.tbool true), rest)
        else none
      | _ => none
    else if c = 'f' then
      match cs with
      | c1 :: c2 :: c3 :: c4 :: rest =>
        if c1 = 'a' ∧ c2 = 'l' ∧ c3 = 's' ∧ c4 = 'e' then
          some (some (.tbool false), rest)
        else none
      | _ => none
    else if c = 'n' then
      match cs with
      | c1 :: c2 :: c3 :: rest =>
        if c1 = 'u' ∧ c2 = 'l' ∧ c3 = 'l' then some (some .tnull, rest)
        else none
      | _ => none
    else none

/-- Fueled tokenizer loop: one fuel unit per step, so fuel exceeding the
input length never runs out. -/
def lexAllF : Nat → List Char → Option (List JTok)
  | 0, _ => none
  | _ + 1, [] => some []
  | fuel + 1, c :: cs =>
    match lexStep (c :: cs) with
    | none => none
    | some (none, rest) => lexAllF fuel rest
    | some (some t, rest) => (lexAllF fuel rest).map (fun ts => t :: ts)

/-- Tokenizes a whole text with sufficient fuel. -/
def lexAll (cs : List Char) : Option (List JTok) := lexAllF (cs.length + 1) cs

/-- Fold of last-value-wins member insertions into a Go map, as the
standard decoder populates `map[string]T`. -/
def insertAll (m : List (String × GoVal)) :
    List (String × GoVal) → List (String × GoVal)
  | [] => m
  | (k, v) :: prs => insertAll (mapInsert m k v) prs

mutual
/-- Strict value grammar of the standard decoder over the token stream:
one value per call, returning it with the remaining tokens. -/
def parseV : Nat → List JTok → Option (GoVal × List JTok)
  | 0, _ => none
  | _ + 1, [] => none
  | fuel + 1, t :: ts =>
    match t with
    | .tstr s => some (.vstr s, ts)
    | .tnum n => some (.vnum n, ts)
    | .tbool b => some (.vbool b, ts)
    | .tnull => some (.vnull, ts)
    | .lbrace =>
      match parseMembersFirst fuel ts with
      | some (prs, rest) => some (.vmap (insertAll [] prs), rest)
      | none => none
    | .lbrack =>
      match parseElemsFirst fuel ts with
      | some (vs, rest) => some (.varr vs, rest)
      | none => none
    | _ => none
/-- Members of an object after the opening brace: empty object, or a
`"key" : value` member followed by the remaining members. -/
def parseMembersFirst : Nat → List JTok →
    Option (List (String × GoVal) × List JTok)
  | 0, _ => none
  | _ + 1, .rbrace :: ts => some ([], ts)
  | fuel + 1, .tstr k :: .tcolon :: ts =>
    match parseV fuel ts with
    | some (v, ts') =>
      match parseMembersNext fuel ts' with
      | some (prs, rest) => some ((k, v) :: prs, rest)
      | none => none
    | none => none
  | _ + 1, _ => none
/-- Members after at least one member: the closing brace, or a comma and
a further member. -/
def parseMembersNext : Nat → List JTok →
    Option (List (String × GoVal) × List JTok)
  | 0, _ => none
  | _ + 1, .rbrace :: ts => some ([], ts)
  | fuel + 1, .tcomma :: .tstr k :: .tcolon :: ts =>
    match parseV fuel ts with
    | some (v, ts') =>
      match parseMembersNext fuel ts' with
      | some (prs, rest) => some ((k, v) :: prs, rest)
      | none => none
    | none => none
  | _ + 1, _ => none
/-- Elements of an array after the opening bracket. -/
def parseElemsFirst : Nat → List JTok → Option (List GoVal × List JTok)
  | 0, _ => none
  | _ + 1, .rbrack :: ts => some ([], ts)
  | fuel + 1, ts =>
    match parseV fuel ts with
    | some (v, ts') =>
      match parseElemsNext fuel ts' with
      | some (vs, rest) => some (v :: vs, rest)
      | none => none
    | none => none
/-- Elements after at least one element. -/
def parseElemsNext : Nat → List JTok → Option (List GoVal × List JTok)
  | 0, _ => none
  | _ + 1, .rbrack :: ts => some ([], ts)
  | fuel + 1, .tcomma :: ts =>
    match parseV fuel ts with
    | some (v, ts') =>
      match parseElemsNext fuel ts' with
      | some (vs, rest) => some (v :: vs, rest)
      | none => none
    | none => none
  | _ + 1, _ => none
end

/-- Models `json.Unmarshal(b, &o.values)` at the token level: a complete
object document merges its members into the existing map last-value-wins
(`json.Unmarshal` validates everything before writing and keeps entries
whose keys the input does not mention); a null document is a no-op; any
other document fails with nothing written. -/
def unmarshalIntoMap (m0 : List (String × GoVal)) (toks : List JTok) :
    Except DErr (List (String × GoVal)) :=
  match toks with
  | .lbrace :: ts =>
    match parseMembersFirst (2 * ts.length + 3) ts with
    | some (prs, []) => .ok (insertAll m0 prs)
    | _ => .error .invalid
  | [.tnull] => .ok m0
  | _ => .error .invalid

/-- Whether the model's tokenizer and value grammar accept the text as a
complete JSON document. -/
def validJSONDoc (s : String) : Bool :=
  match lexAll s.data with
  | none => false
  | some toks =>
    match parseV (2 * toks.length + 2) toks with
    | some (_, []) => true
    | _ => false

/-- The duplicate-key repair of decodeOrderedMap (src/orderedmap.go lines
129-141): the copy shifts everything after the key's first slot left by
one, dropping that first occurrence, and the overwrite writes the key
into the freed last slot — together, erase the first occurrence and
append the key.  When the key is absent from the slice — unreachable
while `hasKey` is consistent — the copy loop never fires and the
overwrite alone replaces the last entry. -/
def shiftRemoveAppend (keys : List String) (key : String) : List String :=
  if key ∈ keys then keys.erase key ++ [key]
  else keys.dropLast ++ [key]

/-- Tokens that `json.Decoder.Token` reports (it consumes colons and
commas silently). -/
def notPunct : JTok → Bool
  | .tcolon => false
  | .tcomma => false
  | _ => true

mutual
/-- Embeds `decodeOrderedMap` (src/orderedmap.go lines 118-160) over the
punctuation-free token stream, with the key list and the `hasKey` set
threaded: stop at the closing brace; take a string key (anything else is
the `token.(string)` assertion panic, modelled as an error and
unreachable after a successful generic unmarshal); repair or append the
key; then consume the value token, recursing into nested objects (with a
fresh discarded map) and arrays, and continue. -/
def decodeOM : Nat → List JTok → List String → List String →
    Except DErr (List String × List JTok)
  | 0, _, _, _ => .error .eof
  | _ + 1, [], _, _ => .error .eof
  | fuel + 1, t :: ts, keys, hasKey =>
    match t with
    | .rbrace => .ok (keys, ts)
    | .tstr key =>
      let keys' := if hasKey.contains key then shiftRemoveAppend keys key
        else keys ++ [key]
      let hasKey' := if hasKey.contains key then hasKey else key :: hasKey
      match ts with
      | [] => .error .eof
      | t2 :: ts2 =>
        match t2 with
        | .lbrace =>
          match decodeOM fuel ts2 [] [] with
          | .ok (_, rest) => decodeOM fuel rest keys' hasKey'
          | .error e => .error e
        | .lbrack =>
          match decodeSlice fuel ts2 with
          | .ok rest => decodeOM fuel rest keys' hasKey'
          | .error e => .error e
        | _ => decodeOM fuel ts2 keys' hasKey'
    | _ => .error .invalid
/-- Embeds `decodeSlice` (src/orderedmap.go lines 162-187): consume
tokens until the closing bracket, recursing into nested objects and
arrays (the two identical branches of the index test collapse). -/
def decodeSlice : Nat → List JTok → Except DErr (List JTok)
  | 0, _ => .error .eof
  | _ + 1, [] => .error .eof
  | fuel + 1, t :: ts =>
    match t with
    | .lbrace =>
      match decodeOM fuel ts [] [] with
      | .ok (_, rest) => decodeSlice fuel rest
      | .error e => .error e
    | .lbrack =>
      match decodeSlice fuel ts with
      | .ok rest => decodeSlice fuel rest
      | .error e => .error e
    | .rbrack => .ok ts
    | _ => decodeSlice fuel ts
end

/-- Token-level body of UnmarshalJSON: let the standard decoder merge
the members into `values` (any failure surfaces before anything is
written); then skip the first token `json.Decoder.Token` reports and
rebuild `keys` from scratch with `decodeOrderedMap`. -/
def unmarshalSteps (o : OrderedMap) (toks : List JTok) : Except DErr OrderedMap :=
  match unmarshalIntoMap o.values toks with
  | .error e => .error e
  | .ok m' =>
    match toks.filter notPunct with
    | [] => .error .eof
    | _ :: rest =>
      match decodeOM (2 * rest.length + 2) rest [] [] with
      | .error e => .error e
      | .ok (ks, _) => .ok ⟨ks, m', o.escapeHTML⟩

/-- Embeds `UnmarshalJSON` (src/orderedmap.go lines 102-116): tokenize
the bytes, then run the two decoding stages over the token stream. -/
def UnmarshalJSONFun (o : OrderedMap) (s : String) : Except DErr OrderedMap :=
  match lexAll s.data with
  | none => .error .invalid
  | some toks => unmarshalSteps o toks

theorem UnmarshalJSONFun_eq_steps {o : OrderedMap} {s : String}
    {toks : List JTok} (hlex : lexAll s.data = some toks) :
    UnmarshalJSONFun o s = unmarshalSteps o toks := by
  rw [UnmarshalJSONFun, hlex]

/-! ## Mutation sequences and the container invariant -/

/-- One mutating call on a container: the operations the specification's
invariant section quantifies over.  Sorting operations carry the
caller's comparator; `munmarshal` carries the input text and leaves the
container unchanged when the decode reports an error (on a failed
`json.Unmarshal` the Go receiver is untouched, and the later loop cannot
fail once that validation passed). -/
inductive MOp : Type where
  | mset (k : String) (v : GoVal)
  | mdel (k : String)
  | msortKeys (cmp : String → String → Bool)
  | msort (lessFunc : (String × GoVal) → (String × GoVal) → Bool)
  | munmarshal (s : String)

/-- Applies one operation.  A key-comparator sort models `sort.Strings`
and friends: the caller passes a sorting function to `SortKeys`. -/
def applyMOp (o : OrderedMap) : MOp → OrderedMap
  | .mset k v => Set o k v
  | .mdel k => Delete o k
  | .msortKeys cmp => SortKeys o (fun ks => stableSortBy (fun a b => ! cmp b a) ks)
  | .msort lessFunc => Sort' o lessFunc
  | .munmarshal s =>
    match UnmarshalJSONFun o s with
    | .ok o' => o'
    | .error _ => o

/-- Specification invariant on a container: no duplicate keys, and the
key sequence holds exactly the keys of the values map. -/
def Inv (o : OrderedMap) : Prop :=
  o.keys.Nodup ∧ ∀ k, k ∈ o.keys ↔ (mapLookup o.values k).isSome = true

/-- Canonical-form invariant used throughout: the values map is sorted. -/
def WF (o : OrderedMap) : Prop := Inv o ∧ SortedKeys o.values

/-! ## Token-stream grammar

The streams `json.Decoder.Token` reports for a JSON value (no colons or
commas): the shapes the key-reconstruction loop can meet after a
successful generic unmarshal.  `ObjMembers ks ts` reads: `ts` is the
token stream of an object's member list (closing brace included) whose
member keys are `ks` in textual order — duplicate keys stay duplicated
in `ks`. -/

mutual
inductive ValToks : List JTok → Prop where
  | str (s : String) : ValToks [.tstr s]
  | num (n : Int) : ValToks [.tnum n]
  | bool (b : Bool) : ValToks [.tbool b]
  | null : ValToks [.tnull]
  | obj {ks : List String} {ts : List JTok} :
      ObjMembers ks ts → ValToks (.lbrace :: ts)
  | arr {ts : List JTok} : ArrElems ts → ValToks (.lbrack :: ts)
inductive ObjMembers : List String → List JTok → Prop where
  | nil : ObjMembers [] [.rbrace]
  | cons (k : String) {vts : List JTok} {ks : List String} {rest : List JTok} :
      ValToks vts → ObjMembers ks rest →
      ObjMembers (k :: ks) (.tstr k :: (vts ++ rest))
inductive ArrElems : List JTok → Prop where
  | nil : ArrElems [.rbrack]
  | cons {vts rest : List JTok} : ValToks vts → ArrElems rest →
      ArrElems (vts ++ rest)
end

/-- One step of the spec's duplicate-key order rule: a first-seen key is
appended, a repeated key moves to the end. -/
def orderStep (ord : List String) (k : String) : List String :=
  if k ∈ ord then ord.erase k ++ [k] else ord ++ [k]

/-- The spec's last-occurrence rule over a whole member-key sequence. -/
def orderFold (ks : List String) : List String := ks.foldl orderStep []

/-! ## Set and Delete -/

theorem keys_foldl_set (ps : List (String × GoVal)) : ∀ (o : OrderedMap),
    (ps.map Prod.fst).Nodup →
    (∀ p ∈ ps, (mapLookup o.values p.1).isSome = false) →
    (ps.foldl (fun acc kv => Set acc kv.1 kv.2) o).keys = o.keys ++ ps.map Prod.fst := by
  induction ps with
  | nil => intro o _ _; simp
  | cons hd tl ih =>
    obtain ⟨k, v⟩ := hd
    intro o hnd habs
    have hk : (mapLookup o.values k).isSome = false := habs (k, v) (by simp)
    have hkeys : (Set o k v).keys = o.keys ++ [k] := by
      simp [Set, hk]
    have hvals : (Set o k v).values = mapInsert o.values k v := by
      simp [Set, hk]
    simp only [List.map_cons, List.nodup_cons] at hnd
    simp only [List.foldl_cons]
    rw [ih (Set o k v) hnd.2 ?_, hkeys]
    · simp
    · intro p hp
      rw [hvals, mapLookup_insert_ne]
      · exact habs p (by simp [hp])
      · intro he
        exact hnd.1 (he ▸ List.mem_map.mpr ⟨p, hp, rfl⟩)

/-- Claim C4: Set on an absent key appends it to the key order, Set on a
present key updates the value while leaving the key order unchanged, and
a sequence of Sets with distinct keys from a fresh container yields
exactly those keys in call order. -/
theorem set_insertion_order :
    (∀ (o : OrderedMap) (k : String) (v : GoVal),
      ((mapLookup o.values k).isSome = false →
        (Set o k v).keys = o.keys ++ [k])
      ∧ ((mapLookup o.values k).isSome = true → (Set o k v).keys = o.keys)
      ∧ mapLookup (Set o k v).values k = some v)
    ∧ ∀ ps : List (String × GoVal), (ps.map Prod.fst).Nodup →
      (ps.foldl (fun acc kv => Set acc kv.1 kv.2) New).keys = ps.map Prod.fst := by
  constructor
  · intro o k v
    refine ⟨fun h => by simp [Set, h], fun h => by simp [Set, h], ?_⟩
    by_cases h : (mapLookup o.values k).isSome
    · simp [Set, h, mapLookup_insert_self]
    · simp [Set, h, mapLookup_insert_self]
  · intro ps hnd
    rw [keys_foldl_set ps New hnd (fun p _ => rfl)]
    rfl

/-- Witness for C4 at a concrete container: setting a fresh key then
re-setting it keeps the two-key order. -/
theorem set_insertion_order_witness :
    (Set New "a" (.vnum 1)).keys = [] ++ ["a"]
    ∧ ([("a", GoVal.vnum 1), ("b", GoVal.vnum 2)].foldl
        (fun acc kv => Set acc kv.1 kv.2) New).keys = ["a", "b"] := by
  constructor
  · exact (set_insertion_order.1 New "a" (.vnum 1)).1 (by decide)
  · exact set_insertion_order.2 [("a", .vnum 1), ("b", .vnum 2)] (by decide)

/-- Claim C8: after Delete the key is gone from the lookup, from the
values map and from the key order, and deleting an absent key is a
no-op.  The hypotheses are the reachable-state facts: the values map is
canonical, the key slice has no duplicates, and a listed key is backed
by the map. -/
theorem delete_removes_key (o : OrderedMap) (k : String)
    (hs : SortedKeys o.values) (hnd : o.keys.Nodup)
    (hmem : k ∈ o.keys → (mapLookup o.values k).isSome = true) :
    (Get (Delete o k) k).2 = false
    ∧ mapLookup (Delete o k).values k = none
    ∧ k ∉ (Delete o k).keys
    ∧ ((mapLookup o.values k).isSome = false → Delete o k = o) := by
  by_cases h : (mapLookup o.values k).isSome = true
  · have hdel : Delete o k =
        { o with keys := o.keys.erase k, values := mapErase o.values k } := by
      simp [Delete, h]
    have herase : mapLookup (mapErase o.values k) k = none :=
      mapLookup_erase_self o.values k hs
    refine ⟨?_, ?_, ?_, ?_⟩
    · simp [Get, hdel, herase]
    · simp [hdel, herase]
    · rw [hdel]
      exact hnd.not_mem_erase
    · intro hc
      rw [h] at hc
      exact Bool.noConfusion hc
  · have hdel : Delete o k = o := by simp [Delete, h]
    refine ⟨?_, ?_, ?_, ?_⟩
    · simp only [Get, hdel]
      exact Bool.eq_false_iff.mpr h
    · rw [hdel]
      exact Option.not_isSome_iff_eq_none.mp h
    · rw [hdel]
      intro hc
      exact h (hmem hc)
    · intro _
      exact hdel

/-- Witness for C8 at a concrete container. -/
theorem delete_removes_key_witness :
    (Get (Delete (Set New "a" (.vnum 1)) "a") "a").2 = false
    ∧ "a" ∉ (Delete (Set New "a" (.vnum 1)) "a").keys
    ∧ ((mapLookup (Set New "a" (.vnum 1)).values "b").isSome = false →
        Delete (Set New "a" (.vnum 1)) "b" = Set New "a" (.vnum 1)) := by
  have h₁ := delete_removes_key (Set New "a" (.vnum 1)) "a"
    (by decide) (by decide) (fun _ => rfl)
  have h₂ := delete_removes_key (Set New "a" (.vnum 1)) "b"
    (by decide) (by decide) (by decide)
  exact ⟨h₁.1, h₁.2.2.1, h₂.2.2.2⟩

/-! ## Sort and SortKeys -/

/-- The container of the specification's sorting example: decoded from
the object text with members b:2, a:1, c:3, so the key order is b, a, c
and the values map holds those three numbers. -/
def tBAC : OrderedMap :=
  ⟨["b", "a", "c"],
   [("a", .vnum 1), ("b", .vnum 2), ("c", .vnum 3)], true⟩

/-- A lexicographic key sorting function (what `sort.Strings` supplies to
SortKeys). -/
def sortLexFun : List String → List String :=
  fun ks => stableSortBy (fun a b => ! strLt b a) ks

/-- The descending-numeric-value comparator of the specification's
sorting example. -/
def descByNum (a b : String × GoVal) : Bool :=
  match a.2, b.2 with
  | .vnum x, .vnum y => decide (y < x)
  | _, _ => false

/-- Claim C9: Sort builds the current pairs, sorts them with the
comparator (the modelled stable sort), rewrites the key order from the
sorted pairs and leaves the values map and flag untouched; the resulting
key order is a permutation of the old one; and on the b:2, a:1, c:3 data
a lexicographic SortKeys yields a, b, c while a descending-numeric Sort
yields c, b, a. -/
theorem sort_rewrites_order :
    (∀ (o : OrderedMap)
      (lessFunc : (String × GoVal) → (String × GoVal) → Bool),
      (Sort' o lessFunc).values = o.values
      ∧ (Sort' o lessFunc).escapeHTML = o.escapeHTML
      ∧ (Sort' o lessFunc).keys =
          (stableSortBy (fun a b => ! lessFunc b a)
            (o.keys.map fun k => (k, (mapLookup o.values k).getD .vnull))).map
            Prod.fst
      ∧ (Sort' o lessFunc).keys.Perm o.keys)
    ∧ (SortKeys tBAC sortLexFun).keys = ["a", "b", "c"]
    ∧ (Sort' tBAC descByNum).keys = ["c", "b", "a"] := by
  refine ⟨?_, by decide, by decide⟩
  intro o lessFunc
  refine ⟨rfl, rfl, rfl, ?_⟩
  have hperm := (stableSortBy_perm (fun a b => ! lessFunc b a)
    (o.keys.map fun k => (k, (mapLookup o.values k).getD .vnull))).map Prod.fst
  simp only [Sort']
  refine hperm.trans ?_
  rw [List.map_map]
  have hid : (Prod.fst ∘ fun k => (k, (mapLookup o.values k).getD .vnull)) =
      fun k : String => k := rfl
  rw [hid]
  rw [show List.map (fun k : String => k) o.keys = o.keys from List.map_id o.keys]

/-! ## MarshalJSON output shape -/

/-- Comma-separated concatenation with no trailing separator. -/
def commaJoin : List (List Char) → List Char
  | [] => []
  | x :: xs => x ++ (xs.map (fun y => ',' :: y)).flatten

theorem marshalEntries_false (esc : Bool) (vs : List (String × GoVal)) :
    ∀ ks : List String, marshalEntries esc vs ks false =
      ((ks.map (entryChars esc vs)).map (fun y => ',' :: y)).flatten
  | [] => rfl
  | k :: ks => by
    simp only [marshalEntries, if_neg (Bool.false_ne_true), List.map_cons,
      List.flatten_cons, marshalEntries_false esc vs ks]
    rfl

theorem marshalEntries_eq_commaJoin (esc : Bool) (vs : List (String × GoVal)) :
    ∀ ks : List String,
      marshalEntries esc vs ks true = commaJoin (ks.map (entryChars esc vs))
  | [] => rfl
  | k :: ks => by
    simp only [marshalEntries, if_pos rfl, List.map_cons, commaJoin,
      marshalEntries_false esc vs ks]
    rfl

/-- Claim C2 (amended): MarshalJSON emits an opening brace, then the
entries in exactly the container's key order, comma-separated with no
trailing comma — each entry being the stream-encoded key, a newline (the
stream encoder terminates every Encode with one), a colon, the
stream-encoded value and a newline — then the closing brace; an empty
container encodes to the two-character text of braces. -/
theorem marshal_follows_key_order :
    (∀ o : OrderedMap, MarshalJSON o =
      ⟨'\x7b' :: (commaJoin (o.keys.map (entryChars o.escapeHTML o.values))
        ++ ['\x7d'])⟩)
    ∧ ∀ o : OrderedMap, o.keys = [] → MarshalJSON o = "\x7b\x7d" := by
  constructor
  · intro o
    rw [MarshalJSON, marshalEntries_eq_commaJoin]
  · intro o h
    rw [MarshalJSON, h]
    rfl

/-- Witness for C2 (amended) at concrete containers. -/
theorem marshal_follows_key_order_witness :
    MarshalJSON New = "\x7b\x7d"
    ∧ MarshalJSON (Set New "a" (.vnum 1)) =
      ⟨'\x7b' :: (commaJoin ((Set New "a" (.vnum 1)).keys.map
        (entryChars (Set New "a" (.vnum 1)).escapeHTML
          (Set New "a" (.vnum 1)).values)) ++ ['\x7d'])⟩ :=
  ⟨marshal_follows_key_order.2 New rfl,
   marshal_follows_key_order.1 (Set New "a" (.vnum 1))⟩

/-- Counterexample for C2 as stated: on a one-entry container the
MarshalJSON bytes carry the stream encoder's newline terminators, so
they differ from the output of the algorithm exactly as the
specification words it (key, colon, value with nothing in between). -/
theorem marshal_newline_counterexample :
    MarshalJSON ⟨["a"], [("a", .vnum 1)], true⟩ = "\x7b\"a\"\n:1\n\x7d"
    ∧ specAlgorithmEncode ⟨["a"], [("a", .vnum 1)], true⟩ = "\x7b\"a\":1\x7d"
    ∧ MarshalJSON ⟨["a"], [("a", .vnum 1)], true⟩ ≠
      specAlgorithmEncode ⟨["a"], [("a", .vnum 1)], true⟩ := by
  refine ⟨rfl, rfl, by decide⟩

/-! ## Anchors against the package's own test expectations

The containers below are the ones TestMarshalJSON and
TestMarshalJSONNoEscapeHTML (in the package's test file) build, and the
strings are the exact byte sequences those tests assert, which pins the
model of the external `encoding/json` encoder to the repository's own
recorded behaviour. -/

/-- The nested container of TestMarshalJSON (keys e, a). -/
def tmInner : OrderedMap := Set (Set New "e" (.vnum 1)) "a" (.vnum 2)

/-- The container TestMarshalJSON builds. -/
def tmOuter : OrderedMap :=
  Set (Set (Set (Set (Set (Set (Set (Set (Set (Set New
    "number" (.vnum 3))
    "string" (.vstr "x"))
    "specialstring" (.vstr "\\.<>[]\x7b\x7d_-"))
    "number" (.vnum 4))
    "z" (.vnum 1))
    "a" (.vnum 2))
    "b" (.vnum 3))
    "slice" (.varr [.vstr "1", .vnum 1]))
    "orderedmap" (.vomap (entriesOf tmInner) tmInner.escapeHTML))
    "test\n\r\t\\\"ing" (.vnum 9)

/-- The `json.Marshal` output of TestMarshalJSON's container is the exact
byte string the test asserts. -/
theorem jsonMarshal_matches_test_expected :
    jsonMarshal tmOuter =
      "\x7b\"number\":4,\"string\":\"x\",\"specialstring\":\"\\\\.\\u003c\\u003e[]\x7b\x7d_-\",\"z\":1,\"a\":2,\"b\":3,\"slice\":[\"1\",1],\"orderedmap\":\x7b\"e\":1,\"a\":2\x7d,\"test\\n\\r\\t\\\\\\\"ing\":9\x7d" := by
  decide

/-- The container TestMarshalJSONNoEscapeHTML builds. -/
def tmNoEsc : OrderedMap :=
  Set (SetEscapeHTML New false) "specialstring" (.vstr "\\.<>[]\x7b\x7d_-")

/-- Stripping newlines from MarshalJSON with escaping off gives the exact
byte string TestMarshalJSONNoEscapeHTML asserts: the HTML-unsafe
characters stay literal. -/
theorem marshal_no_escape_matches_test_expected :
    (MarshalJSON tmNoEsc).data.filter (fun c => c ≠ '\n') =
      "\x7b\"specialstring\":\"\\\\.<>[]\x7b\x7d_-\"\x7d".data := by
  decide

/-! ## The escapeHTML flag -/

/-- The three characters the HTML-escaping mode protects. -/
def isHtmlChar (c : Char) : Bool := c = '<' || c = '>' || c = '&'

mutual
/-- Whether a value contains no nested ordered map (so the outer
encoder's flag alone governs all of its strings). -/
def noOmap : GoVal → Bool
  | .vstr _ => true
  | .vnum _ => true
  | .vbool _ => true
  | .vnull => true
  | .varr es => noOmapL es
  | .vmap ms => noOmapP ms
  | .vomap _ _ => false
def noOmapL : List GoVal → Bool
  | [] => true
  | v :: vs => noOmap v && noOmapL vs
def noOmapP : List (String × GoVal) → Bool
  | [] => true
  | (_, v) :: ms => noOmap v && noOmapP ms
end

mutual
/-- Occurrences of a character in the strings of a value (string values
and member keys, through arbitrary nesting). -/
def valCount (c : Char) : GoVal → Nat
  | .vstr s => s.data.count c
  | .vnum _ => 0
  | .vbool _ => 0
  | .vnull => 0
  | .varr es => listCount c es
  | .vmap ms => pairsCount c ms
  | .vomap entries _ => pairsCount c entries
def listCount (c : Char) : List GoVal → Nat
  | [] => 0
  | v :: vs => valCount c v + listCount c vs
def pairsCount (c : Char) : List (String × GoVal) → Nat
  | [] => 0
  | (k, v) :: ms => k.data.count c + valCount c v + pairsCount c ms
end

theorem hexDigit_not_html {n : Nat} (h : n < 16) :
    isHtmlChar (hexDigit n) = false := by
  interval_cases n <;> decide

/-- An HTML-unsafe character in an escaped character's output can only be
the character itself left literal, which happens only with escaping
off. -/
theorem escChar_html_mem {esc : Bool} {c c'' : Char} (hmem : c'' ∈ escChar esc c)
    (hml : isHtmlChar c'' = true) : c'' = c ∧ esc = false := by
  have hnot : ∀ n : Nat, n < 16 → ¬ isHtmlChar (hexDigit n) = true := by
    intro n hn hc
    rw [hexDigit_not_html hn] at hc
    exact Bool.noConfusion hc
  by_cases h1 : c = '"'
  · subst h1
    rw [show escChar esc '"' = ['\\', '"'] from rfl] at hmem
    simp only [List.mem_cons, List.not_mem_nil, or_false] at hmem
    rcases hmem with rfl | rfl <;> exact absurd hml (by decide)
  by_cases h2 : c = '\\'
  · subst h2
    rw [show escChar esc '\\' = ['\\', '\\'] from rfl] at hmem
    simp only [List.mem_cons, List.not_mem_nil, or_false] at hmem
    rcases hmem with rfl | rfl <;> exact absurd hml (by decide)
  by_cases h3 : c = '\n'
  · subst h3
    rw [show escChar esc '\n' = ['\\', 'n'] from rfl] at hmem
    simp only [List.mem_cons, List.not_mem_nil, or_false] at hmem
    rcases hmem with rfl | rfl <;> exact absurd hml (by decide)
  by_cases h4 : c = '\r'
  · subst h4
    rw [show escChar esc '\r' = ['\\', 'r'] from rfl] at hmem
    simp only [List.mem_cons, List.not_mem_nil, or_false] at hmem
    rcases hmem with rfl | rfl <;> exact absurd hml (by decide)
  by_cases h5 : c = '\t'
  · subst h5
    rw [show escChar esc '\t' = ['\\', 't'] from rfl] at hmem
    simp only [List.mem_cons, List.not_mem_nil, or_false] at hmem
    rcases hmem with rfl | rfl <;> exact absurd hml (by decide)
  by_cases h6 : c.toNat < 32
  · rw [escChar, if_neg h1, if_neg h2, if_neg h3, if_neg h4, if_neg h5,
      if_pos h6] at hmem
    simp only [List.mem_cons, List.not_mem_nil, or_false] at hmem
    rcases hmem with rfl | rfl | rfl | rfl | rfl | rfl
    · exact absurd hml (by decide)
    · exact absurd hml (by decide)
    · exact absurd hml (by decide)
    · exact absurd hml (by decide)
    · exact absurd hml (hnot _ (by omega))
    · exact absurd hml (hnot _ (Nat.mod_lt _ (by omega)))
  by_cases h7 : esc = true ∧ (c = '<' ∨ c = '>' ∨ c = '&')
  · rw [escChar, if_neg h1, if_neg h2, if_neg h3, if_neg h4, if_neg h5,
      if_neg h6, if_pos h7] at hmem
    have hbound : c.toNat < 64 := by
      rcases h7.2 with rfl | rfl | rfl <;> decide
    simp only [List.mem_cons, List.not_mem_nil, or_false] at hmem
    rcases hmem with rfl | rfl | rfl | rfl | rfl | rfl
    · exact absurd hml (by decide)
    · exact absurd hml (by decide)
    · exact absurd hml (by decide)
    · exact absurd hml (by decide)
    · exact absurd hml (hnot _ (by omega))
    · exact absurd hml (hnot _ (Nat.mod_lt _ (by omega)))
  by_cases h8 : c.toNat = 8232 ∨ c.toNat = 8233
  · rw [escChar, if_neg h1, if_neg h2, if_neg h3, if_neg h4, if_neg h5,
      if_neg h6, if_neg h7, if_pos h8] at hmem
    simp only [List.mem_cons, List.not_mem_nil, or_false] at hmem
    rcases hmem with rfl | rfl | rfl | rfl | rfl | rfl
    · exact absurd hml (by decide)
    · exact absurd hml (by decide)
    · exact absurd hml (by decide)
    · exact absurd hml (by decide)
    · exact absurd hml (by decide)
    · exact absurd hml (hnot _ (Nat.mod_lt _ (by omega)))
  · rw [escChar, if_neg h1, if_neg h2, if_neg h3, if_neg h4, if_neg h5,
      if_neg h6, if_neg h7, if_neg h8] at hmem
    simp only [List.mem_singleton] at hmem
    subst hmem
    refine ⟨rfl, ?_⟩
    rcases Bool.eq_false_or_eq_true esc with ht | hf
    · exfalso
      apply h7
      refine ⟨ht, ?_⟩
      simp only [isHtmlChar, Bool.or_eq_true, decide_eq_true_eq] at hml
      tauto
    · exact hf

/-- With escaping on, no escaped character contributes an HTML-unsafe
byte. -/
theorem escChar_true_no_html {c c'' : Char} (hmem : c'' ∈ escChar true c) :
    isHtmlChar c'' = false := by
  rcases Bool.eq_false_or_eq_true (isHtmlChar c'') with h | h
  · exact absurd (escChar_html_mem hmem h).2 (by decide)
  · exact h

/-- With escaping on, the escape of an HTML-unsafe character is its
lowercase unicode escape. -/
theorem escChar_true_html_form :
    escChar true '<' = ['\\', 'u', '0', '0', '3', 'c']
    ∧ escChar true '>' = ['\\', 'u', '0', '0', '3', 'e']
    ∧ escChar true '&' = ['\\', 'u', '0', '0', '2', '6'] := by
  refine ⟨?_, ?_, ?_⟩ <;> decide

/-- With escaping off, an HTML-unsafe character passes through
literally. -/
theorem escChar_false_html_self {c : Char} (hml : isHtmlChar c = true) :
    escChar false c = [c] := by
  simp only [isHtmlChar, Bool.or_eq_true, decide_eq_true_eq] at hml
  rcases hml with (rfl | rfl) | rfl <;> decide

/-- With escaping off, an escaped character holds each HTML-unsafe
character exactly as often as the source character does. -/
theorem escChar_false_count (c c' : Char) (hml : isHtmlChar c = true) :
    (escChar false c').count c = (if c' = c then 1 else 0) := by
  by_cases heq : c' = c
  · subst heq
    rw [escChar_false_html_self hml]
    simp
  · rw [if_neg heq]
    refine List.count_eq_zero.mpr (fun hc => ?_)
    exact heq ((escChar_html_mem hc hml).1.symm)

theorem html_beq_false {c x : Char} (hml : isHtmlChar c = true)
    (hx : isHtmlChar x = false) : ¬ (x = c) := by
  intro h
  subst h
  rw [hml] at hx
  exact Bool.noConfusion hx

theorem encStrL_true_no_html (s : String) :
    ∀ c'' ∈ encStrL true s, isHtmlChar c'' = false := by
  intro c'' hc
  simp only [encStrL, List.mem_cons, List.mem_append, List.mem_singleton,
    List.mem_flatten, List.not_mem_nil, or_false] at hc
  rcases hc with rfl | ⟨l, hl, hcl⟩ | rfl
  · decide
  · obtain ⟨a, _, rfl⟩ := List.mem_map.mp hl
    exact escChar_true_no_html hcl
  · decide

theorem count_flatten_escChar_false (c : Char) (hml : isHtmlChar c = true) :
    ∀ l : List Char, ((l.map (escChar false)).flatten).count c = l.count c := by
  intro l
  induction l with
  | nil => rfl
  | cons a t ih =>
    simp only [List.map_cons, List.flatten_cons, List.count_append, ih,
      escChar_false_count c a hml, List.count_cons]
    by_cases hac : a = c
    · subst hac
      simp
      omega
    · simp [hac, fun h : c = a => hac h.symm]

theorem not_html_quote {c : Char} (hml : isHtmlChar c = true) : c ≠ '"' :=
  fun h => absurd hml (by rw [h]; decide)

theorem encStrL_false_count (s : String) (c : Char) (hml : isHtmlChar c = true) :
    (encStrL false s).count c = s.data.count c := by
  have hq : ¬ ('"' = c) :=
    html_beq_false hml (show isHtmlChar '"' = false by decide)
  simp only [encStrL, List.count_cons, List.count_append,
    count_flatten_escChar_false c hml]
  simp [hq]

/-- Digit characters have digit code points. -/
theorem digitChar_range (m : Nat) (h : m < 10) :
    48 ≤ (Char.ofNat (48 + m)).toNat ∧ (Char.ofNat (48 + m)).toNat ≤ 57 := by
  interval_cases m <;> exact ⟨by decide, by decide⟩

theorem natDigitsAux_mem : ∀ (fuel n : Nat) (acc : List Char) (c : Char),
    c ∈ natDigitsAux fuel n acc → c ∈ acc ∨ (48 ≤ c.toNat ∧ c.toNat ≤ 57)
  | 0, n, acc, c => by
    intro h
    simp only [natDigitsAux, List.mem_cons] at h
    rcases h with rfl | h
    · exact Or.inr (digitChar_range _ (Nat.mod_lt _ (by omega)))
    · exact Or.inl h
  | fuel + 1, n, acc, c => by
    intro h
    simp only [natDigitsAux] at h
    split at h
    · simp only [List.mem_cons] at h
      rcases h with rfl | h
      · rename_i hn
        exact Or.inr (digitChar_range _ hn)
      · exact Or.inl h
    · rcases natDigitsAux_mem fuel _ _ c h with h' | h'
      · simp only [List.mem_cons] at h'
        rcases h' with rfl | h'
        · exact Or.inr (digitChar_range _ (Nat.mod_lt _ (by omega)))
        · exact Or.inl h'
      · exact Or.inr h'

theorem not_html_of_digit {c : Char} (h48 : 48 ≤ c.toNat) (h57 : c.toNat ≤ 57) :
    isHtmlChar c = false := by
  by_cases h : isHtmlChar c = true
  · exfalso
    simp only [isHtmlChar, Bool.or_eq_true, decide_eq_true_eq] at h
    rcases h with (rfl | rfl) | rfl
    · exact absurd h57 (by decide)
    · exact absurd h57 (by decide)
    · exact absurd h48 (by decide)
  · exact Bool.eq_false_iff.mpr h

theorem intChars_no_html (n : Int) {c : Char} (hc : c ∈ intChars n) :
    isHtmlChar c = false := by
  simp only [intChars] at hc
  split at hc
  · simp only [List.mem_cons] at hc
    rcases hc with rfl | hc
    · decide
    · rcases natDigitsAux_mem _ _ _ c hc with h | h
      · cases h
      · exact not_html_of_digit h.1 h.2
  · rcases natDigitsAux_mem _ _ _ c hc with h | h
    · cases h
    · exact not_html_of_digit h.1 h.2

mutual
/-- With escaping on, no byte of a value's stream encoding is
HTML-unsafe — including inside nested ordered maps, whose effective flag
only ever gains the outer true. -/
theorem encValL_true_no_html : ∀ (v : GoVal), ∀ c'' ∈ encValL true v,
    isHtmlChar c'' = false
  | .vstr s => fun _ hc => encStrL_true_no_html s _ hc
  | .vnum n => fun _ hc => intChars_no_html n hc
  | .vbool true => fun c'' hc => by
    simp only [encValL, List.mem_cons, List.not_mem_nil, or_false] at hc
    rcases hc with rfl | rfl | rfl | rfl <;> decide
  | .vbool false => fun c'' hc => by
    simp only [encValL, List.mem_cons, List.not_mem_nil, or_false] at hc
    rcases hc with rfl | rfl | rfl | rfl | rfl <;> decide
  | .vnull => fun c'' hc => by
    simp only [encValL, List.mem_cons, List.not_mem_nil, or_false] at hc
    rcases hc with rfl | rfl | rfl | rfl <;> decide
  | .varr es => fun c'' hc => by
    simp only [encValL, List.mem_cons, List.mem_append, List.mem_singleton,
      List.not_mem_nil, or_false] at hc
    rcases hc with rfl | hc | rfl
    · decide
    · exact encElems_true_no_html es c'' hc
    · decide
  | .vmap ms => fun c'' hc => by
    simp only [encValL, List.mem_cons, List.mem_append, List.mem_singleton,
      List.not_mem_nil, or_false] at hc
    rcases hc with rfl | hc | rfl
    · decide
    · exact encMembers_true_no_html ms c'' hc
    · decide
  | .vomap entries e => fun c'' hc => by
    rw [encValL, Bool.true_or] at hc
    simp only [List.mem_cons, List.mem_append, List.mem_singleton,
      List.not_mem_nil, or_false] at hc
    rcases hc with rfl | hc | rfl
    · decide
    · exact encMembers_true_no_html entries c'' hc
    · decide
theorem encElems_true_no_html : ∀ (es : List GoVal), ∀ c'' ∈ encElems true es,
    isHtmlChar c'' = false
  | [] => fun c'' hc => by cases hc
  | v :: vs => fun c'' hc => by
    simp only [encElems, List.mem_append] at hc
    rcases hc with hc | hc
    · exact encValL_true_no_html v c'' hc
    · exact encElemsTail_true_no_html vs c'' hc
theorem encElemsTail_true_no_html : ∀ (es : List GoVal),
    ∀ c'' ∈ encElemsTail true es, isHtmlChar c'' = false
  | [] => fun c'' hc => by cases hc
  | v :: vs => fun c'' hc => by
    simp only [encElemsTail, List.mem_cons, List.mem_append] at hc
    rcases hc with rfl | hc | hc
    · decide
    · exact encValL_true_no_html v c'' hc
    · exact encElemsTail_true_no_html vs c'' hc
theorem encMembers_true_no_html : ∀ (ms : List (String × GoVal)),
    ∀ c'' ∈ encMembers true ms, isHtmlChar c'' = false
  | [] => fun c'' hc => by cases hc
  | (k, v) :: ms => fun c'' hc => by
    simp only [encMembers, List.mem_append, List.mem_cons] at hc
    rcases hc with hc | rfl | hc | hc
    · exact encStrL_true_no_html k c'' hc
    · decide
    · exact encValL_true_no_html v c'' hc
    · exact encMembersTail_true_no_html ms c'' hc
theorem encMembersTail_true_no_html : ∀ (ms : List (String × GoVal)),
    ∀ c'' ∈ encMembersTail true ms, isHtmlChar c'' = false
  | [] => fun c'' hc => by cases hc
  | (k, v) :: ms => fun c'' hc => by
    simp only [encMembersTail, List.mem_cons, List.mem_append] at hc
    rcases hc with rfl | hc | rfl | hc | hc
    · decide
    · exact encStrL_true_no_html k c'' hc
    · decide
    · exact encValL_true_no_html v c'' hc
    · exact encMembersTail_true_no_html ms c'' hc
end

mutual
/-- With escaping off, each HTML-unsafe character occurs in a
no-nested-ordered-map value's stream encoding exactly as often as in the
value's strings. -/
theorem encValL_false_count : ∀ (v : GoVal) (c : Char), noOmap v = true →
    isHtmlChar c = true → (encValL false v).count c = valCount c v
  | .vstr s, c, _, hml => by
    simp only [encValL, valCount]
    exact encStrL_false_count s c hml
  | .vnum n, c, _, hml => by
    simp only [encValL, valCount]
    exact List.count_eq_zero.mpr
      (fun hc => html_beq_false hml (intChars_no_html n hc) rfl)
  | .vbool true, c, _, hml => by
    simp only [encValL, valCount]
    exact List.count_eq_zero.mpr (fun hc => by
      simp only [List.mem_cons, List.not_mem_nil, or_false] at hc
      rcases hc with rfl | rfl | rfl | rfl <;> exact absurd hml (by decide))
  | .vbool false, c, _, hml => by
    simp only [encValL, valCount]
    exact List.count_eq_zero.mpr (fun hc => by
      simp only [List.mem_cons, List.not_mem_nil, or_false] at hc
      rcases hc with rfl | rfl | rfl | rfl | rfl <;> exact absurd hml (by decide))
  | .vnull, c, _, hml => by
    simp only [encValL, valCount]
    exact List.count_eq_zero.mpr (fun hc => by
      simp only [List.mem_cons, List.not_mem_nil, or_false] at hc
      rcases hc with rfl | rfl | rfl | rfl <;> exact absurd hml (by decide))
  | .varr es, c, hno, hml => by
    simp only [encValL, valCount, List.count_cons, List.count_append,
      List.count_singleton]
    rw [encElems_false_count es c (by simpa [noOmap] using hno) hml]
    simp [html_beq_false hml (show isHtmlChar '[' = false by decide),
      html_beq_false hml (show isHtmlChar ']' = false by decide)]
  | .vmap ms, c, hno, hml => by
    simp only [encValL, valCount, List.count_cons, List.count_append,
      List.count_singleton]
    rw [encMembers_false_count ms c (by simpa [noOmap] using hno) hml]
    simp [html_beq_false hml (show isHtmlChar '\x7b' = false by decide),
      html_beq_false hml (show isHtmlChar '\x7d' = false by decide)]
theorem encElems_false_count : ∀ (es : List GoVal) (c : Char),
    noOmapL es = true → isHtmlChar c = true →
    (encElems false es).count c = listCount c es
  | [], _, _, _ => rfl
  | v :: vs, c, hno, hml => by
    simp only [noOmapL, Bool.and_eq_true] at hno
    simp only [encElems, listCount, List.count_append,
      encValL_false_count v c hno.1 hml,
      encElemsTail_false_count vs c hno.2 hml]
theorem encElemsTail_false_count : ∀ (es : List GoVal) (c : Char),
    noOmapL es = true → isHtmlChar c = true →
    (encElemsTail false es).count c = listCount c es
  | [], _, _, _ => rfl
  | v :: vs, c, hno, hml => by
    simp only [noOmapL, Bool.and_eq_true] at hno
    simp only [encElemsTail, listCount, List.count_cons, List.count_append,
      encValL_false_count v c hno.1 hml,
      encElemsTail_false_count vs c hno.2 hml]
    simp [html_beq_false hml (show isHtmlChar ',' = false by decide)]
theorem encMembers_false_count : ∀ (ms : List (String × GoVal)) (c : Char),
    noOmapP ms = true → isHtmlChar c = true →
    (encMembers false ms).count c = pairsCount c ms
  | [], _, _, _ => rfl
  | (k, v) :: ms, c, hno, hml => by
    simp only [noOmapP, Bool.and_eq_true] at hno
    simp only [encMembers, pairsCount, List.count_cons, List.count_append,
      encStrL_false_count k c hml,
      encValL_false_count v c hno.1 hml,
      encMembersTail_false_count ms c hno.2 hml]
    simp [html_beq_false hml (show isHtmlChar ':' = false by decide)]
    omega
theorem encMembersTail_false_count : ∀ (ms : List (String × GoVal)) (c : Char),
    noOmapP ms = true → isHtmlChar c = true →
    (encMembersTail false ms).count c = pairsCount c ms
  | [], _, _, _ => rfl
  | (k, v) :: ms, c, hno, hml => by
    simp only [noOmapP, Bool.and_eq_true] at hno
    simp only [encMembersTail, pairsCount, List.count_cons, List.count_append,
      encStrL_false_count k c hml,
      encValL_false_count v c hno.1 hml,
      encMembersTail_false_count ms c hno.2 hml]
    simp [html_beq_false hml (show isHtmlChar ':' = false by decide),
      html_beq_false hml (show isHtmlChar ',' = false by decide)]
    omega
end

theorem mem_marshalEntries {esc : Bool} {vs : List (String × GoVal)} :
    ∀ {ks : List String} {first : Bool} {c : Char},
      c ∈ marshalEntries esc vs ks first →
      c = ',' ∨ ∃ k ∈ ks, c ∈ entryChars esc vs k
  | [], _, _, h => by cases h
  | k :: ks, first, c, h => by
    simp only [marshalEntries, List.mem_append] at h
    rcases h with (h | h) | h
    · split at h
      · cases h
      · simp only [List.mem_singleton] at h
        exact Or.inl h
    · exact Or.inr ⟨k, by simp, h⟩
    · rcases mem_marshalEntries h with h' | ⟨k', hk', hc'⟩
      · exact Or.inl h'
      · exact Or.inr ⟨k', by simp [hk'], hc'⟩

theorem marshal_true_no_html (o : OrderedMap) (hesc : o.escapeHTML = true) :
    ∀ c'' ∈ (MarshalJSON o).data, isHtmlChar c'' = false := by
  intro c'' hc
  simp only [MarshalJSON, hesc, List.mem_cons, List.mem_append,
    List.mem_singleton, List.not_mem_nil, or_false] at hc
  rcases hc with rfl | hc | rfl
  · decide
  · rcases mem_marshalEntries hc with rfl | ⟨k, _, hck⟩
    · decide
    · simp only [entryChars, List.mem_append, List.mem_cons,
        List.mem_singleton, List.not_mem_nil, or_false] at hck
      rcases hck with hck | rfl | rfl | hck | rfl
      · exact encStrL_true_no_html k c'' hck
      · decide
      · decide
      · exact encValL_true_no_html _ c'' hck
      · decide
  · decide

theorem entryChars_false_count (vs : List (String × GoVal)) (k : String)
    (c : Char) (hno : noOmap ((mapLookup vs k).getD .vnull) = true)
    (hml : isHtmlChar c = true) :
    (entryChars false vs k).count c =
      k.data.count c + valCount c ((mapLookup vs k).getD .vnull) := by
  simp only [entryChars, List.count_append, List.count_cons,
    List.count_singleton, encStrL_false_count k c hml,
    encValL_false_count _ c hno hml]
  simp [html_beq_false hml (show isHtmlChar '\n' = false by decide),
    html_beq_false hml (show isHtmlChar ':' = false by decide)]

theorem marshalEntries_false_count (vs : List (String × GoVal)) (c : Char)
    (hml : isHtmlChar c = true) :
    ∀ (ks : List String) (first : Bool),
      noOmapP (ks.map fun k => (k, (mapLookup vs k).getD .vnull)) = true →
      (marshalEntries false vs ks first).count c =
        pairsCount c (ks.map fun k => (k, (mapLookup vs k).getD .vnull))
  | [], _, _ => rfl
  | k :: ks, first, hno => by
    simp only [List.map_cons, noOmapP, Bool.and_eq_true] at hno
    simp only [marshalEntries, List.map_cons, pairsCount, List.count_append,
      entryChars_false_count vs k c hno.1 hml,
      marshalEntries_false_count vs c hml ks false hno.2]
    have hcomma : ((if first then ([] : List Char) else [',']).count c) = 0 := by
      split
      · rfl
      · refine List.count_eq_zero.mpr (fun hc => ?_)
        simp only [List.mem_singleton] at hc
        exact html_beq_false hml (show isHtmlChar ',' = false by decide) hc.symm
    omega

/-- Claim C5 (amended): the constructor defaults the flag to true; with
the flag on, the HTML-unsafe characters of string values are replaced by
their lowercase unicode escapes and no HTML-unsafe byte survives
anywhere in the output, through arbitrary nesting; with the flag off,
every HTML-unsafe character of the container's strings appears literally
(count for count) provided no value is itself an ordered container; a
value that is an ordered container is encoded under the disjunction of
its own flag and the enclosing encoder's flag, so an outer true forces
escaping inside it, while an outer false leaves its own flag in
control. -/
theorem escape_html_flag :
    New.escapeHTML = true
    ∧ encStrL true "<" = ['"', '\\', 'u', '0', '0', '3', 'c', '"']
    ∧ encStrL true ">" = ['"', '\\', 'u', '0', '0', '3', 'e', '"']
    ∧ encStrL true "&" = ['"', '\\', 'u', '0', '0', '2', '6', '"']
    ∧ (∀ o : OrderedMap, o.escapeHTML = true →
        ∀ c'' ∈ (MarshalJSON o).data, isHtmlChar c'' = false)
    ∧ (∀ (o : OrderedMap) (c : Char), o.escapeHTML = false →
        noOmapP (entriesOf o) = true → isHtmlChar c = true →
        (MarshalJSON o).data.count c = pairsCount c (entriesOf o))
    ∧ (∀ entries : List (String × GoVal),
        ∀ c'' ∈ encValL false (.vomap entries true), isHtmlChar c'' = false)
    ∧ (∀ (entries : List (String × GoVal)) (c : Char), noOmapP entries = true →
        isHtmlChar c = true →
        (encValL false (.vomap entries false)).count c = pairsCount c entries) := by
  refine ⟨rfl, by decide, by decide, by decide, marshal_true_no_html, ?_, ?_, ?_⟩
  · intro o c hesc hno hml
    simp only [MarshalJSON, hesc, List.count_cons, List.count_append,
      List.count_singleton]
    rw [marshalEntries_false_count o.values c hml o.keys true hno]
    simp [html_beq_false hml (show isHtmlChar '\x7b' = false by decide),
      html_beq_false hml (show isHtmlChar '\x7d' = false by decide)]
    rfl
  · intro entries c'' hc
    rw [encValL, Bool.false_or] at hc
    simp only [List.mem_cons, List.mem_append, List.mem_singleton,
      List.not_mem_nil, or_false] at hc
    rcases hc with rfl | hc | rfl
    · decide
    · exact encMembers_true_no_html entries c'' hc
    · decide
  · intro entries c hno hml
    rw [encValL, Bool.false_or]
    simp only [List.count_cons, List.count_append, List.count_singleton,
      encMembers_false_count entries c hno hml]
    simp [html_beq_false hml (show isHtmlChar '\x7b' = false by decide),
      html_beq_false hml (show isHtmlChar '\x7d' = false by decide)]

/-- Witness for C5 (amended) at the test file's containers. -/
theorem escape_html_flag_witness :
    (∀ c'' ∈ (MarshalJSON tmOuter).data, isHtmlChar c'' = false)
    ∧ (MarshalJSON tmNoEsc).data.count '<' = pairsCount '<' (entriesOf tmNoEsc) := by
  obtain ⟨-, -, -, -, hall, hcount, -, -⟩ := escape_html_flag
  exact ⟨hall tmOuter rfl, hcount tmNoEsc '<' rfl (by decide) (by decide)⟩

/-- Counterexample for C5 as stated: with the outer flag off, a string
value held inside a nested ordered container whose own flag has the
constructor default true is still escaped — no literal HTML-unsafe byte
appears in the output, although the claim promises literal emission under
the outer false flag for values reached through any nesting, ordered
containers included. -/
theorem escape_flag_nested_counterexample :
    ("<" : String).data.count '<' = 1
    ∧ (Set (SetEscapeHTML New false) "x"
        (.vomap [("a", .vstr "<")] true)).escapeHTML = false
    ∧ (MarshalJSON (Set (SetEscapeHTML New false) "x"
        (.vomap [("a", .vstr "<")] true))).data.count '<' = 0 := by
  refine ⟨by decide, rfl, by decide⟩

/-! ## Key-order reconstruction (decodeOrderedMap) -/

theorem ValToks_cons {ts : List JTok} (h : ValToks ts) :
    ∃ t ts', ts = t :: ts' := by
  cases h with
  | str s => exact ⟨_, _, rfl⟩
  | num n => exact ⟨_, _, rfl⟩
  | bool b => exact ⟨_, _, rfl⟩
  | null => exact ⟨_, _, rfl⟩
  | obj hm => exact ⟨_, _, rfl⟩
  | arr ha => exact ⟨_, _, rfl⟩

theorem orderStep_nodup {ord : List String} {k : String} (h : ord.Nodup) :
    (orderStep ord k).Nodup := by
  rw [orderStep]
  split
  · refine List.Nodup.append (h.erase k) (by simp) ?_
    intro a ha hb
    simp only [List.mem_singleton] at hb
    subst hb
    exact h.not_mem_erase ha
  · rename_i hk
    refine List.Nodup.append h (by simp) ?_
    intro a ha hb
    simp only [List.mem_singleton] at hb
    subst hb
    exact hk ha

theorem mem_orderStep {ord : List String} {k a : String} (hnd : ord.Nodup) :
    a ∈ orderStep ord k ↔ a ∈ ord ∨ a = k := by
  rw [orderStep]
  split
  · rename_i hk
    simp only [List.mem_append, List.mem_singleton, hnd.mem_erase_iff]
    constructor
    · rintro (⟨_, h⟩ | h)
      · exact Or.inl h
      · exact Or.inr h
    · intro h
      by_cases hak : a = k
      · exact Or.inr hak
      · rcases h with h | h
        · exact Or.inl ⟨hak, h⟩
        · exact absurd h hak
  · simp [List.mem_append]

/-- Adequacy of the key-reconstruction loop on any object member stream:
`decodeOrderedMap` consumes exactly the member stream, skips every
value (of any nesting), and leaves the key list at the spec's
first-seen-append, repeat-move-to-end fold; `decodeSlice` consumes
exactly an array element stream.  The `hasKey` set is kept extensionally
equal to the key list, and the fuel bound is twice the stream length. -/
theorem decode_adequate : ∀ n : Nat,
    (∀ ts ks, ts.length ≤ n → ObjMembers ks ts →
      ∀ ord hk rest fuel, 2 * ts.length + 2 ≤ fuel → ord.Nodup →
        (∀ a, a ∈ hk ↔ a ∈ ord) →
        decodeOM fuel (ts ++ rest) ord hk = .ok (ks.foldl orderStep ord, rest))
    ∧ (∀ ts, ts.length ≤ n → ArrElems ts →
      ∀ rest fuel, 2 * ts.length + 2 ≤ fuel →
        decodeSlice fuel (ts ++ rest) = .ok rest) := by
  intro n
  induction n using Nat.strong_induction_on with
  | _ n IH =>
    constructor
    · intro ts ks hlen hm ord hk rest fuel hfuel hnd hiff
      cases hm with
      | nil =>
        obtain ⟨f, rfl⟩ : ∃ f, fuel = f + 1 := ⟨fuel - 1, by omega⟩
        rfl
      | cons k hv hm' =>
        rename_i vts ks' mrest
        obtain ⟨f, rfl⟩ : ∃ f, fuel = f + 1 := ⟨fuel - 1, by omega⟩
        have hcont : hk.contains k = true ↔ k ∈ ord := by
          rw [← hiff k]
          exact List.elem_iff
        have hkeys' :
            (if hk.contains k then shiftRemoveAppend ord k else ord ++ [k])
              = orderStep ord k := by
          by_cases hmem : k ∈ ord
          · rw [if_pos (hcont.mpr hmem), shiftRemoveAppend, if_pos hmem,
              orderStep, if_pos hmem]
          · rw [if_neg (fun hc => hmem (hcont.mp hc)), orderStep, if_neg hmem]
        have hhk' : ∀ a,
            a ∈ (if hk.contains k then hk else k :: hk) ↔ a ∈ orderStep ord k := by
          intro a
          rw [mem_orderStep hnd]
          by_cases hmem : k ∈ ord
          · rw [if_pos (hcont.mpr hmem), hiff a]
            constructor
            · exact Or.inl
            · rintro (h | rfl)
              · exact h
              · exact hmem
          · rw [if_neg (fun hc => hmem (hcont.mp hc))]
            simp only [List.mem_cons, hiff a]
            tauto
        have hnd' : (orderStep ord k).Nodup := orderStep_nodup hnd
        have hfold : (k :: ks').foldl orderStep ord
            = ks'.foldl orderStep (orderStep ord k) := rfl
        cases hv with
        | str s =>
          show decodeOM (f + 1)
            (.tstr k :: .tstr s :: (mrest ++ rest)) ord hk = _
          simp only [decodeOM, hkeys']
          rw [(IH (mrest.length) (by simp at hlen; omega)).1 mrest ks'
            (le_refl _) hm' (orderStep ord k) _ rest f (by simp at hlen hfuel; omega)
            hnd' hhk', hfold]
        | num m =>
          show decodeOM (f + 1)
            (.tstr k :: .tnum m :: (mrest ++ rest)) ord hk = _
          simp only [decodeOM, hkeys']
          rw [(IH (mrest.length) (by simp at hlen; omega)).1 mrest ks'
            (le_refl _) hm' (orderStep ord k) _ rest f (by simp at hlen hfuel; omega)
            hnd' hhk', hfold]
        | bool b =>
          show decodeOM (f + 1)
            (.tstr k :: .tbool b :: (mrest ++ rest)) ord hk = _
          simp only [decodeOM, hkeys']
          rw [(IH (mrest.length) (by simp at hlen; omega)).1 mrest ks'
            (le_refl _) hm' (orderStep ord k) _ rest f (by simp at hlen hfuel; omega)
            hnd' hhk', hfold]
        | null =>
          show decodeOM (f + 1)
            (.tstr k :: .tnull :: (mrest ++ rest)) ord hk = _
          simp only [decodeOM, hkeys']
          rw [(IH (mrest.length) (by simp at hlen; omega)).1 mrest ks'
            (le_refl _) hm' (orderStep ord k) _ rest f (by simp at hlen hfuel; omega)
            hnd' hhk', hfold]
        | obj hm'' =>
          rename_i ks'' mts
          show decodeOM (f + 1)
            (.tstr k :: ((.lbrace :: mts) ++ mrest ++ rest)) ord hk = _
          have hassoc : ((JTok.lbrace :: mts) ++ mrest ++ rest)
              = .lbrace :: (mts ++ (mrest ++ rest)) := by
            simp
          rw [hassoc]
          simp only [decodeOM, hkeys']
          simp only [(IH (mts.length) (by simp at hlen; omega)).1 mts ks''
            (le_refl _) hm'' [] [] (mrest ++ rest) f
            (by simp at hlen hfuel; omega) (by simp) (by simp)]
          rw [(IH (mrest.length) (by simp at hlen; omega)).1 mrest ks'
            (le_refl _) hm' (orderStep ord k) _ rest f (by simp at hlen hfuel; omega)
            hnd' hhk', hfold]
        | arr ha =>
          rename_i ats
          show decodeOM (f + 1)
            (.tstr k :: ((.lbrack :: ats) ++ mrest ++ rest)) ord hk = _
          have hassoc : ((JTok.lbrack :: ats) ++ mrest ++ rest)
              = .lbrack :: (ats ++ (mrest ++ rest)) := by
            simp
          rw [hassoc]
          simp only [decodeOM, hkeys']
          simp only [(IH (ats.length) (by simp at hlen; omega)).2 ats
            (le_refl _) ha (mrest ++ rest) f (by simp at hlen hfuel; omega)]
          rw [(IH (mrest.length) (by simp at hlen; omega)).1 mrest ks'
            (le_refl _) hm' (orderStep ord k) _ rest f (by simp at hlen hfuel; omega)
            hnd' hhk', hfold]
    · intro ts hlen ha rest fuel hfuel
      cases ha with
      | nil =>
        obtain ⟨f, rfl⟩ : ∃ f, fuel = f + 1 := ⟨fuel - 1, by omega⟩
        rfl
      | cons hv ha' =>
        rename_i vts arest
        obtain ⟨f, rfl⟩ : ∃ f, fuel = f + 1 := ⟨fuel - 1, by omega⟩
        cases hv with
        | str s =>
          show decodeSlice (f + 1) (.tstr s :: (arest ++ rest)) = _
          simp only [decodeSlice]
          exact (IH (arest.length) (by simp at hlen; omega)).2 arest
            (le_refl _) ha' rest f (by simp at hlen hfuel; omega)
        | num m =>
          show decodeSlice (f + 1) (.tnum m :: (arest ++ rest)) = _
          simp only [decodeSlice]
          exact (IH (arest.length) (by simp at hlen; omega)).2 arest
            (le_refl _) ha' rest f (by simp at hlen hfuel; omega)
        | bool b =>
          show decodeSlice (f + 1) (.tbool b :: (arest ++ rest)) = _
          simp only [decodeSlice]
          exact (IH (arest.length) (by simp at hlen; omega)).2 arest
            (le_refl _) ha' rest f (by simp at hlen hfuel; omega)
        | null =>
          show decodeSlice (f + 1) (.tnull :: (arest ++ rest)) = _
          simp only [decodeSlice]
          exact (IH (arest.length) (by simp at hlen; omega)).2 arest
            (le_refl _) ha' rest f (by simp at hlen hfuel; omega)
        | obj hm'' =>
          rename_i ks'' mts
          show decodeSlice (f + 1) ((.lbrace :: mts) ++ arest ++ rest) = _
          have hassoc : ((JTok.lbrace :: mts) ++ arest ++ rest)
              = .lbrace :: (mts ++ (arest ++ rest)) := by
            simp
          rw [hassoc]
          simp only [decodeSlice]
          simp only [(IH (mts.length) (by simp at hlen; omega)).1 mts ks''
            (le_refl _) hm'' [] [] (arest ++ rest) f
            (by simp at hlen hfuel; omega) (by simp) (by simp)]
          exact (IH (arest.length) (by simp at hlen; omega)).2 arest
            (le_refl _) ha' rest f (by simp at hlen hfuel; omega)
        | arr ha'' =>
          rename_i ats
          show decodeSlice (f + 1) ((.lbrack :: ats) ++ arest ++ rest) = _
          have hassoc : ((JTok.lbrack :: ats) ++ arest ++ rest)
              = .lbrack :: (ats ++ (arest ++ rest)) := by
            simp
          rw [hassoc]
          simp only [decodeSlice]
          simp only [(IH (ats.length) (by simp at hlen; omega)).2 ats
            (le_refl _) ha'' (arest ++ rest) f (by simp at hlen hfuel; omega)]
          exact (IH (arest.length) (by simp at hlen; omega)).2 arest
            (le_refl _) ha' rest f (by simp at hlen hfuel; omega)

/-- The exact input text of TestUnmarshalJSONDuplicateKeys from the
package's test file: top-level member keys a,b,c,d,b,c,d,e,e,e,a,b with
nested object and array values. -/
def dupTestInput : String :=
  "\x7b\n\t\"a\": [\x7b\x7d, []],\n\t\"b\": \x7b\"x\":[1]\x7d,\n\t\"c\": \"x\",\n\t\"d\": \x7b\"x\":1\x7d,\n\t\"b\": [\x7b\"x\":[]\x7d],\n\t\"c\": 1,\n\t\"d\": \x7b\"y\": 2\x7d,\n\t\"e\": [\x7b\"x\":1\x7d],\n\t\"e\": [[]],\n\t\"e\": [\x7b\"z\":2\x7d],\n\t\"a\": \x7b\x7d,\n\t\"b\": [[1]]\n\x7d"

set_option maxRecDepth 8192 in
/-- Claim C1: on every object member token stream, the key
reconstruction loop realises the last-occurrence rule — first sight of a
key appends it, a repeat sighting removes its previous slot and
re-appends it at the end (the left fold of `orderStep`) — and on the
member-key sequence a,b,c,d,b,c,d,e,e,e,a,b the final key order is
exactly c,d,e,a,b, also when decoding the test file's actual bytes. -/
theorem decode_reconstructs_key_order :
    (∀ (ks : List String) (ts rest : List JTok) (fuel : Nat),
      ObjMembers ks ts → 2 * ts.length + 2 ≤ fuel →
      decodeOM fuel (ts ++ rest) [] [] = .ok (orderFold ks, rest))
    ∧ orderFold ["a", "b", "c", "d", "b", "c", "d", "e", "e", "e", "a", "b"]
        = ["c", "d", "e", "a", "b"]
    ∧ (UnmarshalJSONFun New dupTestInput).toOption.map (fun o => o.keys)
        = some ["c", "d", "e", "a", "b"] := by
  refine ⟨?_, by decide, by decide⟩
  intro ks ts rest fuel hm hfuel
  rw [orderFold]
  exact (decode_adequate ts.length).1 ts ks (le_refl _) hm [] [] rest fuel hfuel
    (by simp) (by simp)

/-- Witness for C1 at a concrete duplicate-key member stream. -/
theorem decode_reconstructs_key_order_witness :
    decodeOM 12 ([.tstr "a", .tnum 1, .tstr "a", .tnum 2, .rbrace] ++ [])
      [] [] = .ok (orderFold ["a", "a"], []) :=
  decode_reconstructs_key_order.1 ["a", "a"]
    [.tstr "a", .tnum 1, .tstr "a", .tnum 2, .rbrace] [] 12
    (ObjMembers.cons "a" (ValToks.num 1)
      (ObjMembers.cons "a" (ValToks.num 2) ObjMembers.nil)) (by decide)

/-! ## Rejection of malformed input -/

/-- Claim C6: on any input the model's tokenizer and value grammar do not
accept as a complete JSON document — unterminated strings, mismatched
brackets, invalid tokens, truncated input — UnmarshalJSON surfaces an
error, and the operation leaves the container entirely unchanged (the
standard library validates the whole input before writing anything). -/
theorem unmarshal_rejects_malformed (o : OrderedMap) (s : String)
    (hbad : validJSONDoc s = false) :
    (∃ e, UnmarshalJSONFun o s = .error e)
    ∧ applyMOp o (.munmarshal s) = o := by
  have herr : ∃ e, UnmarshalJSONFun o s = .error e := by
    cases hlex : lexAll s.data with
    | none =>
      refine ⟨.invalid, ?_⟩
      rw [UnmarshalJSONFun, hlex]
    | some toks =>
      have hbad' : (match parseV (2 * toks.length + 2) toks with
          | some (_, []) => true
          | _ => false) = false := by
        rw [validJSONDoc, hlex] at hbad
        exact hbad
      have hmap : unmarshalIntoMap o.values toks = .error .invalid := by
        cases toks with
        | nil => rfl
        | cons t ts =>
          cases t with
          | tstr a => rfl
          | tnum a => rfl
          | tbool a => rfl
          | lbrack => rfl
          | rbrace => rfl
          | rbrack => rfl
          | tcolon => rfl
          | tcomma => rfl
          | tnull =>
            cases ts with
            | nil => exact absurd hbad' (by decide)
            | cons t2 ts2 => rfl
          | lbrace =>
            rw [unmarshalIntoMap]
            cases hp : parseMembersFirst (2 * ts.length + 3) ts with
            | none => rfl
            | some pr =>
              obtain ⟨prs, prest⟩ := pr
              cases prest with
              | nil =>
                exfalso
                have hv : parseV (2 * (JTok.lbrace :: ts).length + 2)
                    (.lbrace :: ts) = some (.vmap (insertAll [] prs), []) := by
                  have hfe : 2 * (JTok.lbrace :: ts).length + 2
                      = (2 * ts.length + 3) + 1 := by
                    simp
                    omega
                  rw [hfe, parseV, hp]
                rw [hv] at hbad'
                exact Bool.noConfusion hbad'
              | cons p ps => rfl
      refine ⟨.invalid, ?_⟩
      rw [UnmarshalJSONFun_eq_steps hlex]
      simp only [unmarshalSteps, hmap]
  obtain ⟨e, he⟩ := herr
  refine ⟨⟨e, he⟩, ?_⟩
  rw [applyMOp, he]

/-- Witness for C6 at a concrete truncated input. -/
theorem unmarshal_rejects_malformed_witness :
    (∃ e, UnmarshalJSONFun New "\x7b\"a\":" = .error e)
    ∧ applyMOp New (.munmarshal "\x7b\"a\":") = New :=
  unmarshal_rejects_malformed New "\x7b\"a\":" (by decide)

/-! ## Token streams of encoded values

The token sequence the standard tokenizer reports for the bytes the
encoder produces (colons and commas included); the bridge lemmas later
prove that lexing the encoder's bytes yields exactly these streams. -/

mutual
def tokFull : GoVal → List JTok
  | .vstr s => [.tstr s]
  | .vnum n => [.tnum n]
  | .vbool b => [.tbool b]
  | .vnull => [.tnull]
  | .varr es => .lbrack :: (tokElems es ++ [.rbrack])
  | .vmap ms => .lbrace :: (tokMembers ms ++ [.rbrace])
  | .vomap entries _ => .lbrace :: (tokMembers entries ++ [.rbrace])
def tokElems : List GoVal → List JTok
  | [] => []
  | v :: vs => tokFull v ++ tokElemsTail vs
def tokElemsTail : List GoVal → List JTok
  | [] => []
  | v :: vs => .tcomma :: (tokFull v ++ tokElemsTail vs)
def tokMembers : List (String × GoVal) → List JTok
  | [] => []
  | (k, v) :: ms => .tstr k :: .tcolon :: (tokFull v ++ tokMembersTail ms)
def tokMembersTail : List (String × GoVal) → List JTok
  | [] => []
  | (k, v) :: ms => .tcomma :: .tstr k :: .tcolon :: (tokFull v ++ tokMembersTail ms)
end

mutual
/-- Values in the image of the standard decoder for `interface\x7b\x7d`
targets: no nested ordered maps, and every plain map in canonical
(sorted) form — exactly the values for which an encode/decode round
trip can restore the value itself. -/
def plainCanon : GoVal → Bool
  | .vstr _ => true
  | .vnum _ => true
  | .vbool _ => true
  | .vnull => true
  | .varr es => plainCanonL es
  | .vmap ms => decide (SortedKeys ms) && plainCanonP ms
  | .vomap _ _ => false
def plainCanonL : List GoVal → Bool
  | [] => true
  | v :: vs => plainCanon v && plainCanonL vs
def plainCanonP : List (String × GoVal) → Bool
  | [] => true
  | (_, v) :: ms => plainCanon v && plainCanonP ms
end

theorem tokFull_head (v : GoVal) :
    ∃ t ts', tokFull v = t :: ts' ∧ t ≠ .rbrack ∧ t ≠ .rbrace
      ∧ t ≠ .tcolon ∧ t ≠ .tcomma := by
  cases v with
  | vstr s => exact ⟨_, _, rfl, by simp, by simp, by simp, by simp⟩
  | vnum n => exact ⟨_, _, rfl, by simp, by simp, by simp, by simp⟩
  | vbool b => exact ⟨_, _, rfl, by simp, by simp, by simp, by simp⟩
  | vnull => exact ⟨_, _, rfl, by simp, by simp, by simp, by simp⟩
  | varr es => exact ⟨_, _, rfl, by simp, by simp, by simp, by simp⟩
  | vmap ms => exact ⟨_, _, rfl, by simp, by simp, by simp, by simp⟩
  | vomap entries e => exact ⟨_, _, rfl, by simp, by simp, by simp, by simp⟩

theorem parseElemsFirst_cons_not_rbrack {fuel : Nat} {t : JTok}
    {ts : List JTok} (h : t ≠ .rbrack) :
    parseElemsFirst (fuel + 1) (t :: ts) =
      match parseV fuel (t :: ts) with
      | some (v, ts') =>
        match parseElemsNext fuel ts' with
        | some (vs, rest) => some (v :: vs, rest)
        | none => none
      | none => none := by
  cases t with
  | tstr s => rfl
  | tnum n => rfl
  | tbool b => rfl
  | tnull => rfl
  | lbrace => rfl
  | rbrace => rfl
  | lbrack => rfl
  | rbrack => exact absurd rfl h
  | tcolon => rfl
  | tcomma => rfl

/-! ## Properties of the member-insertion fold -/

theorem mapLookup_insertAll_not_mem (acc : List (String × GoVal)) :
    ∀ (prs : List (String × GoVal)) (k : String), k ∉ prs.map Prod.fst →
      mapLookup (insertAll acc prs) k = mapLookup acc k := by
  intro prs
  induction prs generalizing acc with
  | nil => intro k _; rfl
  | cons hd tl ih =>
    obtain ⟨k0, v0⟩ := hd
    intro k hk
    simp only [List.map_cons, List.mem_cons, not_or] at hk
    rw [insertAll, ih (mapInsert acc k0 v0) k hk.2,
      mapLookup_insert_ne acc k0 k v0 hk.1]

theorem mapLookup_insertAll_mem (acc : List (String × GoVal)) :
    ∀ (prs : List (String × GoVal)) (k : String) (v : GoVal),
      (prs.map Prod.fst).Nodup → (k, v) ∈ prs →
      mapLookup (insertAll acc prs) k = some v := by
  intro prs
  induction prs generalizing acc with
  | nil => intro k v _ hmem; cases hmem
  | cons hd tl ih =>
    obtain ⟨k0, v0⟩ := hd
    intro k v hnd hmem
    simp only [List.map_cons, List.nodup_cons] at hnd
    simp only [List.mem_cons] at hmem
    rcases hmem with heq | hmem
    · obtain ⟨rfl, rfl⟩ := Prod.mk.injEq .. ▸ heq
      rw [insertAll, mapLookup_insertAll_not_mem _ tl k hnd.1,
        mapLookup_insert_self]
    · exact ih (mapInsert acc k0 v0) k v hnd.2 hmem

theorem sortedKeys_insertAll (acc : List (String × GoVal)) :
    ∀ prs : List (String × GoVal), SortedKeys acc →
      SortedKeys (insertAll acc prs) := by
  intro prs
  induction prs generalizing acc with
  | nil => intro h; exact h
  | cons hd tl ih =>
    obtain ⟨k0, v0⟩ := hd
    intro h
    exact ih (mapInsert acc k0 v0) (sortedKeys_insert acc k0 v0 h)

theorem mapLookup_isSome_insertAll (acc : List (String × GoVal)) :
    ∀ (prs : List (String × GoVal)) (k : String),
      (mapLookup (insertAll acc prs) k).isSome = true ↔
        (mapLookup acc k).isSome = true ∨ k ∈ prs.map Prod.fst := by
  intro prs
  induction prs generalizing acc with
  | nil =>
    intro k
    simp [insertAll]
  | cons hd tl ih =>
    obtain ⟨k0, v0⟩ := hd
    intro k
    rw [insertAll, ih (mapInsert acc k0 v0) k]
    simp only [List.map_cons, List.mem_cons]
    by_cases heq : k = k0
    · subst heq
      rw [mapLookup_insert_self]
      simp
    · rw [mapLookup_insert_ne acc k0 k v0 heq]
      tauto

theorem sortedKeys_nodup {ms : List (String × GoVal)} (hs : SortedKeys ms) :
    (ms.map Prod.fst).Nodup :=
  hs.imp (fun h => strLt_ne h)

theorem mapLookup_mem_of_sorted : ∀ (ms : List (String × GoVal)) (k : String)
    (v : GoVal), (ms.map Prod.fst).Nodup → (k, v) ∈ ms →
    mapLookup ms k = some v := by
  intro ms
  induction ms with
  | nil => intro k v _ hmem; cases hmem
  | cons hd tl ih =>
    obtain ⟨k0, v0⟩ := hd
    intro k v hnd hmem
    simp only [List.map_cons, List.nodup_cons] at hnd
    simp only [List.mem_cons] at hmem
    rcases hmem with heq | hmem
    · obtain ⟨rfl, rfl⟩ := Prod.mk.injEq .. ▸ heq
      simp [mapLookup]
    · have hne : k ≠ k0 := by
        rintro rfl
        exact hnd.1 (List.mem_map.mpr ⟨(k, v), hmem, rfl⟩)
      simp only [mapLookup, if_neg hne]
      exact ih k v hnd.2 hmem

theorem mapLookup_none_of_not_mem {ms : List (String × GoVal)} {k : String}
    (h : k ∉ ms.map Prod.fst) : mapLookup ms k = none := by
  cases hl : mapLookup ms k with
  | none => rfl
  | some v =>
    exfalso
    exact h ((mapLookup_isSome_iff_mem ms k).mp (by rw [hl]; rfl))

theorem mem_of_mapLookup_eq_some : ∀ {ms : List (String × GoVal)}
    {k : String} {v : GoVal}, mapLookup ms k = some v → (k, v) ∈ ms := by
  intro ms
  induction ms with
  | nil => intro k v h; cases h
  | cons hd tl ih =>
    obtain ⟨k0, v0⟩ := hd
    intro k v h
    by_cases heq : k = k0
    · subst heq
      simp only [mapLookup, if_pos rfl] at h
      obtain rfl := Option.some.injEq .. ▸ h
      exact List.mem_cons_self ..
    · simp only [mapLookup, if_neg heq] at h
      exact List.mem_cons_of_mem _ (ih h)

/-- Folding the members of an already-canonical map into the empty map
restores the map itself. -/
theorem insertAll_sorted_id (ms : List (String × GoVal))
    (hs : SortedKeys ms) : insertAll [] ms = ms := by
  refine mapExt (sortedKeys_insertAll [] ms (by simp [SortedKeys])) hs
    (fun k => ?_)
  cases hl : mapLookup ms k with
  | some v =>
    exact mapLookup_insertAll_mem [] ms k v (sortedKeys_nodup hs)
      (mem_of_mapLookup_eq_some hl)
  | none =>
    rw [mapLookup_insertAll_not_mem [] ms k
      (fun hmem => by
        rw [← mapLookup_isSome_iff_mem ms k, hl] at hmem
        exact Bool.noConfusion hmem)]
    rfl

/-! ## Adequacy of the strict value grammar on encoded streams -/

mutual
/-- The strict decoder accepts the token stream of any canonical plain
value and returns the value itself. -/
theorem parseV_tokFull : ∀ (v : GoVal), plainCanon v = true →
    ∀ (rest : List JTok) (fuel : Nat), 2 * (tokFull v).length ≤ fuel →
    parseV fuel (tokFull v ++ rest) = some (v, rest)
  | .vstr s => fun _ rest fuel hf => by
    obtain ⟨f, rfl⟩ : ∃ f, fuel = f + 1 :=
      ⟨fuel - 1, by simp [tokFull] at hf; omega⟩
    rfl
  | .vnum n => fun _ rest fuel hf => by
    obtain ⟨f, rfl⟩ : ∃ f, fuel = f + 1 :=
      ⟨fuel - 1, by simp [tokFull] at hf; omega⟩
    rfl
  | .vbool b => fun _ rest fuel hf => by
    obtain ⟨f, rfl⟩ : ∃ f, fuel = f + 1 :=
      ⟨fuel - 1, by simp [tokFull] at hf; omega⟩
    rfl
  | .vnull => fun _ rest fuel hf => by
    obtain ⟨f, rfl⟩ : ∃ f, fuel = f + 1 :=
      ⟨fuel - 1, by simp [tokFull] at hf; omega⟩
    rfl
  | .varr es => fun hp rest fuel hf => by
    obtain ⟨f, rfl⟩ : ∃ f, fuel = f + 1 :=
      ⟨fuel - 1, by simp [tokFull] at hf; omega⟩
    show parseV (f + 1) (.lbrack :: ((tokElems es ++ [.rbrack]) ++ rest))
      = some (.varr es, rest)
    have hassoc : (tokElems es ++ [JTok.rbrack]) ++ rest
        = tokElems es ++ (.rbrack :: rest) := by
      simp
    rw [hassoc]
    simp only [parseV,
      parseElemsFirst_tokElems es (by simpa [plainCanon] using hp) rest f
        (by simp [tokFull] at hf; omega)]
  | .vmap ms => fun hp rest fuel hf => by
    obtain ⟨f, rfl⟩ : ∃ f, fuel = f + 1 :=
      ⟨fuel - 1, by simp [tokFull] at hf; omega⟩
    have hp' : SortedKeys ms ∧ plainCanonP ms = true := by
      have := hp
      simp only [plainCanon, Bool.and_eq_true, decide_eq_true_eq] at this
      exact this
    show parseV (f + 1) (.lbrace :: ((tokMembers ms ++ [.rbrace]) ++ rest))
      = some (.vmap ms, rest)
    have hassoc : (tokMembers ms ++ [JTok.rbrace]) ++ rest
        = tokMembers ms ++ (.rbrace :: rest) := by
      simp
    rw [hassoc]
    simp only [parseV,
      parseMembersFirst_tokMembers ms hp'.2 rest f
        (by simp [tokFull] at hf; omega),
      insertAll_sorted_id ms hp'.1]
  | .vomap entries e => fun hp => by
    simp [plainCanon] at hp
theorem parseMembersFirst_tokMembers : ∀ (ms : List (String × GoVal)),
    plainCanonP ms = true → ∀ (rest : List JTok) (fuel : Nat),
    2 * (tokMembers ms).length + 2 ≤ fuel →
    parseMembersFirst fuel (tokMembers ms ++ (.rbrace :: rest)) = some (ms, rest)
  | [] => fun _ rest fuel hf => by
    obtain ⟨f, rfl⟩ : ∃ f, fuel = f + 1 := ⟨fuel - 1, by omega⟩
    rfl
  | (k, v) :: ms => fun hp rest fuel hf => by
    simp only [plainCanonP, Bool.and_eq_true] at hp
    obtain ⟨f, rfl⟩ : ∃ f, fuel = f + 1 := ⟨fuel - 1, by omega⟩
    show parseMembersFirst (f + 1)
      (.tstr k :: .tcolon :: ((tokFull v ++ tokMembersTail ms) ++ (.rbrace :: rest)))
      = some ((k, v) :: ms, rest)
    have hassoc : (tokFull v ++ tokMembersTail ms) ++ (JTok.rbrace :: rest)
        = tokFull v ++ (tokMembersTail ms ++ (.rbrace :: rest)) := by
      simp
    rw [hassoc]
    simp only [parseMembersFirst,
      parseV_tokFull v hp.1 _ f (by simp [tokMembers, tokFull] at hf ⊢; omega),
      parseMembersNext_tokMembersTail ms hp.2 rest f
        (by simp [tokMembers] at hf; omega)]
theorem parseMembersNext_tokMembersTail : ∀ (ms : List (String × GoVal)),
    plainCanonP ms = true → ∀ (rest : List JTok) (fuel : Nat),
    2 * (tokMembersTail ms).length + 2 ≤ fuel →
    parseMembersNext fuel (tokMembersTail ms ++ (.rbrace :: rest)) = some (ms, rest)
  | [] => fun _ rest fuel hf => by
    obtain ⟨f, rfl⟩ : ∃ f, fuel = f + 1 := ⟨fuel - 1, by omega⟩
    rfl
  | (k, v) :: ms => fun hp rest fuel hf => by
    simp only [plainCanonP, Bool.and_eq_true] at hp
    obtain ⟨f, rfl⟩ : ∃ f, fuel = f + 1 := ⟨fuel - 1, by omega⟩
    show parseMembersNext (f + 1)
      (.tcomma :: .tstr k :: .tcolon ::
        ((tokFull v ++ tokMembersTail ms) ++ (.rbrace :: rest)))
      = some ((k, v) :: ms, rest)
    have hassoc : (tokFull v ++ tokMembersTail ms) ++ (JTok.rbrace :: rest)
        = tokFull v ++ (tokMembersTail ms ++ (.rbrace :: rest)) := by
      simp
    rw [hassoc]
    simp only [parseMembersNext,
      parseV_tokFull v hp.1 _ f (by simp [tokMembersTail] at hf; omega),
      parseMembersNext_tokMembersTail ms hp.2 rest f
        (by simp [tokMembersTail] at hf; omega)]
theorem parseElemsFirst_tokElems : ∀ (es : List GoVal),
    plainCanonL es = true → ∀ (rest : List JTok) (fuel : Nat),
    2 * (tokElems es).length + 2 ≤ fuel →
    parseElemsFirst fuel (tokElems es ++ (.rbrack :: rest)) = some (es, rest)
  | [] => fun _ rest fuel hf => by
    obtain ⟨f, rfl⟩ : ∃ f, fuel = f + 1 := ⟨fuel - 1, by omega⟩
    rfl
  | v :: vs => fun hp rest fuel hf => by
    simp only [plainCanonL, Bool.and_eq_true] at hp
    obtain ⟨f, rfl⟩ : ∃ f, fuel = f + 1 := ⟨fuel - 1, by omega⟩
    obtain ⟨t, ts', hts, hrk, -, -, -⟩ := tokFull_head v
    show parseElemsFirst (f + 1)
      ((tokFull v ++ tokElemsTail vs) ++ (.rbrack :: rest)) = some (v :: vs, rest)
    have hassoc : (tokFull v ++ tokElemsTail vs) ++ (JTok.rbrack :: rest)
        = t :: (ts' ++ (tokElemsTail vs ++ (.rbrack :: rest))) := by
      rw [hts]
      simp
    rw [hassoc, parseElemsFirst_cons_not_rbrack hrk]
    have hfull : t :: (ts' ++ (tokElemsTail vs ++ (.rbrack :: rest)))
        = tokFull v ++ (tokElemsTail vs ++ (.rbrack :: rest)) := by
      rw [hts]
      simp
    have h1 : 1 ≤ (tokFull v).length := by
      rw [hts]
      simp
    rw [hfull]
    simp only [parseV_tokFull v hp.1 _ f (by simp [tokElems] at hf; omega),
      parseElemsNext_tokElemsTail vs hp.2 rest f
        (by simp [tokElems] at hf; omega)]
theorem parseElemsNext_tokElemsTail : ∀ (es : List GoVal),
    plainCanonL es = true → ∀ (rest : List JTok) (fuel : Nat),
    2 * (tokElemsTail es).length + 2 ≤ fuel →
    parseElemsNext fuel (tokElemsTail es ++ (.rbrack :: rest)) = some (es, rest)
  | [] => fun _ rest fuel hf => by
    obtain ⟨f, rfl⟩ : ∃ f, fuel = f + 1 := ⟨fuel - 1, by omega⟩
    rfl
  | v :: vs => fun hp rest fuel hf => by
    simp only [plainCanonL, Bool.and_eq_true] at hp
    obtain ⟨f, rfl⟩ : ∃ f, fuel = f + 1 := ⟨fuel - 1, by omega⟩
    show parseElemsNext (f + 1)
      (.tcomma :: ((tokFull v ++ tokElemsTail vs) ++ (.rbrack :: rest)))
      = some (v :: vs, rest)
    have hassoc : (tokFull v ++ tokElemsTail vs) ++ (JTok.rbrack :: rest)
        = tokFull v ++ (tokElemsTail vs ++ (.rbrack :: rest)) := by
      simp
    rw [hassoc]
    simp only [parseElemsNext,
      parseV_tokFull v hp.1 _ f (by simp [tokElemsTail] at hf; omega),
      parseElemsNext_tokElemsTail vs hp.2 rest f
        (by simp [tokElemsTail] at hf; omega)]
end

/-! ## The lexer bridge

Lexing the bytes the encoder produces yields exactly the token streams
of the `tokFull` family.  Proved stepwise: single-token chunk lemmas
about `lexStep`, a fuel-insensitivity lemma for the tokenizer loop, and
a mutual induction over values. -/

/-- Unfolding equation for `lexStrAux` on a cons, spelled with plain
conditionals for branch analysis. -/
theorem lexStrAux_cons_eq (c : Char) (cs acc : List Char) :
    lexStrAux (c :: cs) acc =
      (if c = '"' then some (acc.reverse, cs)
      else if c = '\\' then
        match cs with
        | [] => none
        | e :: cs2 =>
          if e = 'n' then lexStrAux cs2 ('\n' :: acc)
          else if e = 'r' then lexStrAux cs2 ('\r' :: acc)
          else if e = 't' then lexStrAux cs2 ('\t' :: acc)
          else if e = 'b' then lexStrAux cs2 (Char.ofNat 8 :: acc)
          else if e = 'f' then lexStrAux cs2 (Char.ofNat 12 :: acc)
          else if e = '"' then lexStrAux cs2 ('"' :: acc)
          else if e = '\\' then lexStrAux cs2 ('\\' :: acc)
          else if e = '/' then lexStrAux cs2 ('/' :: acc)
          else if e = 'u' then
            match cs2 with
            | x1 :: x2 :: x3 :: x4 :: cs3 =>
              match hexVal x1, hexVal x2, hexVal x3, hexVal x4 with
              | some a, some b, some c2, some d =>
                lexStrAux cs3
                  (Char.ofNat (((a * 16 + b) * 16 + c2) * 16 + d) :: acc)
              | _, _, _, _ => none
            | _ => none
          else none
      else if c.toNat < 32 then none
      else lexStrAux cs (c :: acc)) := by
  conv_lhs => unfold lexStrAux

theorem lexStrAux_quote_eq (cs acc : List Char) :
    lexStrAux ('"' :: cs) acc = some (acc.reverse, cs) := by
  conv_lhs => unfold lexStrAux
  try rfl

theorem lexStrAux_bs_nil_eq (acc : List Char) :
    lexStrAux ['\\'] acc = none := by
  conv_lhs => unfold lexStrAux
  try rfl

theorem lexStrAux_esc_n_eq (cs2 acc : List Char) :
    lexStrAux ('\\' :: 'n' :: cs2) acc = lexStrAux cs2 ('\n' :: acc) := by
  conv_lhs => unfold lexStrAux
  try rfl

theorem lexStrAux_esc_r_eq (cs2 acc : List Char) :
    lexStrAux ('\\' :: 'r' :: cs2) acc = lexStrAux cs2 ('\r' :: acc) := by
  conv_lhs => unfold lexStrAux
  try rfl

theorem lexStrAux_esc_t_eq (cs2 acc : List Char) :
    lexStrAux ('\\' :: 't' :: cs2) acc = lexStrAux cs2 ('\t' :: acc) := by
  conv_lhs => unfold lexStrAux
  try rfl

theorem lexStrAux_esc_b_eq (cs2 acc : List Char) :
    lexStrAux ('\\' :: 'b' :: cs2) acc
      = lexStrAux cs2 (Char.ofNat 8 :: acc) := by
  conv_lhs => unfold lexStrAux
  try rfl

theorem lexStrAux_esc_f_eq (cs2 acc : List Char) :
    lexStrAux ('\\' :: 'f' :: cs2) acc
      = lexStrAux cs2 (Char.ofNat 12 :: acc) := by
  conv_lhs => unfold lexStrAux
  try rfl

theorem lexStrAux_esc_q_eq (cs2 acc : List Char) :
    lexStrAux ('\\' :: '"' :: cs2) acc = lexStrAux cs2 ('"' :: acc) := by
  conv_lhs => unfold lexStrAux
  try rfl

theorem lexStrAux_esc_bs_eq (cs2 acc : List Char) :
    lexStrAux ('\\' :: '\\' :: cs2) acc = lexStrAux cs2 ('\\' :: acc) := by
  conv_lhs => unfold lexStrAux
  try rfl

theorem lexStrAux_esc_sl_eq (cs2 acc : List Char) :
    lexStrAux ('\\' :: '/' :: cs2) acc = lexStrAux cs2 ('/' :: acc) := by
  conv_lhs => unfold lexStrAux
  try rfl

theorem lexStrAux_u4_eq (x1 x2 x3 x4 : Char) (t4 acc : List Char) :
    lexStrAux ('\\' :: 'u' :: x1 :: x2 :: x3 :: x4 :: t4) acc =
      (match hexVal x1, hexVal x2, hexVal x3, hexVal x4 with
      | some a, some b, some c2, some d =>
        lexStrAux t4 (Char.ofNat (((a * 16 + b) * 16 + c2) * 16 + d) :: acc)
      | _, _, _, _ => none) := by
  conv_lhs => unfold lexStrAux
  try rfl

theorem lexStrAux_u0_eq (acc : List Char) :
    lexStrAux ('\\' :: 'u' :: []) acc = none := by
  conv_lhs => unfold lexStrAux
  try rfl

theorem lexStrAux_u1_eq (x1 : Char) (acc : List Char) :
    lexStrAux ('\\' :: 'u' :: [x1]) acc = none := by
  conv_lhs => unfold lexStrAux
  try rfl

theorem lexStrAux_u2_eq (x1 x2 : Char) (acc : List Char) :
    lexStrAux ('\\' :: 'u' :: [x1, x2]) acc = none := by
  conv_lhs => unfold lexStrAux
  try rfl

theorem lexStrAux_u3_eq (x1 x2 x3 : Char) (acc : List Char) :
    lexStrAux ('\\' :: 'u' :: [x1, x2, x3]) acc = none := by
  conv_lhs => unfold lexStrAux
  try rfl

theorem lexStrAux_esc_none (e : Char) (cs2 acc : List Char)
    (g1 : e ≠ 'n') (g2 : e ≠ 'r') (g3 : e ≠ 't') (g4 : e ≠ 'b') (g5 : e ≠ 'f')
    (g6 : e ≠ '"') (g7 : e ≠ '\\') (g8 : e ≠ '/') (g9 : e ≠ 'u') :
    lexStrAux ('\\' :: e :: cs2) acc = none := by
  rw [lexStrAux_cons_eq, if_neg (by decide : ¬('\\' : Char) = '"'), if_pos rfl]
  show (if e = 'n' then lexStrAux cs2 ('\n' :: acc)
      else if e = 'r' then lexStrAux cs2 ('\r' :: acc)
      else if e = 't' then lexStrAux cs2 ('\t' :: acc)
      else if e = 'b' then lexStrAux cs2 (Char.ofNat 8 :: acc)
      else if e = 'f' then lexStrAux cs2 (Char.ofNat 12 :: acc)
      else if e = '"' then lexStrAux cs2 ('"' :: acc)
      else if e = '\\' then lexStrAux cs2 ('\\' :: acc)
      else if e = '/' then lexStrAux cs2 ('/' :: acc)
      else if e = 'u' then
        match cs2 with
        | x1 :: x2 :: x3 :: x4 :: cs3 =>
          match hexVal x1, hexVal x2, hexVal x3, hexVal x4 with
          | some a, some b, some c2, some d =>
            lexStrAux cs3
              (Char.ofNat (((a * 16 + b) * 16 + c2) * 16 + d) :: acc)
          | _, _, _, _ => none
        | _ => none
      else none) = none
  rw [if_neg g1, if_neg g2, if_neg g3, if_neg g4, if_neg g5, if_neg g6,
    if_neg g7, if_neg g8, if_neg g9]

theorem lexStrAux_ctrl_eq (c : Char) (cs acc : List Char)
    (g1 : c ≠ '"') (g2 : c ≠ '\\') (g3 : c.toNat < 32) :
    lexStrAux (c :: cs) acc = none := by
  rw [lexStrAux_cons_eq, if_neg g1, if_neg g2, if_pos g3]

theorem lexStrAux_plain_eq (c : Char) (cs acc : List Char)
    (g1 : c ≠ '"') (g2 : c ≠ '\\') (g3 : ¬c.toNat < 32) :
    lexStrAux (c :: cs) acc = lexStrAux cs (c :: acc) := by
  rw [lexStrAux_cons_eq, if_neg g1, if_neg g2, if_neg g3]

theorem lexStrAux_length : ∀ (n : Nat) (cs acc body rest : List Char),
    lexStrAux cs acc = some (body, rest) → cs.length ≤ n →
    rest.length < cs.length := by
  intro n
  induction n with
  | zero =>
    intro cs acc body rest h hn
    obtain rfl : cs = [] := List.eq_nil_of_length_eq_zero (by omega)
    simp [lexStrAux] at h
  | succ m ih =>
    intro cs acc body rest h hn
    cases cs with
    | nil => simp [lexStrAux] at h
    | cons c cs =>
      simp only [List.length_cons] at hn
      by_cases h1 : c = '"'
      · subst h1
        rw [lexStrAux_quote_eq] at h
        obtain ⟨-, rfl⟩ := Prod.mk.inj (Option.some_inj.mp h)
        exact Nat.lt_succ_self _
      by_cases h2 : c = '\\'
      · subst h2
        cases cs with
        | nil => rw [lexStrAux_bs_nil_eq] at h; exact Option.noConfusion h
        | cons e cs2 =>
          simp only [List.length_cons] at hn
          by_cases he1 : e = 'n'
          · subst he1
            rw [lexStrAux_esc_n_eq] at h
            have hlt := ih _ _ _ _ h (by omega)
            simp only [List.length_cons]
            omega
          by_cases he2 : e = 'r'
          · subst he2
            rw [lexStrAux_esc_r_eq] at h
            have hlt := ih _ _ _ _ h (by omega)
            simp only [List.length_cons]
            omega
          by_cases he3 : e = 't'
          · subst he3
            rw [lexStrAux_esc_t_eq] at h
            have hlt := ih _ _ _ _ h (by omega)
            simp only [List.length_cons]
            omega
          by_cases he4 : e = 'b'
          · subst he4
            rw [lexStrAux_esc_b_eq] at h
            have hlt := ih _ _ _ _ h (by omega)
            simp only [List.length_cons]
            omega
          by_cases he5 : e = 'f'
          · subst he5
            rw [lexStrAux_esc_f_eq] at h
            have hlt := ih _ _ _ _ h (by omega)
            simp only [List.length_cons]
            omega
          by_cases he6 : e = '"'
          · subst he6
            rw [lexStrAux_esc_q_eq] at h
            have hlt := ih _ _ _ _ h (by omega)
            simp only [List.length_cons]
            omega
          by_cases he7 : e = '\\'
          · subst he7
            rw [lexStrAux_esc_bs_eq] at h
            have hlt := ih _ _ _ _ h (by omega)
            simp only [List.length_cons]
            omega
          by_cases he8 : e = '/'
          · subst he8
            rw [lexStrAux_esc_sl_eq] at h
            have hlt := ih _ _ _ _ h (by omega)
            simp only [List.length_cons]
            omega
          by_cases he9 : e = 'u'
          · subst he9
            rcases cs2 with - | ⟨x1, t1⟩
            · rw [lexStrAux_u0_eq] at h
              exact Option.noConfusion h
            rcases t1 with - | ⟨x2, t2⟩
            · rw [lexStrAux_u1_eq] at h
              exact Option.noConfusion h
            rcases t2 with - | ⟨x3, t3⟩
            · rw [lexStrAux_u2_eq] at h
              exact Option.noConfusion h
            rcases t3 with - | ⟨x4, t4⟩
            · rw [lexStrAux_u3_eq] at h
              exact Option.noConfusion h
            rw [lexStrAux_u4_eq] at h
            rcases hv1 : hexVal x1 with - | a <;> rw [hv1] at h
            · exact Option.noConfusion h
            rcases hv2 : hexVal x2 with - | b <;> rw [hv2] at h
            · exact Option.noConfusion h
            rcases hv3 : hexVal x3 with - | c2 <;> rw [hv3] at h
            · exact Option.noConfusion h
            rcases hv4 : hexVal x4 with - | d <;> rw [hv4] at h
            · exact Option.noConfusion h
            replace h : lexStrAux t4
                (Char.ofNat (((a * 16 + b) * 16 + c2) * 16 + d) :: acc)
                = some (body, rest) := h
            simp only [List.length_cons] at hn
            have hlt := ih _ _ _ _ h (by omega)
            simp only [List.length_cons]
            omega
          rw [lexStrAux_esc_none e cs2 acc he1 he2 he3 he4 he5 he6 he7 he8
            he9] at h
          exact Option.noConfusion h
      by_cases h3 : c.toNat < 32
      · rw [lexStrAux_ctrl_eq c cs acc h1 h2 h3] at h
        exact Option.noConfusion h
      rw [lexStrAux_plain_eq c cs acc h1 h2 h3] at h
      have hlt := ih _ _ _ _ h (by omega)
      simp only [List.length_cons]
      omega

theorem lexDigits_length : ∀ (cs : List Char) (acc : Nat),
    (lexDigits cs acc).2.length ≤ cs.length := by
  intro cs
  induction cs with
  | nil => intro acc; simp [lexDigits]
  | cons c cs ih =>
    intro acc
    simp only [lexDigits]
    split
    · exact le_trans (ih _) (by simp only [List.length_cons]; omega)
    · simp

/-- Unfolding equation for `lexStep` on a cons, spelled with plain
conditionals for branch analysis. -/
theorem lexStep_cons_eq (c : Char) (cs : List Char) :
    lexStep (c :: cs) =
      (if c = ' ' ∨ c = '\n' ∨ c = '\t' ∨ c = '\r' then some (none, cs)
      else if c = '\x7b' then some (some .lbrace, cs)
      else if c = '\x7d' then some (some .rbrace, cs)
      else if c = '[' then some (some .lbrack, cs)
      else if c = ']' then some (some .rbrack, cs)
      else if c = ':' then some (some .tcolon, cs)
      else if c = ',' then some (some .tcomma, cs)
      else if c = '"' then
        match lexStrAux cs [] with
        | some (body, rest) => some (some (.tstr ⟨body⟩), rest)
        | none => none
      else if c = '-' then
        match cs with
        | d :: cs2 =>
          if isDigitC d then
            if numBoundary (lexDigits cs2 (d.toNat - 48)).2 then
              some (some (.tnum (-((lexDigits cs2 (d.toNat - 48)).1 : Int))),
                (lexDigits cs2 (d.toNat - 48)).2)
            else none
          else none
        | [] => none
      else if isDigitC c then
        if numBoundary (lexDigits cs (c.toNat - 48)).2 then
          some (some (.tnum ((lexDigits cs (c.toNat - 48)).1 : Int)),
            (lexDigits cs (c.toNat - 48)).2)
        else none
      else if c = 't' then
        match cs with
        | c1 :: c2 :: c3 :: rest =>
          if c1 = 'r' ∧ c2 = 'u' ∧ c3 = 'e' then some (some (.tbool true), rest)
          else none
        | _ => none
      else if c = 'f' then
        match cs with
        | c1 :: c2 :: c3 :: c4 :: rest =>
          if c1 = 'a' ∧ c2 = 'l' ∧ c3 = 's' ∧ c4 = 'e' then
            some (some (.tbool false), rest)
          else none
        | _ => none
      else if c = 'n' then
        match cs with
        | c1 :: c2 :: c3 :: rest =>
          if c1 = 'u' ∧ c2 = 'l' ∧ c3 = 'l' then some (some .tnull, rest)
          else none
        | _ => none
      else none) := rfl

theorem lexStep_length : ∀ (cs : List Char) (p : Option JTok × List Char),
    lexStep cs = some p → p.2.length < cs.length := by
  intro cs p h
  cases cs with
  | nil => simp [lexStep] at h
  | cons c cs =>
    rw [lexStep_cons_eq] at h
    by_cases h1 : c = ' ' ∨ c = '\n' ∨ c = '\t' ∨ c = '\r'
    · rw [if_pos h1] at h
      obtain rfl := Option.some_inj.mp h
      exact Nat.lt_succ_self _
    rw [if_neg h1] at h
    by_cases h2 : c = '\x7b'
    · rw [if_pos h2] at h
      obtain rfl := Option.some_inj.mp h
      exact Nat.lt_succ_self _
    rw [if_neg h2] at h
    by_cases h3 : c = '\x7d'
    · rw [if_pos h3] at h
      obtain rfl := Option.some_inj.mp h
      exact Nat.lt_succ_self _
    rw [if_neg h3] at h
    by_cases h4 : c = '['
    · rw [if_pos h4] at h
      obtain rfl := Option.some_inj.mp h
      exact Nat.lt_succ_self _
    rw [if_neg h4] at h
    by_cases h5 : c = ']'
    · rw [if_pos h5] at h
      obtain rfl := Option.some_inj.mp h
      exact Nat.lt_succ_self _
    rw [if_neg h5] at h
    by_cases h6 : c = ':'
    · rw [if_pos h6] at h
      obtain rfl := Option.some_inj.mp h
      exact Nat.lt_succ_self _
    rw [if_neg h6] at h
    by_cases h7 : c = ','
    · rw [if_pos h7] at h
      obtain rfl := Option.some_inj.mp h
      exact Nat.lt_succ_self _
    rw [if_neg h7] at h
    by_cases h8 : c = '"'
    · rw [if_pos h8] at h
      rcases hsa : lexStrAux cs [] with - | ⟨body, rest⟩ <;> rw [hsa] at h
      · exact Option.noConfusion h
      · replace h : some ((some (JTok.tstr ⟨body⟩) : Option JTok), rest)
            = some p := h
        obtain rfl := Option.some_inj.mp h
        exact Nat.lt_succ_of_lt
          (lexStrAux_length cs.length cs [] body rest hsa (le_refl _))
    rw [if_neg h8] at h
    by_cases h9 : c = '-'
    · rw [if_pos h9] at h
      rcases cs with - | ⟨d, cs2⟩
      · exact Option.noConfusion h
      replace h :
          (if isDigitC d then
            if numBoundary (lexDigits cs2 (d.toNat - 48)).2 then
              some ((some (JTok.tnum (-((lexDigits cs2 (d.toNat - 48)).1 : Int)))
                  : Option JTok),
                (lexDigits cs2 (d.toNat - 48)).2)
            else none
          else none) = some p := h
      by_cases hd : isDigitC d
      · rw [if_pos hd] at h
        by_cases hb : numBoundary (lexDigits cs2 (d.toNat - 48)).2
        · rw [if_pos hb] at h
          obtain rfl := Option.some_inj.mp h
          exact Nat.lt_succ_of_lt
            (Nat.lt_succ_of_le (lexDigits_length cs2 (d.toNat - 48)))
        · rw [if_neg hb] at h
          exact Option.noConfusion h
      · rw [if_neg hd] at h
        exact Option.noConfusion h
    rw [if_neg h9] at h
    by_cases h10 : isDigitC c
    · rw [if_pos h10] at h
      by_cases hb : numBoundary (lexDigits cs (c.toNat - 48)).2
      · rw [if_pos hb] at h
        obtain rfl := Option.some_inj.mp h
        exact Nat.lt_succ_of_le (lexDigits_length cs (c.toNat - 48))
      · rw [if_neg hb] at h
        exact Option.noConfusion h
    rw [if_neg h10] at h
    by_cases h11 : c = 't'
    · rw [if_pos h11] at h
      rcases cs with - | ⟨c1, t1⟩
      · exact Option.noConfusion h
      rcases t1 with - | ⟨c2, t2⟩
      · exact Option.noConfusion h
      rcases t2 with - | ⟨c3, t3⟩
      · exact Option.noConfusion h
      replace h : (if c1 = 'r' ∧ c2 = 'u' ∧ c3 = 'e' then
          some ((some (JTok.tbool true) : Option JTok), t3)
          else none) = some p := h
      by_cases hk : c1 = 'r' ∧ c2 = 'u' ∧ c3 = 'e'
      · rw [if_pos hk] at h
        obtain rfl := Option.some_inj.mp h
        simp only [List.length_cons]
        omega
      · rw [if_neg hk] at h
        exact Option.noConfusion h
    rw [if_neg h11] at h
    by_cases h12 : c = 'f'
    · rw [if_pos h12] at h
      rcases cs with - | ⟨c1, t1⟩
      · exact Option.noConfusion h
      rcases t1 with - | ⟨c2, t2⟩
      · exact Option.noConfusion h
      rcases t2 with - | ⟨c3, t3⟩
      · exact Option.noConfusion h
      rcases t3 with - | ⟨c4, t4⟩
      · exact Option.noConfusion h
      replace h : (if c1 = 'a' ∧ c2 = 'l' ∧ c3 = 's' ∧ c4 = 'e' then
          some ((some (JTok.tbool false) : Option JTok), t4)
          else none) = some p := h
      by_cases hk : c1 = 'a' ∧ c2 = 'l' ∧ c3 = 's' ∧ c4 = 'e'
      · rw [if_pos hk] at h
        obtain rfl := Option.some_inj.mp h
        simp only [List.length_cons]
        omega
      · rw [if_neg hk] at h
        exact Option.noConfusion h
    rw [if_neg h12] at h
    by_cases h13 : c = 'n'
    · rw [if_pos h13] at h
      rcases cs with - | ⟨c1, t1⟩
      · exact Option.noConfusion h
      rcases t1 with - | ⟨c2, t2⟩
      · exact Option.noConfusion h
      rcases t2 with - | ⟨c3, t3⟩
      · exact Option.noConfusion h
      replace h : (if c1 = 'u' ∧ c2 = 'l' ∧ c3 = 'l' then
          some ((some JTok.tnull : Option JTok), t3)
          else none) = some p := h
      by_cases hk : c1 = 'u' ∧ c2 = 'l' ∧ c3 = 'l'
      · rw [if_pos hk] at h
        obtain rfl := Option.some_inj.mp h
        simp only [List.length_cons]
        omega
      · rw [if_neg hk] at h
        exact Option.noConfusion h
    rw [if_neg h13] at h
    exact Option.noConfusion h

theorem lexAllF_irrel : ∀ (f1 : Nat) (cs : List Char) (f2 : Nat),
    cs.length < f1 → cs.length < f2 → lexAllF f1 cs = lexAllF f2 cs := by
  intro f1
  induction f1 with
  | zero => intro cs f2 h1 _; exact absurd h1 (by omega)
  | succ f ih =>
    intro cs f2 h1 h2
    obtain ⟨g, rfl⟩ : ∃ g, f2 = g + 1 := ⟨f2 - 1, by omega⟩
    cases cs with
    | nil => rfl
    | cons c cs =>
      simp only [lexAllF]
      cases hs : lexStep (c :: cs) with
      | none => rfl
      | some q =>
        obtain ⟨ot, rest⟩ := q
        have hlen := lexStep_length _ _ hs
        simp only [List.length_cons] at hlen h1 h2
        cases ot with
        | none => exact ih rest g (by omega) (by omega)
        | some t =>
          exact congrArg (Option.map (fun ts => t :: ts))
            (ih rest g (by omega) (by omega))

/-- Consuming one recognized token chunk advances the tokenizer loop by
one token without touching the fuel count, as long as the fuel exceeds
the input length. -/
theorem lexAllF_chunk {chunk : List Char} {t : JTok} {rest : List Char}
    {fuel : Nat} (hs : lexStep (chunk ++ rest) = some (some t, rest))
    (hlen : (chunk ++ rest).length < fuel) (hne : chunk ≠ []) :
    lexAllF fuel (chunk ++ rest) =
      (lexAllF fuel rest).map (fun ts => t :: ts) := by
  obtain ⟨c, cs, rfl⟩ : ∃ c cs, chunk = c :: cs := by
    cases chunk with
    | nil => exact absurd rfl hne
    | cons c cs => exact ⟨c, cs, rfl⟩
  obtain ⟨f, rfl⟩ : ∃ f, fuel = f + 1 := ⟨fuel - 1, by omega⟩
  have hlen' : rest.length < f := by
    simp only [List.cons_append, List.length_cons, List.length_append] at hlen
    omega
  show lexAllF (f + 1) (c :: (cs ++ rest)) = _
  simp only [lexAllF]
  rw [show lexStep (c :: (cs ++ rest)) = some (some t, rest) from hs]
  exact congrArg (Option.map (fun ts => t :: ts))
    (lexAllF_irrel f rest (f + 1) hlen' (by omega))

/-- The tokenizer loop skips a whitespace character for free. -/
theorem lexAllF_ws {c : Char}
    (hw : c = ' ' ∨ c = '\n' ∨ c = '\t' ∨ c = '\r')
    {cs : List Char} {fuel : Nat} (hlen : cs.length + 1 < fuel) :
    lexAllF fuel (c :: cs) = lexAllF fuel cs := by
  obtain ⟨f, rfl⟩ : ∃ f, fuel = f + 1 := ⟨fuel - 1, by omega⟩
  have hs : lexStep (c :: cs) = some (none, cs) := by
    rcases hw with rfl | rfl | rfl | rfl <;> rfl
  simp only [lexAllF]
  rw [hs]
  exact lexAllF_irrel f cs (f + 1) (by omega) (by omega)

theorem lexStep_lbrace (r : List Char) :
    lexStep ('\x7b' :: r) = some (some .lbrace, r) := rfl

theorem lexStep_rbrace (r : List Char) :
    lexStep ('\x7d' :: r) = some (some .rbrace, r) := rfl

theorem lexStep_lbrack (r : List Char) :
    lexStep ('[' :: r) = some (some .lbrack, r) := rfl

theorem lexStep_rbrack (r : List Char) :
    lexStep (']' :: r) = some (some .rbrack, r) := rfl

theorem lexStep_colon (r : List Char) :
    lexStep (':' :: r) = some (some .tcolon, r) := rfl

theorem lexStep_comma (r : List Char) :
    lexStep (',' :: r) = some (some .tcomma, r) := rfl

theorem lexStep_true (r : List Char) :
    lexStep ('t' :: 'r' :: 'u' :: 'e' :: r) = some (some (.tbool true), r) := rfl

theorem lexStep_false (r : List Char) :
    lexStep ('f' :: 'a' :: 'l' :: 's' :: 'e' :: r)
      = some (some (.tbool false), r) := rfl

theorem lexStep_null (r : List Char) :
    lexStep ('n' :: 'u' :: 'l' :: 'l' :: r) = some (some .tnull, r) := rfl

theorem hexVal_hexDigit (n : Nat) (h : n < 16) : hexVal (hexDigit n) = some n := by
  interval_cases n <;> decide

/-- Lexing the escape of one character consumes it back. -/
theorem lexStrAux_escChar (esc : Bool) (c : Char) (acc tail : List Char) :
    lexStrAux (escChar esc c ++ tail) acc = lexStrAux tail (c :: acc) := by
  by_cases h1 : c = '"'
  · subst h1
    rw [show escChar esc '"' = ['\\', '"'] from rfl]
    show lexStrAux ('\\' :: '"' :: tail) acc = _
    rw [lexStrAux_esc_q_eq]
  by_cases h2 : c = '\\'
  · subst h2
    rw [show escChar esc '\\' = ['\\', '\\'] from rfl]
    show lexStrAux ('\\' :: '\\' :: tail) acc = _
    rw [lexStrAux_esc_bs_eq]
  by_cases h3 : c = '\n'
  · subst h3
    rw [show escChar esc '\n' = ['\\', 'n'] from rfl]
    show lexStrAux ('\\' :: 'n' :: tail) acc = _
    rw [lexStrAux_esc_n_eq]
  by_cases h4 : c = '\r'
  · subst h4
    rw [show escChar esc '\r' = ['\\', 'r'] from rfl]
    show lexStrAux ('\\' :: 'r' :: tail) acc = _
    rw [lexStrAux_esc_r_eq]
  by_cases h5 : c = '\t'
  · subst h5
    rw [show escChar esc '\t' = ['\\', 't'] from rfl]
    show lexStrAux ('\\' :: 't' :: tail) acc = _
    rw [lexStrAux_esc_t_eq]
  by_cases h6 : c.toNat < 32
  · have hesc : escChar esc c = ['\\', 'u', '0', '0',
        hexDigit (c.toNat / 16), hexDigit (c.toNat % 16)] := by
      simp only [escChar]
      rw [if_neg h1, if_neg h2, if_neg h3, if_neg h4, if_neg h5, if_pos h6]
    rw [hesc]
    show lexStrAux ('\\' :: 'u' :: '0' :: '0' :: hexDigit (c.toNat / 16)
        :: hexDigit (c.toNat % 16) :: tail) acc = _
    rw [lexStrAux_u4_eq, show hexVal '0' = some 0 from rfl,
      hexVal_hexDigit (c.toNat / 16) (by omega),
      hexVal_hexDigit (c.toNat % 16) (by omega)]
    show lexStrAux tail (Char.ofNat
        (((0 * 16 + 0) * 16 + c.toNat / 16) * 16 + c.toNat % 16) :: acc) = _
    rw [show ((0 * 16 + 0) * 16 + c.toNat / 16) * 16 + c.toNat % 16
        = c.toNat from by omega, Char.ofNat_toNat]
  by_cases h7 : esc = true ∧ (c = '<' ∨ c = '>' ∨ c = '&')
  · obtain ⟨rfl, hc⟩ := h7
    rcases hc with rfl | rfl | rfl
    · rw [show escChar true '<' = ['\\', 'u', '0', '0', '3', 'c'] from rfl]
      show lexStrAux ('\\' :: 'u' :: '0' :: '0' :: '3' :: 'c' :: tail) acc = _
      rw [lexStrAux_u4_eq]
      rfl
    · rw [show escChar true '>' = ['\\', 'u', '0', '0', '3', 'e'] from rfl]
      show lexStrAux ('\\' :: 'u' :: '0' :: '0' :: '3' :: 'e' :: tail) acc = _
      rw [lexStrAux_u4_eq]
      rfl
    · rw [show escChar true '&' = ['\\', 'u', '0', '0', '2', '6'] from rfl]
      show lexStrAux ('\\' :: 'u' :: '0' :: '0' :: '2' :: '6' :: tail) acc = _
      rw [lexStrAux_u4_eq]
      rfl
  by_cases h8 : c.toNat = 8232 ∨ c.toNat = 8233
  · rcases h8 with h8 | h8
    · have hc : c = Char.ofNat 8232 := by rw [← h8, Char.ofNat_toNat]
      subst hc
      rw [show escChar esc (Char.ofNat 8232) = ['\\', 'u', '2', '0', '2', '8']
          from by cases esc <;> rfl]
      show lexStrAux ('\\' :: 'u' :: '2' :: '0' :: '2' :: '8' :: tail) acc = _
      rw [lexStrAux_u4_eq]
      rfl
    · have hc : c = Char.ofNat 8233 := by rw [← h8, Char.ofNat_toNat]
      subst hc
      rw [show escChar esc (Char.ofNat 8233) = ['\\', 'u', '2', '0', '2', '9']
          from by cases esc <;> rfl]
      show lexStrAux ('\\' :: 'u' :: '2' :: '0' :: '2' :: '9' :: tail) acc = _
      rw [lexStrAux_u4_eq]
      rfl
  · have hesc : escChar esc c = [c] := by
      simp only [escChar]
      rw [if_neg h1, if_neg h2, if_neg h3, if_neg h4, if_neg h5, if_neg h6,
        if_neg h7, if_neg h8]
    rw [hesc]
    show lexStrAux (c :: tail) acc = _
    rw [lexStrAux_plain_eq c tail acc h1 h2 h6]

/-- Lexing the escaped encoding of a character list consumes it back. -/
theorem lexStrAux_flat (esc : Bool) : ∀ (l acc tail : List Char),
    lexStrAux ((l.map (escChar esc)).flatten ++ tail) acc
      = lexStrAux tail (l.reverse ++ acc) := by
  intro l
  induction l with
  | nil => intro acc tail; simp
  | cons c cs ih =>
    intro acc tail
    simp only [List.map_cons, List.flatten_cons, List.append_assoc]
    rw [lexStrAux_escChar, ih]
    simp

/-- One tokenizer step consumes an encoded string literal and reports
the string token. -/
theorem lexStep_encStr (esc : Bool) (s : String) (r : List Char) :
    lexStep (encStrL esc s ++ r) = some (some (.tstr s), r) := by
  show lexStep ('"' :: (((s.data.map (escChar esc)).flatten ++ ['"']) ++ r))
      = _
  have hassoc : ((s.data.map (escChar esc)).flatten ++ ['"']) ++ r
      = (s.data.map (escChar esc)).flatten ++ ('"' :: r) := by
    simp
  rw [hassoc, lexStep_cons_eq]
  rw [if_neg (by decide), if_neg (by decide), if_neg (by decide),
    if_neg (by decide), if_neg (by decide), if_neg (by decide),
    if_neg (by decide), if_pos rfl]
  rw [lexStrAux_flat esc s.data [] ('"' :: r), lexStrAux_quote_eq]
  show some (some (JTok.tstr ⟨(s.data.reverse ++ []).reverse⟩), r)
      = some (some (JTok.tstr s), r)
  have hrev : (s.data.reverse ++ []).reverse = s.data := by simp
  rw [hrev]

theorem digitChar_toNat (m : Nat) (h : m < 10) :
    (Char.ofNat (48 + m)).toNat = 48 + m := by
  interval_cases m <;> decide

theorem natDigitsAux_append : ∀ (fuel n : Nat) (acc : List Char),
    natDigitsAux fuel n acc = natDigitsAux fuel n [] ++ acc := by
  intro fuel
  induction fuel with
  | zero => intro n acc; rfl
  | succ f ih =>
    intro n acc
    by_cases h : n < 10
    · simp only [natDigitsAux, if_pos h]
      rfl
    · simp only [natDigitsAux, if_neg h]
      rw [ih (n / 10) (Char.ofNat (48 + n % 10) :: acc),
        ih (n / 10) [Char.ofNat (48 + n % 10)]]
      simp

theorem natDigitsAux_foldl : ∀ (fuel n : Nat), n ≤ fuel →
    (natDigitsAux fuel n []).foldl (fun a c => a * 10 + (c.toNat - 48)) 0
      = n := by
  intro fuel
  induction fuel with
  | zero =>
    intro n h
    obtain rfl : n = 0 := by omega
    decide
  | succ f ih =>
    intro n h
    by_cases h10 : n < 10
    · simp only [natDigitsAux, if_pos h10, List.foldl_cons, List.foldl_nil]
      rw [digitChar_toNat n h10]
      omega
    · simp only [natDigitsAux, if_neg h10]
      rw [natDigitsAux_append, List.foldl_append, ih (n / 10) (by omega)]
      simp only [List.foldl_cons, List.foldl_nil]
      rw [digitChar_toNat (n % 10) (by omega)]
      omega

theorem natDigitsAux_head : ∀ (fuel n : Nat),
    ∃ d ds, natDigitsAux fuel n [] = d :: ds := by
  intro fuel n
  cases fuel with
  | zero => exact ⟨Char.ofNat (48 + n % 10), [], rfl⟩
  | succ f =>
    by_cases h : n < 10
    · exact ⟨Char.ofNat (48 + n), [],
        by simp only [natDigitsAux, if_pos h]⟩
    · simp only [natDigitsAux, if_neg h]
      rw [natDigitsAux_append]
      obtain ⟨d, ds, hds⟩ := natDigitsAux_head f (n / 10)
      exact ⟨d, ds ++ [Char.ofNat (48 + n % 10)], by rw [hds]; simp⟩

theorem natDigits_digits (n : Nat) :
    ∀ c ∈ natDigits n, isDigitC c = true := by
  intro c hc
  rcases natDigitsAux_mem n n [] c hc with h | h
  · cases h
  · simp only [isDigitC, Bool.and_eq_true, decide_eq_true_eq]
    omega

theorem lexDigits_run : ∀ (ds : List Char),
    (∀ c ∈ ds, isDigitC c = true) →
    ∀ (r : List Char), (∀ c cs2, r = c :: cs2 → isDigitC c = false) →
    ∀ (acc : Nat),
    lexDigits (ds ++ r) acc
      = (ds.foldl (fun a c => a * 10 + (c.toNat - 48)) acc, r) := by
  intro ds
  induction ds with
  | nil =>
    intro _ r hr acc
    cases r with
    | nil => rfl
    | cons c cs2 =>
      show lexDigits (c :: cs2) acc = (acc, c :: cs2)
      simp only [lexDigits]
      rw [if_neg (by rw [hr c cs2 rfl]; exact Bool.noConfusion)]
  | cons d ds ih =>
    intro hd r hr acc
    have hdd : isDigitC d = true := hd d (List.mem_cons_self ..)
    show lexDigits (d :: (ds ++ r)) acc = _
    simp only [lexDigits, hdd, if_true]
    rw [ih (fun c hc => hd c (List.mem_cons_of_mem _ hc)) r hr]
    rfl

theorem numBoundary_not_digit {r : List Char} (hb : numBoundary r = true) :
    ∀ c cs2, r = c :: cs2 → isDigitC c = false := by
  intro c cs2 hr
  subst hr
  simp only [numBoundary, Bool.not_eq_eq_eq_not, Bool.not_true,
    Bool.or_eq_false_iff, decide_eq_false_iff_not] at hb
  exact hb.1.1.1

/-- One tokenizer step consumes the decimal digits of a natural number
followed by a non-number boundary and reports the number token. -/
theorem lexStep_natNum (n : Nat) (r : List Char)
    (hb : numBoundary r = true) :
    lexStep (natDigits n ++ r) = some (some (.tnum (n : Int)), r) := by
  obtain ⟨d, ds, hds⟩ := natDigitsAux_head n n
  have hdig := natDigits_digits n
  rw [natDigits] at hdig
  rw [natDigits, hds]
  have hd : isDigitC d = true := hdig d (hds ▸ List.mem_cons_self ..)
  show lexStep (d :: (ds ++ r)) = _
  rw [lexStep_cons_eq]
  have hd48 : 48 ≤ d.toNat ∧ d.toNat ≤ 57 := by
    simpa [isDigitC] using hd
  rw [if_neg (by rintro (rfl | rfl | rfl | rfl) <;> revert hd48 <;> decide)]
  rw [if_neg (by rintro rfl; revert hd48; decide),
    if_neg (by rintro rfl; revert hd48; decide),
    if_neg (by rintro rfl; revert hd48; decide),
    if_neg (by rintro rfl; revert hd48; decide),
    if_neg (by rintro rfl; revert hd48; decide),
    if_neg (by rintro rfl; revert hd48; decide),
    if_neg (by rintro rfl; revert hd48; decide),
    if_neg (by rintro rfl; revert hd48; decide),
    if_pos hd]
  rw [lexDigits_run ds (fun c hc => hdig c (hds ▸ List.mem_cons_of_mem _ hc))
    r (numBoundary_not_digit hb)]
  rw [if_pos hb]
  have hval : ds.foldl (fun a c => a * 10 + (c.toNat - 48)) (d.toNat - 48)
      = n := by
    have h0 := natDigitsAux_foldl n n (le_refl n)
    rw [hds, List.foldl_cons] at h0
    have : (0 * 10 + (d.toNat - 48)) = d.toNat - 48 := by omega
    rwa [this] at h0
  rw [hval]

/-- One tokenizer step consumes Go's decimal rendering of an integer
followed by a non-number boundary and reports the number token. -/
theorem lexStep_intNum (n : Int) (r : List Char)
    (hb : numBoundary r = true) :
    lexStep (intChars n ++ r) = some (some (.tnum n), r) := by
  by_cases hneg : n < 0
  · rw [intChars, if_pos hneg]
    obtain ⟨d, ds, hds⟩ := natDigitsAux_head n.natAbs n.natAbs
    have hdig := natDigits_digits n.natAbs
    rw [natDigits] at hdig
    rw [natDigits, hds]
    have hd : isDigitC d = true := hdig d (hds ▸ List.mem_cons_self ..)
    show lexStep ('-' :: (d :: (ds ++ r))) = _
    rw [lexStep_cons_eq]
    rw [if_neg (by decide), if_neg (by decide), if_neg (by decide),
      if_neg (by decide), if_neg (by decide), if_neg (by decide),
      if_neg (by decide), if_neg (by decide), if_pos rfl]
    replace hds := hds
    show (if isDigitC d then
        if numBoundary (lexDigits (ds ++ r) (d.toNat - 48)).2 then
          some (some (JTok.tnum
              (-((lexDigits (ds ++ r) (d.toNat - 48)).1 : Int))),
            (lexDigits (ds ++ r) (d.toNat - 48)).2)
        else none
      else none) = some (some (JTok.tnum n), r)
    rw [if_pos hd,
      lexDigits_run ds (fun c hc => hdig c (hds ▸ List.mem_cons_of_mem _ hc))
        r (numBoundary_not_digit hb)]
    rw [if_pos hb]
    have hval : ds.foldl (fun a c => a * 10 + (c.toNat - 48)) (d.toNat - 48)
        = n.natAbs := by
      have h0 := natDigitsAux_foldl n.natAbs n.natAbs (le_refl _)
      rw [hds, List.foldl_cons] at h0
      have : (0 * 10 + (d.toNat - 48)) = d.toNat - 48 := by omega
      rwa [this] at h0
    rw [hval]
    have : -((n.natAbs : Nat) : Int) = n := by omega
    rw [this]
  · rw [intChars, if_neg hneg, lexStep_natNum n.natAbs r hb]
    have : ((n.natAbs : Nat) : Int) = n := by omega
    rw [this]

/-- Single-character token step for the loop. -/
theorem lexAllF_cons_tok {c : Char} {t : JTok} {rest : List Char}
    {fuel : Nat} (hs : lexStep (c :: rest) = some (some t, rest))
    (hlen : rest.length + 1 < fuel) :
    lexAllF fuel (c :: rest) = (lexAllF fuel rest).map (fun ts => t :: ts) := by
  obtain ⟨f, rfl⟩ : ∃ f, fuel = f + 1 := ⟨fuel - 1, by omega⟩
  simp only [lexAllF]
  rw [hs]
  exact congrArg (Option.map (fun ts => t :: ts))
    (lexAllF_irrel f rest (f + 1) (by omega) (by omega))

theorem intChars_ne_nil (n : Int) : intChars n ≠ [] := by
  rw [intChars]
  obtain ⟨d, ds, hds⟩ := natDigitsAux_head n.natAbs n.natAbs
  split
  · simp
  · rw [natDigits, hds]
    simp

theorem numBoundary_elemsTail (esc : Bool) (vs : List GoVal)
    (rest : List Char) (hb : numBoundary rest = true) :
    numBoundary (encElemsTail esc vs ++ rest) = true := by
  cases vs with
  | nil => simpa using hb
  | cons v vs => rfl

theorem numBoundary_membersTail (esc : Bool) (ms : List (String × GoVal))
    (rest : List Char) (hb : numBoundary rest = true) :
    numBoundary (encMembersTail esc ms ++ rest) = true := by
  cases ms with
  | nil => simpa using hb
  | cons m ms => obtain ⟨k, v⟩ := m; rfl

mutual
/-- Tokenizing the encoder's bytes for a value prepends exactly the
value's token stream, whatever follows (provided what follows cannot
extend a trailing numeral). -/
theorem lexAllF_encValL : ∀ (v : GoVal) (esc : Bool) (rest : List Char)
    (fuel : Nat), numBoundary rest = true →
    (encValL esc v ++ rest).length < fuel →
    lexAllF fuel (encValL esc v ++ rest)
      = (lexAllF fuel rest).map (fun ts => tokFull v ++ ts)
  | .vstr s => fun esc rest fuel _ hlen =>
    lexAllF_chunk (lexStep_encStr esc s rest) hlen (by simp [encValL, encStrL])
  | .vnum n => fun esc rest fuel hb hlen =>
    lexAllF_chunk (lexStep_intNum n rest hb) hlen (intChars_ne_nil n)
  | .vbool true => fun esc rest fuel _ hlen =>
    lexAllF_chunk (lexStep_true rest) hlen (by simp [encValL])
  | .vbool false => fun esc rest fuel _ hlen =>
    lexAllF_chunk (lexStep_false rest) hlen (by simp [encValL])
  | .vnull => fun esc rest fuel _ hlen =>
    lexAllF_chunk (lexStep_null rest) hlen (by simp [encValL])
  | .varr es => fun esc rest fuel hb hlen => by
    simp only [encValL, List.cons_append, List.length_cons,
      List.length_append, List.length_nil] at hlen
    show lexAllF fuel ('[' :: ((encElems esc es ++ [']']) ++ rest)) = _
    rw [show (encElems esc es ++ [']']) ++ rest
        = encElems esc es ++ (']' :: rest) from by simp]
    rw [lexAllF_cons_tok (lexStep_lbrack _)
        (by simp only [List.length_append, List.length_cons]; omega),
      lexAllF_encElems es esc (']' :: rest) fuel rfl
        (by simp only [List.length_append, List.length_cons]; omega),
      lexAllF_cons_tok (lexStep_rbrack _) (by omega)]
    cases lexAllF fuel rest with
    | none => rfl
    | some ts => simp [tokFull]
  | .vmap ms => fun esc rest fuel hb hlen => by
    simp only [encValL, List.cons_append, List.length_cons,
      List.length_append, List.length_nil] at hlen
    show lexAllF fuel ('\x7b' :: ((encMembers esc ms ++ ['\x7d']) ++ rest)) = _
    rw [show (encMembers esc ms ++ ['\x7d']) ++ rest
        = encMembers esc ms ++ ('\x7d' :: rest) from by simp]
    rw [lexAllF_cons_tok (lexStep_lbrace _)
        (by simp only [List.length_append, List.length_cons]; omega),
      lexAllF_encMembers ms esc ('\x7d' :: rest) fuel rfl
        (by simp only [List.length_append, List.length_cons]; omega),
      lexAllF_cons_tok (lexStep_rbrace _) (by omega)]
    cases lexAllF fuel rest with
    | none => rfl
    | some ts => simp [tokFull]
  | .vomap entries e => fun esc rest fuel hb hlen => by
    simp only [encValL, List.cons_append, List.length_cons,
      List.length_append, List.length_nil] at hlen
    show lexAllF fuel
      ('\x7b' :: ((encMembers (esc || e) entries ++ ['\x7d']) ++ rest)) = _
    rw [show (encMembers (esc || e) entries ++ ['\x7d']) ++ rest
        = encMembers (esc || e) entries ++ ('\x7d' :: rest) from by simp]
    rw [lexAllF_cons_tok (lexStep_lbrace _)
        (by simp only [List.length_append, List.length_cons]; omega),
      lexAllF_encMembers entries (esc || e) ('\x7d' :: rest) fuel rfl
        (by simp only [List.length_append, List.length_cons]; omega),
      lexAllF_cons_tok (lexStep_rbrace _) (by omega)]
    cases lexAllF fuel rest with
    | none => rfl
    | some ts => simp [tokFull]
theorem lexAllF_encElems : ∀ (es : List GoVal) (esc : Bool)
    (rest : List Char) (fuel : Nat), numBoundary rest = true →
    (encElems esc es ++ rest).length < fuel →
    lexAllF fuel (encElems esc es ++ rest)
      = (lexAllF fuel rest).map (fun ts => tokElems es ++ ts)
  | [] => fun esc rest fuel _ _ => by
    show lexAllF fuel rest
        = (lexAllF fuel rest).map (fun ts => tokElems [] ++ ts)
    cases lexAllF fuel rest with
    | none => rfl
    | some ts => rfl
  | v :: vs => fun esc rest fuel hb hlen => by
    simp only [encElems, List.append_assoc, List.length_append] at hlen
    show lexAllF fuel ((encValL esc v ++ encElemsTail esc vs) ++ rest) = _
    rw [show (encValL esc v ++ encElemsTail esc vs) ++ rest
        = encValL esc v ++ (encElemsTail esc vs ++ rest) from by simp]
    rw [lexAllF_encValL v esc (encElemsTail esc vs ++ rest) fuel
        (numBoundary_elemsTail esc vs rest hb)
        (by simp only [List.length_append]; omega),
      lexAllF_encElemsTail vs esc rest fuel hb
        (by simp only [List.length_append]; omega)]
    cases lexAllF fuel rest with
    | none => rfl
    | some ts => simp [tokElems]
theorem lexAllF_encElemsTail : ∀ (vs : List GoVal) (esc : Bool)
    (rest : List Char) (fuel : Nat), numBoundary rest = true →
    (encElemsTail esc vs ++ rest).length < fuel →
    lexAllF fuel (encElemsTail esc vs ++ rest)
      = (lexAllF fuel rest).map (fun ts => tokElemsTail vs ++ ts)
  | [] => fun esc rest fuel _ _ => by
    show lexAllF fuel rest
        = (lexAllF fuel rest).map (fun ts => tokElemsTail [] ++ ts)
    cases lexAllF fuel rest with
    | none => rfl
    | some ts => rfl
  | v :: vs => fun esc rest fuel hb hlen => by
    simp only [encElemsTail, List.cons_append, List.append_assoc,
      List.length_append, List.length_cons] at hlen
    show lexAllF fuel
        (',' :: ((encValL esc v ++ encElemsTail esc vs) ++ rest)) = _
    rw [show (encValL esc v ++ encElemsTail esc vs) ++ rest
        = encValL esc v ++ (encElemsTail esc vs ++ rest) from by simp]
    rw [lexAllF_cons_tok (lexStep_comma _)
        (by simp only [List.length_append]; omega),
      lexAllF_encValL v esc (encElemsTail esc vs ++ rest) fuel
        (numBoundary_elemsTail esc vs rest hb)
        (by simp only [List.length_append]; omega),
      lexAllF_encElemsTail vs esc rest fuel hb
        (by simp only [List.length_append]; omega)]
    cases lexAllF fuel rest with
    | none => rfl
    | some ts => simp [tokElemsTail]
theorem lexAllF_encMembers : ∀ (ms : List (String × GoVal)) (esc : Bool)
    (rest : List Char) (fuel : Nat), numBoundary rest = true →
    (encMembers esc ms ++ rest).length < fuel →
    lexAllF fuel (encMembers esc ms ++ rest)
      = (lexAllF fuel rest).map (fun ts => tokMembers ms ++ ts)
  | [] => fun esc rest fuel _ _ => by
    show lexAllF fuel rest
        = (lexAllF fuel rest).map (fun ts => tokMembers [] ++ ts)
    cases lexAllF fuel rest with
    | none => rfl
    | some ts => rfl
  | (k, v) :: ms => fun esc rest fuel hb hlen => by
    simp only [encMembers, List.cons_append, List.append_assoc,
      List.length_append, List.length_cons] at hlen
    show lexAllF fuel
        ((encStrL esc k ++ ':' :: (encValL esc v ++ encMembersTail esc ms))
          ++ rest) = _
    rw [show (encStrL esc k ++ ':' :: (encValL esc v ++ encMembersTail esc ms))
          ++ rest
        = encStrL esc k ++ (':' ::
            (encValL esc v ++ (encMembersTail esc ms ++ rest)))
        from by simp]
    rw [lexAllF_chunk (lexStep_encStr esc k _)
        (by simp only [List.length_append, List.length_cons]; omega)
        (by simp [encStrL]),
      lexAllF_cons_tok (lexStep_colon _)
        (by simp only [List.length_append]; omega),
      lexAllF_encValL v esc (encMembersTail esc ms ++ rest) fuel
        (numBoundary_membersTail esc ms rest hb)
        (by simp only [List.length_append]; omega),
      lexAllF_encMembersTail ms esc rest fuel hb
        (by simp only [List.length_append]; omega)]
    cases lexAllF fuel rest with
    | none => rfl
    | some ts => simp [tokMembers]
theorem lexAllF_encMembersTail : ∀ (ms : List (String × GoVal)) (esc : Bool)
    (rest : List Char) (fuel : Nat), numBoundary rest = true →
    (encMembersTail esc ms ++ rest).length < fuel →
    lexAllF fuel (encMembersTail esc ms ++ rest)
      = (lexAllF fuel rest).map (fun ts => tokMembersTail ms ++ ts)
  | [] => fun esc rest fuel _ _ => by
    show lexAllF fuel rest
        = (lexAllF fuel rest).map (fun ts => tokMembersTail [] ++ ts)
    cases lexAllF fuel rest with
    | none => rfl
    | some ts => rfl
  | (k, v) :: ms => fun esc rest fuel hb hlen => by
    simp only [encMembersTail, List.cons_append, List.append_assoc,
      List.length_append, List.length_cons] at hlen
    show lexAllF fuel (',' ::
        ((encStrL esc k ++ ':' :: (encValL esc v ++ encMembersTail esc ms))
          ++ rest)) = _
    rw [show (encStrL esc k ++ ':' :: (encValL esc v ++ encMembersTail esc ms))
          ++ rest
        = encStrL esc k ++ (':' ::
            (encValL esc v ++ (encMembersTail esc ms ++ rest)))
        from by simp]
    rw [lexAllF_cons_tok (lexStep_comma _)
        (by simp only [List.length_append, List.length_cons]; omega),
      lexAllF_chunk (lexStep_encStr esc k _)
        (by simp only [List.length_append, List.length_cons]; omega)
        (by simp [encStrL]),
      lexAllF_cons_tok (lexStep_colon _)
        (by simp only [List.length_append]; omega),
      lexAllF_encValL v esc (encMembersTail esc ms ++ rest) fuel
        (numBoundary_membersTail esc ms rest hb)
        (by simp only [List.length_append]; omega),
      lexAllF_encMembersTail ms esc rest fuel hb
        (by simp only [List.length_append]; omega)]
    cases lexAllF fuel rest with
    | none => rfl
    | some ts => simp [tokMembersTail]
end

theorem lexAllF_nil {fuel : Nat} (h : 0 < fuel) : lexAllF fuel [] = some [] := by
  obtain ⟨f, rfl⟩ : ∃ f, fuel = f + 1 := ⟨fuel - 1, by omega⟩
  rfl

/-- Tokenizing one entry of the MarshalJSON loop: the stream-encoded key
(with its trailing newline), the colon, and the stream-encoded value
(with its trailing newline) produce exactly key, colon and value tokens. -/
theorem lexAllF_entry (esc : Bool) (vs : List (String × GoVal)) (k : String)
    (rest : List Char) (fuel : Nat)
    (hlen : (entryChars esc vs k ++ rest).length < fuel) :
    lexAllF fuel (entryChars esc vs k ++ rest)
      = (lexAllF fuel rest).map (fun ts =>
          .tstr k :: .tcolon ::
            (tokFull ((mapLookup vs k).getD .vnull) ++ ts)) := by
  simp only [entryChars, List.append_assoc, List.length_append,
    List.length_cons, List.length_nil] at hlen
  show lexAllF fuel ((encStrL esc k ++ '\n' :: ':' ::
      (encValL esc ((mapLookup vs k).getD .vnull) ++ ['\n'])) ++ rest) = _
  rw [show (encStrL esc k ++ '\n' :: ':' ::
        (encValL esc ((mapLookup vs k).getD .vnull) ++ ['\n'])) ++ rest
      = encStrL esc k ++ ('\n' :: ':' ::
          (encValL esc ((mapLookup vs k).getD .vnull) ++ ('\n' :: rest)))
      from by simp]
  rw [lexAllF_chunk (lexStep_encStr esc k _)
      (by simp only [List.length_append, List.length_cons]; omega)
      (by simp [encStrL]),
    lexAllF_ws (Or.inr (Or.inl rfl))
      (by simp only [List.length_append, List.length_cons]; omega),
    lexAllF_cons_tok (lexStep_colon _)
      (by simp only [List.length_append, List.length_cons]; omega),
    lexAllF_encValL ((mapLookup vs k).getD .vnull) esc ('\n' :: rest) fuel rfl
      (by simp only [List.length_append, List.length_cons]; omega),
    lexAllF_ws (Or.inr (Or.inl rfl)) (by omega)]
  cases lexAllF fuel rest with
  | none => rfl
  | some ts => rfl

/-- Tokenizing the tail of the MarshalJSON key loop (comma before every
entry). -/
theorem lexAllF_marshalEntriesFalse : ∀ (ks : List String) (esc : Bool)
    (vs : List (String × GoVal)) (rest : List Char) (fuel : Nat),
    (marshalEntries esc vs ks false ++ rest).length < fuel →
    lexAllF fuel (marshalEntries esc vs ks false ++ rest)
      = (lexAllF fuel rest).map (fun ts =>
          tokMembersTail
            (ks.map fun k => (k, (mapLookup vs k).getD .vnull)) ++ ts) := by
  intro ks
  induction ks with
  | nil =>
    intro esc vs rest fuel _
    show lexAllF fuel rest = (lexAllF fuel rest).map
      (fun ts => tokMembersTail [] ++ ts)
    cases lexAllF fuel rest with
    | none => rfl
    | some ts => rfl
  | cons k ks ih =>
    intro esc vs rest fuel hlen
    have hme : marshalEntries esc vs (k :: ks) false
        = ',' :: (entryChars esc vs k ++ marshalEntries esc vs ks false) := by
      simp [marshalEntries]
    rw [hme] at hlen ⊢
    simp only [List.length_cons, List.length_append] at hlen
    show lexAllF fuel (',' ::
        ((entryChars esc vs k ++ marshalEntries esc vs ks false) ++ rest)) = _
    rw [show (entryChars esc vs k ++ marshalEntries esc vs ks false) ++ rest
        = entryChars esc vs k ++ (marshalEntries esc vs ks false ++ rest)
        from by simp]
    rw [lexAllF_cons_tok (lexStep_comma _)
        (by simp only [List.length_append]; omega),
      lexAllF_entry esc vs k (marshalEntries esc vs ks false ++ rest) fuel
        (by simp only [List.length_append]; omega),
      ih esc vs rest fuel (by simp only [List.length_append]; omega)]
    cases lexAllF fuel rest with
    | none => rfl
    | some ts => simp [tokMembersTail]

/-- Tokenizing the whole MarshalJSON key loop. -/
theorem lexAllF_marshalEntriesTrue (ks : List String) (esc : Bool)
    (vs : List (String × GoVal)) (rest : List Char) (fuel : Nat)
    (hlen : (marshalEntries esc vs ks true ++ rest).length < fuel) :
    lexAllF fuel (marshalEntries esc vs ks true ++ rest)
      = (lexAllF fuel rest).map (fun ts =>
          tokMembers
            (ks.map fun k => (k, (mapLookup vs k).getD .vnull)) ++ ts) := by
  cases ks with
  | nil =>
    show lexAllF fuel rest = (lexAllF fuel rest).map
      (fun ts => tokMembers [] ++ ts)
    cases lexAllF fuel rest with
    | none => rfl
    | some ts => rfl
  | cons k ks =>
    have hme : marshalEntries esc vs (k :: ks) true
        = entryChars esc vs k ++ marshalEntries esc vs ks false := by
      simp [marshalEntries]
    rw [hme] at hlen ⊢
    simp only [List.length_append] at hlen
    rw [show (entryChars esc vs k ++ marshalEntries esc vs ks false) ++ rest
        = entryChars esc vs k ++ (marshalEntries esc vs ks false ++ rest)
        from by simp]
    rw [lexAllF_entry esc vs k (marshalEntries esc vs ks false ++ rest) fuel
        (by simp only [List.length_append]; omega),
      lexAllF_marshalEntriesFalse ks esc vs rest fuel
        (by simp only [List.length_append]; omega)]
    cases lexAllF fuel rest with
    | none => rfl
    | some ts => simp [tokMembers]

/-- Tokenizing MarshalJSON's output yields brace, the member tokens of
the container's entries in key order, and the closing brace. -/
theorem lexAll_marshal (o : OrderedMap) :
    lexAll (MarshalJSON o).data
      = some (.lbrace :: (tokMembers (entriesOf o) ++ [.rbrace])) := by
  rw [lexAll]
  rw [show (MarshalJSON o).data
      = '\x7b' :: (marshalEntries o.escapeHTML o.values o.keys true
          ++ ['\x7d']) from rfl]
  rw [lexAllF_cons_tok (lexStep_lbrace _)
      (by simp only [List.length_cons]; omega)]
  rw [show marshalEntries o.escapeHTML o.values o.keys true ++ ['\x7d']
      = marshalEntries o.escapeHTML o.values o.keys true ++ ('\x7d' :: [])
      from rfl]
  rw [lexAllF_marshalEntriesTrue o.keys o.escapeHTML o.values ('\x7d' :: []) _
      (by simp only [List.length_cons, List.length_append, List.length_nil]
          omega)]
  rw [lexAllF_cons_tok (lexStep_rbrace _)
      (by simp only [List.length_cons, List.length_append, List.length_nil]
          omega)]
  rw [lexAllF_nil
      (by simp only [List.length_cons, List.length_append, List.length_nil]
          omega)]
  rfl

/-! ## Plain canonical values under the map operations -/

theorem plainCanonP_mem : ∀ {m : List (String × GoVal)} {k : String}
    {v : GoVal}, plainCanonP m = true → (k, v) ∈ m → plainCanon v = true := by
  intro m
  induction m with
  | nil => intro k v _ h; cases h
  | cons hd tl ih =>
    obtain ⟨k0, v0⟩ := hd
    intro k v hp hmem
    simp only [plainCanonP, Bool.and_eq_true] at hp
    rcases List.mem_cons.mp hmem with heq | hmem
    · obtain ⟨rfl, rfl⟩ := Prod.mk.inj heq
      exact hp.1
    · exact ih hp.2 hmem

theorem plainCanonP_insert : ∀ (m : List (String × GoVal)) (k : String)
    (v : GoVal), plainCanonP m = true → plainCanon v = true →
    plainCanonP (mapInsert m k v) = true := by
  intro m
  induction m with
  | nil => intro k v _ hv; simp [mapInsert, plainCanonP, plainCanonP, hv]
  | cons hd tl ih =>
    obtain ⟨k0, v0⟩ := hd
    intro k v hp hv
    simp only [plainCanonP, Bool.and_eq_true] at hp
    simp only [mapInsert]
    split
    · simp only [plainCanonP, Bool.and_eq_true]
      exact ⟨hv, hp.1, hp.2⟩
    · split
      · simp only [plainCanonP, Bool.and_eq_true]
        exact ⟨hv, hp.2⟩
      · simp only [plainCanonP, Bool.and_eq_true]
        exact ⟨hp.1, ih k v hp.2 hv⟩

theorem plainCanonP_erase : ∀ (m : List (String × GoVal)) (k : String),
    plainCanonP m = true → plainCanonP (mapErase m k) = true := by
  intro m
  induction m with
  | nil => intro k h; exact h
  | cons hd tl ih =>
    obtain ⟨k0, v0⟩ := hd
    intro k hp
    simp only [plainCanonP, Bool.and_eq_true] at hp
    simp only [mapErase]
    split
    · exact hp.2
    · simp only [plainCanonP, Bool.and_eq_true]
      exact ⟨hp.1, ih k hp.2⟩

/-! ## Well-formedness is preserved by Set and Delete -/

theorem New_WF : WF New := by
  refine ⟨⟨List.nodup_nil, fun k => ?_⟩, by simp [SortedKeys, New]⟩
  simp [New, mapLookup]

theorem set_WF {o : OrderedMap} (h : WF o) (k : String) (v : GoVal) :
    WF (Set o k v) := by
  obtain ⟨⟨hnd, hiff⟩, hs⟩ := h
  unfold Set
  split
  · rename_i hsome
    refine ⟨⟨hnd, fun a => ?_⟩, sortedKeys_insert _ _ _ hs⟩
    by_cases ha : a = k
    · subst ha
      rw [mapLookup_insert_self]
      exact ⟨fun _ => rfl, fun _ => (hiff a).mpr hsome⟩
    · rw [mapLookup_insert_ne _ _ _ _ ha]
      exact hiff a
  · rename_i hnone
    have hknotmem : k ∉ o.keys := fun hm => hnone ((hiff k).mp hm)
    refine ⟨⟨?_, fun a => ?_⟩, sortedKeys_insert _ _ _ hs⟩
    · exact List.Nodup.append hnd (by simp)
        (by intro a ha hb
            simp only [List.mem_singleton] at hb
            subst hb
            exact hknotmem ha)
    · by_cases ha : a = k
      · subst ha
        rw [mapLookup_insert_self]
        exact ⟨fun _ => rfl,
          fun _ => List.mem_append.mpr (Or.inr (List.mem_singleton.mpr rfl))⟩
      · rw [mapLookup_insert_ne _ _ _ _ ha]
        simp only [List.mem_append, List.mem_singleton, ha, or_false]
        exact hiff a

theorem delete_WF {o : OrderedMap} (h : WF o) (k : String) :
    WF (Delete o k) := by
  obtain ⟨⟨hnd, hiff⟩, hs⟩ := h
  unfold Delete
  split
  · refine ⟨⟨hnd.erase k, fun a => ?_⟩, sortedKeys_erase _ _ hs⟩
    by_cases ha : a = k
    · subst ha
      rw [mapLookup_erase_self _ _ hs, hnd.mem_erase_iff]
      simp
    · rw [mapLookup_erase_ne _ _ _ ha, hnd.mem_erase_iff]
      simp only [ha, ne_eq, not_false_iff, true_and]
      exact hiff a
  · exact ⟨⟨hnd, hiff⟩, hs⟩

/-! ## Containers built purely from Set and Delete -/

/-- The builder operations of the round-trip claim. -/
inductive BuildOp : Type where
  | bset (k : String) (v : GoVal)
  | bdel (k : String)

def applyBuild : OrderedMap → List BuildOp → OrderedMap
  | o, [] => o
  | o, .bset k v :: ops => applyBuild (Set o k v) ops
  | o, .bdel k :: ops => applyBuild (Delete o k) ops

/-- All values the builder writes are JSON-representable: plain canonical
values, the image of the generic decoder. -/
def buildPlain : List BuildOp → Bool
  | [] => true
  | .bset _ v :: ops => plainCanon v && buildPlain ops
  | .bdel _ :: ops => buildPlain ops

theorem applyBuild_WF : ∀ (ops : List BuildOp) (o : OrderedMap), WF o →
    WF (applyBuild o ops)
  | [], _, h => h
  | .bset k v :: ops, o, h => applyBuild_WF ops _ (set_WF h k v)
  | .bdel k :: ops, o, h => applyBuild_WF ops _ (delete_WF h k)

theorem applyBuild_plain : ∀ (ops : List BuildOp) (o : OrderedMap),
    plainCanonP o.values = true → buildPlain ops = true →
    plainCanonP (applyBuild o ops).values = true
  | [], _, hp, _ => hp
  | .bset k v :: ops, o, hp, hb => by
    simp only [buildPlain, Bool.and_eq_true] at hb
    refine applyBuild_plain ops _ ?_ hb.2
    unfold Set
    split
    · exact plainCanonP_insert _ k v hp hb.1
    · exact plainCanonP_insert _ k v hp hb.1
  | .bdel k :: ops, o, hp, hb => by
    refine applyBuild_plain ops _ ?_ (by simpa [buildPlain] using hb)
    unfold Delete
    split
    · exact plainCanonP_erase _ k hp
    · exact hp

/-! ## The last-occurrence fold on duplicate-free key sequences -/

theorem foldl_orderStep_append : ∀ (ks ord : List String),
    (ord ++ ks).Nodup → ks.foldl orderStep ord = ord ++ ks := by
  intro ks
  induction ks with
  | nil => intro ord _; simp
  | cons k ks ih =>
    intro ord hnd
    have hk : k ∉ ord := fun hmem =>
      (List.nodup_append.mp hnd).2.2 hmem (List.mem_cons_self ..)
    have hstep : orderStep ord k = ord ++ [k] := by
      simp only [orderStep, if_neg hk]
    rw [List.foldl_cons, hstep, ih (ord ++ [k]) (by simpa using hnd)]
    simp

theorem orderFold_nodup_id {ks : List String} (h : ks.Nodup) :
    orderFold ks = ks := by
  have := foldl_orderStep_append ks [] (by simpa using h)
  simpa [orderFold] using this

theorem foldl_orderStep_nodup : ∀ (ks ord : List String), ord.Nodup →
    (ks.foldl orderStep ord).Nodup := by
  intro ks
  induction ks with
  | nil => intro ord h; exact h
  | cons k ks ih =>
    intro ord h
    rw [List.foldl_cons]
    exact ih _ (orderStep_nodup h)

theorem mem_foldl_orderStep : ∀ (ks ord : List String), ord.Nodup →
    ∀ a, a ∈ ks.foldl orderStep ord ↔ a ∈ ord ∨ a ∈ ks := by
  intro ks
  induction ks with
  | nil => intro ord _ a; simp
  | cons k ks ih =>
    intro ord h a
    rw [List.foldl_cons, ih (orderStep ord k) (orderStep_nodup h) a,
      mem_orderStep h]
    simp only [List.mem_cons]
    tauto

/-! ## The decoder's token grammar covers every encoded stream -/

mutual
/-- The punctuation-filtered token stream of a value is in the
`json.Decoder.Token` grammar. -/
theorem valToks_filter : ∀ v : GoVal, ValToks ((tokFull v).filter notPunct)
  | .vstr s => ValToks.str s
  | .vnum n => ValToks.num n
  | .vbool b => ValToks.bool b
  | .vnull => ValToks.null
  | .varr es => by
    have h : (tokFull (.varr es)).filter notPunct
        = .lbrack :: ((tokElems es).filter notPunct ++ [.rbrack]) := by
      simp [tokFull, List.filter_append, notPunct]
    rw [h]
    exact ValToks.arr (arrElems_filterE es)
  | .vmap ms => by
    have h : (tokFull (.vmap ms)).filter notPunct
        = .lbrace :: ((tokMembers ms).filter notPunct ++ [.rbrace]) := by
      simp [tokFull, List.filter_append, notPunct]
    rw [h]
    exact ValToks.obj (objMembers_filterM ms)
  | .vomap entries e => by
    have h : (tokFull (.vomap entries e)).filter notPunct
        = .lbrace :: ((tokMembers entries).filter notPunct ++ [.rbrace]) := by
      simp [tokFull, List.filter_append, notPunct]
    rw [h]
    exact ValToks.obj (objMembers_filterM entries)
theorem objMembers_filterM : ∀ ms : List (String × GoVal),
    ObjMembers (ms.map Prod.fst)
      ((tokMembers ms).filter notPunct ++ [.rbrace])
  | [] => ObjMembers.nil
  | (k, v) :: ms => by
    have h : (tokMembers ((k, v) :: ms)).filter notPunct ++ [JTok.rbrace]
        = .tstr k :: ((tokFull v).filter notPunct
            ++ ((tokMembersTail ms).filter notPunct ++ [.rbrace])) := by
      simp [tokMembers, List.filter_append, notPunct]
    rw [h]
    exact ObjMembers.cons k (valToks_filter v) (objMembers_filterMT ms)
theorem objMembers_filterMT : ∀ ms : List (String × GoVal),
    ObjMembers (ms.map Prod.fst)
      ((tokMembersTail ms).filter notPunct ++ [.rbrace])
  | [] => ObjMembers.nil
  | (k, v) :: ms => by
    have h : (tokMembersTail ((k, v) :: ms)).filter notPunct ++ [JTok.rbrace]
        = .tstr k :: ((tokFull v).filter notPunct
            ++ ((tokMembersTail ms).filter notPunct ++ [.rbrace])) := by
      simp [tokMembersTail, List.filter_append, notPunct]
    rw [h]
    exact ObjMembers.cons k (valToks_filter v) (objMembers_filterMT ms)
theorem arrElems_filterE : ∀ es : List GoVal,
    ArrElems ((tokElems es).filter notPunct ++ [.rbrack])
  | [] => ArrElems.nil
  | v :: vs => by
    have h : (tokElems (v :: vs)).filter notPunct ++ [JTok.rbrack]
        = (tokFull v).filter notPunct
            ++ ((tokElemsTail vs).filter notPunct ++ [.rbrack]) := by
      simp [tokElems, List.filter_append]
    rw [h]
    exact ArrElems.cons (valToks_filter v) (arrElems_filterET vs)
theorem arrElems_filterET : ∀ vs : List GoVal,
    ArrElems ((tokElemsTail vs).filter notPunct ++ [.rbrack])
  | [] => ArrElems.nil
  | v :: vs => by
    have h : (tokElemsTail (v :: vs)).filter notPunct ++ [JTok.rbrack]
        = (tokFull v).filter notPunct
            ++ ((tokElemsTail vs).filter notPunct ++ [.rbrack]) := by
      simp [tokElemsTail, List.filter_append, notPunct]
    rw [h]
    exact ArrElems.cons (valToks_filter v) (arrElems_filterET vs)
end

/-! ## Evaluating UnmarshalJSON on a marshalled stream -/

theorem entriesOf_fst (o : OrderedMap) :
    (entriesOf o).map Prod.fst = o.keys := by
  simp only [entriesOf, List.map_map]
  exact List.map_id'' (fun k => rfl) o.keys

theorem plainCanonP_map_keys (vs : List (String × GoVal)) :
    ∀ ks : List String,
    (∀ k ∈ ks, plainCanon ((mapLookup vs k).getD .vnull) = true) →
    plainCanonP (ks.map fun k => (k, (mapLookup vs k).getD .vnull)) = true := by
  intro ks
  induction ks with
  | nil => intro _; rfl
  | cons k ks ih =>
    intro h
    simp only [List.map_cons, plainCanonP, Bool.and_eq_true]
    exact ⟨h k (List.mem_cons_self ..),
      ih fun a ha => h a (List.mem_cons_of_mem _ ha)⟩

theorem plainCanonP_entriesOf {o : OrderedMap} (hInv : Inv o)
    (hp : plainCanonP o.values = true) :
    plainCanonP (entriesOf o) = true := by
  refine plainCanonP_map_keys o.values o.keys (fun k hk => ?_)
  obtain ⟨v, hv⟩ := Option.isSome_iff_exists.mp ((hInv.2 k).mp hk)
  rw [hv]
  exact plainCanonP_mem hp (mem_of_mapLookup_eq_some hv)

theorem insertAll_entriesOf {o : OrderedMap} (hwf : WF o) :
    insertAll [] (entriesOf o) = o.values := by
  have hnd : ((entriesOf o).map Prod.fst).Nodup := by
    rw [entriesOf_fst]
    exact hwf.1.1
  refine mapExt (sortedKeys_insertAll [] _ (by simp [SortedKeys])) hwf.2
    (fun k => ?_)
  by_cases hk : k ∈ o.keys
  · obtain ⟨v, hv⟩ := Option.isSome_iff_exists.mp ((hwf.1.2 k).mp hk)
    have hmem : (k, (mapLookup o.values k).getD .vnull) ∈ entriesOf o :=
      List.mem_map.mpr ⟨k, hk, rfl⟩
    rw [mapLookup_insertAll_mem [] _ k _ hnd hmem, hv]
    rfl
  · rw [mapLookup_insertAll_not_mem [] _ k
      (by rw [entriesOf_fst]; exact hk)]
    have hnone : mapLookup o.values k = none := by
      cases hl : mapLookup o.values k with
      | none => rfl
      | some v =>
        exact absurd ((hwf.1.2 k).mpr (by rw [hl]; rfl)) hk
    rw [hnone]
    rfl

/-- Evaluation of the token-level `UnmarshalJSON` on the bytes a
well-formed container marshals to: the generic decode merges the
entries into the target's map, and the key loop leaves exactly the
last-occurrence fold of the input's member keys. -/
theorem unmarshal_marshal_general (t o : OrderedMap) (hInv : Inv o)
    (hp : plainCanonP o.values = true) :
    UnmarshalJSONFun t (MarshalJSON o)
      = .ok ⟨orderFold o.keys, insertAll t.values (entriesOf o),
          t.escapeHTML⟩ := by
  rw [UnmarshalJSONFun_eq_steps (lexAll_marshal o)]
  have hpE : plainCanonP (entriesOf o) = true := plainCanonP_entriesOf hInv hp
  have hparse := parseMembersFirst_tokMembers (entriesOf o) hpE []
      (2 * (tokMembers (entriesOf o) ++ [JTok.rbrace]).length + 3)
      (by simp only [List.length_append, List.length_cons, List.length_nil]
          omega)
  have him : unmarshalIntoMap t.values
      (.lbrace :: (tokMembers (entriesOf o) ++ [.rbrace]))
      = .ok (insertAll t.values (entriesOf o)) := by
    simp only [unmarshalIntoMap, hparse]
  have hfil : (JTok.lbrace :: (tokMembers (entriesOf o)
        ++ [JTok.rbrace])).filter notPunct
      = JTok.lbrace :: ((tokMembers (entriesOf o)).filter notPunct
          ++ [JTok.rbrace]) := by
    simp [List.filter_append, notPunct]
  have hOM : ObjMembers o.keys
      ((tokMembers (entriesOf o)).filter notPunct ++ [JTok.rbrace]) := by
    have h := objMembers_filterM (entriesOf o)
    rwa [entriesOf_fst] at h
  have hdec := (decode_adequate
      ((tokMembers (entriesOf o)).filter notPunct ++ [JTok.rbrace]).length).1
      _ o.keys (le_refl _) hOM [] [] []
      (2 * ((tokMembers (entriesOf o)).filter notPunct
          ++ [JTok.rbrace]).length + 2)
      (le_refl _) List.nodup_nil (fun a => Iff.rfl)
  rw [List.append_nil] at hdec
  simp only [unmarshalSteps, him, hfil, hdec, orderFold]

/-- Claim C3: for every container built purely from Set and Delete
operations writing JSON-representable (plain canonical) values,
UnmarshalJSON on a fresh container applied to the bytes MarshalJSON
produces reproduces the container's key order and values exactly. -/
theorem marshal_unmarshal_roundtrip (ops : List BuildOp)
    (hp : buildPlain ops = true) :
    UnmarshalJSONFun New (MarshalJSON (applyBuild New ops))
      = .ok ⟨(applyBuild New ops).keys, (applyBuild New ops).values,
          true⟩ := by
  have hwf : WF (applyBuild New ops) := applyBuild_WF ops New New_WF
  have hpl : plainCanonP (applyBuild New ops).values = true :=
    applyBuild_plain ops New rfl hp
  rw [unmarshal_marshal_general New _ hwf.1 hpl,
    orderFold_nodup_id hwf.1.1,
    show New.values = ([] : List (String × GoVal)) from rfl,
    insertAll_entriesOf hwf]
  rfl

/-- Witness for C3 at a concrete builder run: set b, set a (a string
with characters that must be escaped), overwrite b, delete b, set a
nested array and map. -/
theorem marshal_unmarshal_roundtrip_witness :
    buildPlain [BuildOp.bset "b" (.vnum 2),
        BuildOp.bset "a" (.vstr "x<&\n"),
        BuildOp.bset "b" (.vnum 7), BuildOp.bdel "b",
        BuildOp.bset "c" (.varr [.vnum (-3), .vbool false,
          .vmap [("k", .vnull)]])] = true
    ∧ UnmarshalJSONFun New (MarshalJSON (applyBuild New
        [BuildOp.bset "b" (.vnum 2), BuildOp.bset "a" (.vstr "x<&\n"),
          BuildOp.bset "b" (.vnum 7), BuildOp.bdel "b",
          BuildOp.bset "c" (.varr [.vnum (-3), .vbool false,
            .vmap [("k", .vnull)]])]))
      = .ok ⟨(applyBuild New [BuildOp.bset "b" (.vnum 2),
            BuildOp.bset "a" (.vstr "x<&\n"), BuildOp.bset "b" (.vnum 7),
            BuildOp.bdel "b", BuildOp.bset "c" (.varr [.vnum (-3),
              .vbool false, .vmap [("k", .vnull)]])]).keys,
          (applyBuild New [BuildOp.bset "b" (.vnum 2),
            BuildOp.bset "a" (.vstr "x<&\n"), BuildOp.bset "b" (.vnum 7),
            BuildOp.bdel "b", BuildOp.bset "c" (.varr [.vnum (-3),
              .vbool false, .vmap [("k", .vnull)]])]).values, true⟩ :=
  ⟨by decide, marshal_unmarshal_roundtrip
    [BuildOp.bset "b" (.vnum 2), BuildOp.bset "a" (.vstr "x<&\n"),
      BuildOp.bset "b" (.vnum 7), BuildOp.bdel "b",
      BuildOp.bset "c" (.varr [.vnum (-3), .vbool false,
        .vmap [("k", .vnull)]])] (by decide)⟩

/-- Claim C10: UnmarshalJSON on a container that already holds entries
rebuilds the key order from the input's token stream alone, while
entries of the values map whose keys the input does not mention are
retained by the merging generic unmarshal; consequently a concrete
container exists on which, after decoding, Get finds a key that Keys
does not list. -/
theorem unmarshal_merge_retains (t o : OrderedMap) (hwf : WF o)
    (hp : plainCanonP o.values = true) :
    (∃ o', UnmarshalJSONFun t (MarshalJSON o) = .ok o'
      ∧ o'.keys = o.keys
      ∧ (∀ k, k ∈ o.keys → mapLookup o'.values k = mapLookup o.values k)
      ∧ (∀ k, k ∉ o.keys → mapLookup o'.values k = mapLookup t.values k))
    ∧ ((Get (applyMOp (Set New "x" (.vnum 1))
          (.munmarshal "\x7b\"a\":2\x7d")) "x").2 = true
        ∧ "x" ∉ Keys (applyMOp (Set New "x" (.vnum 1))
          (.munmarshal "\x7b\"a\":2\x7d"))) := by
  constructor
  · refine ⟨_, unmarshal_marshal_general t o hwf.1 hp,
      orderFold_nodup_id hwf.1.1, fun k hk => ?_, fun k hk => ?_⟩
    · obtain ⟨v, hv⟩ := Option.isSome_iff_exists.mp ((hwf.1.2 k).mp hk)
      have hnd : ((entriesOf o).map Prod.fst).Nodup := by
        rw [entriesOf_fst]
        exact hwf.1.1
      have hmem : (k, (mapLookup o.values k).getD .vnull) ∈ entriesOf o :=
        List.mem_map.mpr ⟨k, hk, rfl⟩
      rw [mapLookup_insertAll_mem t.values _ k _ hnd hmem, hv]
      rfl
    · exact mapLookup_insertAll_not_mem t.values _ k
        (by rw [entriesOf_fst]; exact hk)
  · exact ⟨by decide, by decide⟩

/-- Witness for C10: the stale entry x survives in the values map while
the rebuilt key order has only the input's key. -/
theorem unmarshal_merge_retains_witness :
    (∃ o', UnmarshalJSONFun (applyBuild New [BuildOp.bset "x" (.vnum 1)])
        (MarshalJSON (applyBuild New [BuildOp.bset "a" (.vnum 2)])) = .ok o'
      ∧ o'.keys = (applyBuild New [BuildOp.bset "a" (.vnum 2)]).keys
      ∧ (∀ k, k ∈ (applyBuild New [BuildOp.bset "a" (.vnum 2)]).keys →
          mapLookup o'.values k
            = mapLookup (applyBuild New [BuildOp.bset "a" (.vnum 2)]).values k)
      ∧ (∀ k, k ∉ (applyBuild New [BuildOp.bset "a" (.vnum 2)]).keys →
          mapLookup o'.values k
            = mapLookup (applyBuild New [BuildOp.bset "x" (.vnum 1)]).values k))
    ∧ ((Get (applyMOp (Set New "x" (.vnum 1))
          (.munmarshal "\x7b\"a\":2\x7d")) "x").2 = true
        ∧ "x" ∉ Keys (applyMOp (Set New "x" (.vnum 1))
          (.munmarshal "\x7b\"a\":2\x7d"))) :=
  unmarshal_merge_retains (applyBuild New [BuildOp.bset "x" (.vnum 1)])
    (applyBuild New [BuildOp.bset "a" (.vnum 2)])
    (applyBuild_WF _ New New_WF)
    (applyBuild_plain _ New rfl (by decide))

/-! ## Soundness of the strict value grammar

A successful parse splits the stream, and the consumed prefix (with
punctuation filtered out) lies in the `json.Decoder.Token` grammar: the
exact shape the key-reconstruction loop consumes. -/

theorem parse_sound : ∀ fuel : Nat,
    (∀ ts v rest, parseV fuel ts = some (v, rest) →
      ∃ pre, ts = pre ++ rest ∧ ValToks (pre.filter notPunct))
    ∧ (∀ ts prs rest, parseMembersFirst fuel ts = some (prs, rest) →
      ∃ pre, ts = pre ++ rest
        ∧ ObjMembers (prs.map Prod.fst) (pre.filter notPunct))
    ∧ (∀ ts prs rest, parseMembersNext fuel ts = some (prs, rest) →
      ∃ pre, ts = pre ++ rest
        ∧ ObjMembers (prs.map Prod.fst) (pre.filter notPunct))
    ∧ (∀ ts vs rest, parseElemsFirst fuel ts = some (vs, rest) →
      ∃ pre, ts = pre ++ rest ∧ ArrElems (pre.filter notPunct))
    ∧ (∀ ts vs rest, parseElemsNext fuel ts = some (vs, rest) →
      ∃ pre, ts = pre ++ rest ∧ ArrElems (pre.filter notPunct)) := by
  intro fuel
  induction fuel with
  | zero =>
    refine ⟨?_, ?_, ?_, ?_, ?_⟩ <;> intro ts x rest h <;> exact Option.noConfusion h
  | succ f ih =>
    obtain ⟨ihV, ihMF, ihMN, ihEF, ihEN⟩ := ih
    refine ⟨?_, ?_, ?_, ?_, ?_⟩
    · -- parseV
      intro ts v rest h
      cases ts with
      | nil => exact Option.noConfusion h
      | cons t ts =>
        cases t with
        | tstr s =>
          replace h : some ((GoVal.vstr s : GoVal), ts) = some (v, rest) := h
          obtain ⟨rfl, rfl⟩ := Prod.mk.inj (Option.some_inj.mp h)
          exact ⟨[.tstr s], rfl, ValToks.str s⟩
        | tnum n =>
          replace h : some ((GoVal.vnum n : GoVal), ts) = some (v, rest) := h
          obtain ⟨rfl, rfl⟩ := Prod.mk.inj (Option.some_inj.mp h)
          exact ⟨[.tnum n], rfl, ValToks.num n⟩
        | tbool b =>
          replace h : some ((GoVal.vbool b : GoVal), ts) = some (v, rest) := h
          obtain ⟨rfl, rfl⟩ := Prod.mk.inj (Option.some_inj.mp h)
          exact ⟨[.tbool b], rfl, ValToks.bool b⟩
        | tnull =>
          replace h : some ((GoVal.vnull : GoVal), ts) = some (v, rest) := h
          obtain ⟨rfl, rfl⟩ := Prod.mk.inj (Option.some_inj.mp h)
          exact ⟨[.tnull], rfl, ValToks.null⟩
        | lbrace =>
          rcases hm : parseMembersFirst f ts with - | p
          · simp only [parseV, hm] at h
            exact Option.noConfusion h
          · obtain ⟨prs, rest2⟩ := p
            simp only [parseV, hm, Option.some.injEq, Prod.mk.injEq] at h
            obtain ⟨rfl, rfl⟩ := h
            obtain ⟨pre, hpre, hOM⟩ := ihMF ts prs rest2 hm
            refine ⟨.lbrace :: pre, by rw [hpre]; rfl, ?_⟩
            rw [show (JTok.lbrace :: pre).filter notPunct
                = .lbrace :: pre.filter notPunct from by simp [notPunct]]
            exact ValToks.obj hOM
        | lbrack =>
          rcases hm : parseElemsFirst f ts with - | p
          · simp only [parseV, hm] at h
            exact Option.noConfusion h
          · obtain ⟨vs, rest2⟩ := p
            simp only [parseV, hm, Option.some.injEq, Prod.mk.injEq] at h
            obtain ⟨rfl, rfl⟩ := h
            obtain ⟨pre, hpre, hAE⟩ := ihEF ts vs rest2 hm
            refine ⟨.lbrack :: pre, by rw [hpre]; rfl, ?_⟩
            rw [show (JTok.lbrack :: pre).filter notPunct
                = .lbrack :: pre.filter notPunct from by simp [notPunct]]
            exact ValToks.arr hAE
        | rbrace => exact Option.noConfusion h
        | rbrack => exact Option.noConfusion h
        | tcolon => exact Option.noConfusion h
        | tcomma => exact Option.noConfusion h
    · -- parseMembersFirst
      intro ts prs rest h
      cases ts with
      | nil => exact Option.noConfusion h
      | cons t ts =>
        cases t
        case rbrace =>
          replace h : some (([] : List (String × GoVal)), ts)
              = some (prs, rest) := h
          obtain ⟨rfl, rfl⟩ := Prod.mk.inj (Option.some_inj.mp h)
          exact ⟨[.rbrace], rfl, ObjMembers.nil⟩
        case tstr k =>
          cases ts with
          | nil => exact Option.noConfusion h
          | cons t2 ts2 =>
            cases t2
            case tcolon =>
              rcases hv : parseV f ts2 with - | pv
              · simp only [parseMembersFirst, hv] at h
                exact Option.noConfusion h
              · obtain ⟨v, ts3⟩ := pv
                rcases hn : parseMembersNext f ts3 with - | pn
                · simp only [parseMembersFirst, hv, hn] at h
                  exact Option.noConfusion h
                · obtain ⟨prs2, rest2⟩ := pn
                  simp only [parseMembersFirst, hv, hn, Option.some.injEq,
                    Prod.mk.injEq] at h
                  obtain ⟨rfl, rfl⟩ := h
                  obtain ⟨preV, hpreV, hVT⟩ := ihV ts2 v ts3 hv
                  obtain ⟨preN, hpreN, hOM⟩ := ihMN ts3 prs2 rest2 hn
                  refine ⟨.tstr k :: .tcolon :: (preV ++ preN), ?_, ?_⟩
                  · rw [hpreV, hpreN]
                    simp
                  · rw [show (JTok.tstr k :: .tcolon
                        :: (preV ++ preN)).filter notPunct
                      = .tstr k :: (preV.filter notPunct
                          ++ preN.filter notPunct)
                      from by simp [notPunct, List.filter_append]]
                    exact ObjMembers.cons k hVT hOM
            all_goals exact Option.noConfusion h
        all_goals exact Option.noConfusion h
    · -- parseMembersNext
      intro ts prs rest h
      cases ts with
      | nil => exact Option.noConfusion h
      | cons t ts =>
        cases t
        case rbrace =>
          replace h : some (([] : List (String × GoVal)), ts)
              = some (prs, rest) := h
          obtain ⟨rfl, rfl⟩ := Prod.mk.inj (Option.some_inj.mp h)
          exact ⟨[.rbrace], rfl, ObjMembers.nil⟩
        case tcomma =>
          cases ts with
          | nil => exact Option.noConfusion h
          | cons t2 ts2 =>
            cases t2
            case tstr k =>
              cases ts2 with
              | nil => exact Option.noConfusion h
              | cons t3 ts3 =>
                cases t3
                case tcolon =>
                  rcases hv : parseV f ts3 with - | pv
                  · simp only [parseMembersNext, hv] at h
                    exact Option.noConfusion h
                  · obtain ⟨v, ts4⟩ := pv
                    rcases hn : parseMembersNext f ts4 with - | pn
                    · simp only [parseMembersNext, hv, hn] at h
                      exact Option.noConfusion h
                    · obtain ⟨prs2, rest2⟩ := pn
                      simp only [parseMembersNext, hv, hn, Option.some.injEq,
                        Prod.mk.injEq] at h
                      obtain ⟨rfl, rfl⟩ := h
                      obtain ⟨preV, hpreV, hVT⟩ := ihV ts3 v ts4 hv
                      obtain ⟨preN, hpreN, hOM⟩ := ihMN ts4 prs2 rest2 hn
                      refine ⟨.tcomma :: .tstr k :: .tcolon
                          :: (preV ++ preN), ?_, ?_⟩
                      · rw [hpreV, hpreN]
                        simp
                      · rw [show (JTok.tcomma :: .tstr k :: .tcolon
                            :: (preV ++ preN)).filter notPunct
                          = .tstr k :: (preV.filter notPunct
                              ++ preN.filter notPunct)
                          from by simp [notPunct, List.filter_append]]
                        exact ObjMembers.cons k hVT hOM
                all_goals exact Option.noConfusion h
            all_goals exact Option.noConfusion h
        all_goals exact Option.noConfusion h
    · -- parseElemsFirst
      intro ts vs rest h
      cases ts with
      | nil =>
        have he : parseElemsFirst (f + 1) ([] : List JTok) = none := by
          cases f with
          | zero => rfl
          | succ g => rfl
        rw [he] at h
        exact Option.noConfusion h
      | cons t ts =>
        by_cases hrb : t = JTok.rbrack
        · subst hrb
          replace h : some (([] : List GoVal), ts) = some (vs, rest) := h
          obtain ⟨rfl, rfl⟩ := Prod.mk.inj (Option.some_inj.mp h)
          exact ⟨[.rbrack], rfl, ArrElems.nil⟩
        · rw [parseElemsFirst_cons_not_rbrack hrb] at h
          rcases hv : parseV f (t :: ts) with - | pv
          · simp only [hv] at h
            exact Option.noConfusion h
          · obtain ⟨v, ts2⟩ := pv
            rcases hn : parseElemsNext f ts2 with - | pn
            · simp only [hv, hn] at h
              exact Option.noConfusion h
            · obtain ⟨vs2, rest2⟩ := pn
              simp only [hv, hn, Option.some.injEq, Prod.mk.injEq] at h
              obtain ⟨rfl, rfl⟩ := h
              obtain ⟨preV, hpreV, hVT⟩ := ihV (t :: ts) v ts2 hv
              obtain ⟨preN, hpreN, hAE⟩ := ihEN ts2 vs2 rest2 hn
              refine ⟨preV ++ preN, ?_, ?_⟩
              · rw [hpreV, hpreN, List.append_assoc]
              · rw [List.filter_append]
                exact ArrElems.cons hVT hAE
    · -- parseElemsNext
      intro ts vs rest h
      cases ts with
      | nil => exact Option.noConfusion h
      | cons t ts =>
        cases t
        case rbrack =>
          replace h : some (([] : List GoVal), ts) = some (vs, rest) := h
          obtain ⟨rfl, rfl⟩ := Prod.mk.inj (Option.some_inj.mp h)
          exact ⟨[.rbrack], rfl, ArrElems.nil⟩
        case tcomma =>
          rcases hv : parseV f ts with - | pv
          · simp only [parseElemsNext, hv] at h
            exact Option.noConfusion h
          · obtain ⟨v, ts2⟩ := pv
            rcases hn : parseElemsNext f ts2 with - | pn
            · simp only [parseElemsNext, hv, hn] at h
              exact Option.noConfusion h
            · obtain ⟨vs2, rest2⟩ := pn
              simp only [parseElemsNext, hv, hn, Option.some.injEq,
                Prod.mk.injEq] at h
              obtain ⟨rfl, rfl⟩ := h
              obtain ⟨preV, hpreV, hVT⟩ := ihV ts v ts2 hv
              obtain ⟨preN, hpreN, hAE⟩ := ihEN ts2 vs2 rest2 hn
              refine ⟨.tcomma :: (preV ++ preN), ?_, ?_⟩
              · rw [hpreV, hpreN]
                simp
              · rw [show (JTok.tcomma :: (preV ++ preN)).filter notPunct
                  = preV.filter notPunct ++ preN.filter notPunct
                  from by simp [notPunct, List.filter_append]]
                exact ArrElems.cons hVT hAE
        all_goals exact Option.noConfusion h

/-! ## Inverting a successful UnmarshalJSON

`unmarshalSteps` decomposed into named stages, so a successful run can
be taken apart hypothesis by hypothesis. -/

/-- Proof-local name for the key-loop tail of `unmarshalSteps`. -/
def decodeKeysStep (m2 : List (String × GoVal)) (esc : Bool)
    (rest : List JTok) : Except DErr OrderedMap :=
  match decodeOM (2 * rest.length + 2) rest [] [] with
  | .error e => .error e
  | .ok (ks, _) => .ok ⟨ks, m2, esc⟩

/-- Proof-local name for the key-loop stage of `unmarshalSteps`. -/
def keysStage (m2 : List (String × GoVal)) (esc : Bool)
    (fil : List JTok) : Except DErr OrderedMap :=
  match fil with
  | [] => .error .eof
  | _ :: rest => decodeKeysStep m2 esc rest

theorem unmarshalSteps_stages (t : OrderedMap) (toks : List JTok) :
    unmarshalSteps t toks =
      (match unmarshalIntoMap t.values toks with
      | .error e => .error e
      | .ok m2 => keysStage m2 t.escapeHTML (toks.filter notPunct)) := rfl

theorem unmarshalSteps_shape {t : OrderedMap} {toks : List JTok}
    {o2 : OrderedMap} (h : unmarshalSteps t toks = .ok o2) :
    ∃ m2 t0 rest ks junk,
      unmarshalIntoMap t.values toks = .ok m2
      ∧ toks.filter notPunct = t0 :: rest
      ∧ decodeOM (2 * rest.length + 2) rest [] [] = .ok (ks, junk)
      ∧ o2 = ⟨ks, m2, t.escapeHTML⟩ := by
  rw [unmarshalSteps_stages] at h
  rcases him : unmarshalIntoMap t.values toks with e | m2 <;> rw [him] at h
  · exact Except.noConfusion h
  replace h : keysStage m2 t.escapeHTML (toks.filter notPunct) = .ok o2 := h
  rcases hf : toks.filter notPunct with - | ⟨t0, rest⟩ <;> rw [hf] at h
  · exact Except.noConfusion h
  replace h : decodeKeysStep m2 t.escapeHTML rest = .ok o2 := h
  simp only [decodeKeysStep] at h
  rcases hdec : decodeOM (2 * rest.length + 2) rest [] [] with e | p <;>
    rw [hdec] at h
  · exact Except.noConfusion h
  obtain ⟨ks, junk⟩ := p
  replace h : (Except.ok (⟨ks, m2, t.escapeHTML⟩ : OrderedMap)
      : Except DErr OrderedMap) = .ok o2 := h
  exact ⟨m2, t0, rest, ks, junk, rfl, rfl, hdec, (Except.ok.inj h).symm⟩

theorem unmarshalIntoMap_shape {m0 : List (String × GoVal)}
    {toks : List JTok} {m2 : List (String × GoVal)}
    (h : unmarshalIntoMap m0 toks = .ok m2) :
    (∃ prs ts, toks = .lbrace :: ts
        ∧ parseMembersFirst (2 * ts.length + 3) ts = some (prs, [])
        ∧ m2 = insertAll m0 prs)
    ∨ (toks = [.tnull] ∧ m2 = m0) := by
  cases toks with
  | nil => exact Except.noConfusion h
  | cons t ts =>
    cases t
    case lbrace =>
      rcases hp : parseMembersFirst (2 * ts.length + 3) ts with - | p
      · simp only [unmarshalIntoMap, hp] at h
        exact Except.noConfusion h
      · obtain ⟨prs, rest⟩ := p
        cases rest with
        | nil =>
          simp only [unmarshalIntoMap, hp] at h
          exact Or.inl ⟨prs, ts, rfl, hp, (Except.ok.inj h).symm⟩
        | cons q qs =>
          simp only [unmarshalIntoMap, hp] at h
          exact Except.noConfusion h
    case tnull =>
      cases ts with
      | nil =>
        replace h : (Except.ok m0 : Except DErr _) = .ok m2 := h
        exact Or.inr ⟨rfl, (Except.ok.inj h).symm⟩
      | cons q qs => exact Except.noConfusion h
    all_goals exact Except.noConfusion h

/-- Inversion of any successful UnmarshalJSON: the new key order is the
last-occurrence fold of the input's member keys (and hence
duplicate-free, holding exactly those keys), and the values map is the
last-value-wins merge of the input's members into the old map. -/
theorem unmarshal_ok_inv {t o2 : OrderedMap} {s : String}
    (h : UnmarshalJSONFun t s = .ok o2) :
    ∃ prs : List (String × GoVal),
      o2.keys.Nodup
      ∧ (∀ a, a ∈ o2.keys ↔ a ∈ prs.map Prod.fst)
      ∧ o2.values = insertAll t.values prs
      ∧ o2.escapeHTML = t.escapeHTML := by
  rw [UnmarshalJSONFun] at h
  rcases hlex : lexAll s.data with - | toks <;> rw [hlex] at h
  · exact Except.noConfusion h
  obtain ⟨m2, t0, rest, ks, junk, him, hf, hdec, ho2⟩ := unmarshalSteps_shape h
  rcases unmarshalIntoMap_shape him with
    ⟨prs, ts, htoks, hparse, hm2⟩ | ⟨htoks, hm2⟩
  · subst htoks
    have hf2 : JTok.lbrace :: ts.filter notPunct = t0 :: rest := by
      rw [← hf]
      simp [notPunct]
    obtain ⟨rfl, rfl⟩ := List.cons.inj hf2
    obtain ⟨pre, hpre, hOM⟩ :=
      (parse_sound (2 * ts.length + 3)).2.1 ts prs [] hparse
    rw [List.append_nil] at hpre
    subst hpre
    have hdec2 := (decode_adequate (ts.filter notPunct).length).1
        (ts.filter notPunct) (prs.map Prod.fst) (le_refl _) hOM [] [] []
        (2 * (ts.filter notPunct).length + 2) (le_refl _) List.nodup_nil
        (fun a => Iff.rfl)
    rw [List.append_nil] at hdec2
    rw [hdec2] at hdec
    obtain ⟨hks, -⟩ := Prod.mk.inj (Except.ok.inj hdec)
    subst ho2
    refine ⟨prs, ?_, ?_, hm2, rfl⟩
    · show ks.Nodup
      rw [← hks]
      exact foldl_orderStep_nodup _ [] List.nodup_nil
    · intro a
      show a ∈ ks ↔ _
      rw [← hks, mem_foldl_orderStep _ [] List.nodup_nil a]
      simp
  · subst htoks
    have hf2 : JTok.tnull :: ([] : List JTok) = t0 :: rest := by
      rw [← hf]
      rfl
    obtain ⟨rfl, rfl⟩ := List.cons.inj hf2
    rw [show decodeOM (2 * ([] : List JTok).length + 2) [] [] []
        = .error .eof from rfl] at hdec
    exact Except.noConfusion hdec

/-! ## Invariant preservation op by op -/

theorem sortKeys_Inv {o : OrderedMap}
    (h : WF o) (cmp : String → String → Bool) :
    WF (applyMOp o (.msortKeys cmp)) := by
  have hperm : (stableSortBy (fun a b => ! cmp b a) o.keys).Perm o.keys :=
    stableSortBy_perm _ o.keys
  exact ⟨⟨hperm.symm.nodup h.1.1, fun k => by
    rw [show (applyMOp o (.msortKeys cmp)).keys
        = stableSortBy (fun a b => ! cmp b a) o.keys from rfl,
      hperm.mem_iff]
    exact h.1.2 k⟩, h.2⟩

theorem sort_Inv {o : OrderedMap}
    (h : WF o) (lf : (String × GoVal) → (String × GoVal) → Bool) :
    WF (applyMOp o (.msort lf)) := by
  have hmap : ((o.keys.map fun k =>
      (k, (mapLookup o.values k).getD .vnull)).map Prod.fst) = o.keys := by
    rw [List.map_map]
    exact List.map_id'' (fun k => rfl) o.keys
  have hperm : ((stableSortBy (fun a b => ! lf b a)
      (o.keys.map fun k => (k, (mapLookup o.values k).getD .vnull))).map
        Prod.fst).Perm o.keys := by
    have h1 := (stableSortBy_perm (fun a b => ! lf b a)
      (o.keys.map fun k => (k, (mapLookup o.values k).getD .vnull))).map
        Prod.fst
    rwa [hmap] at h1
  exact ⟨⟨hperm.symm.nodup h.1.1, fun k => by
    rw [show (applyMOp o (.msort lf)).keys
        = (stableSortBy (fun a b => ! lf b a)
            (o.keys.map fun k => (k, (mapLookup o.values k).getD .vnull))).map
          Prod.fst from rfl,
      hperm.mem_iff]
    exact h.1.2 k⟩, h.2⟩

theorem munmarshal_ok_WF {o o2 : OrderedMap} (h : WF o) {s : String}
    (hu : UnmarshalJSONFun o s = .ok o2)
    (hcov : o.values.all (fun p => o2.keys.contains p.1) = true) :
    WF o2 := by
  obtain ⟨prs, hnd, hmem, hvals, -⟩ := unmarshal_ok_inv hu
  refine ⟨⟨hnd, fun k => ?_⟩, ?_⟩
  · rw [hvals, hmem k]
    rw [mapLookup_isSome_insertAll]
    constructor
    · exact Or.inr
    · rintro (hsome | hk)
      · obtain ⟨v, hv⟩ := Option.isSome_iff_exists.mp hsome
        have hkm : (k, v) ∈ o.values := mem_of_mapLookup_eq_some hv
        have := List.all_eq_true.mp hcov (k, v) hkm
        rw [← hmem k]
        exact List.elem_iff.mp this
      · exact hk
  · rw [hvals]
    exact sortedKeys_insertAll _ _ h.2

/-! ## Sequences of mutating calls -/

def applyMOps (o : OrderedMap) (ops : List MOp) : OrderedMap :=
  ops.foldl applyMOp o

/-- One UnmarshalJSON call is merge-safe: it fails, or its rebuilt key
order covers the keys already present in the values map. -/
def unmarshalCoverOk (o : OrderedMap) (s : String) : Bool :=
  match UnmarshalJSONFun o s with
  | .ok o2 => o.values.all (fun p => o2.keys.contains p.1)
  | .error _ => true

/-- The decidable side condition of the amended invariant claim: along
the run, every UnmarshalJSON call is merge-safe (as it always is when
the container's values map is empty at that point). -/
def mergeOk : OrderedMap → List MOp → Bool
  | _, [] => true
  | o, op :: ops =>
    (match op with
     | .munmarshal s => unmarshalCoverOk o s
     | _ => true) && mergeOk (applyMOp o op) ops

theorem applyMOps_WF : ∀ (ops : List MOp) (o : OrderedMap), WF o →
    mergeOk o ops = true → WF (applyMOps o ops)
  | [], _, h, _ => h
  | op :: ops, o, h, hok => by
    simp only [mergeOk, Bool.and_eq_true] at hok
    have hstep : WF (applyMOp o op) := by
      cases op with
      | mset k v => exact set_WF h k v
      | mdel k => exact delete_WF h k
      | msortKeys cmp => exact sortKeys_Inv h cmp
      | msort lf => exact sort_Inv h lf
      | munmarshal s =>
        have hcov : unmarshalCoverOk o s = true := hok.1
        rcases hu : UnmarshalJSONFun o s with e | o2
        · have happ : applyMOp o (.munmarshal s) = o := by
            simp only [applyMOp, hu]
          rw [happ]
          exact h
        · have happ : applyMOp o (.munmarshal s) = o2 := by
            simp only [applyMOp, hu]
          rw [happ]
          simp only [unmarshalCoverOk, hu] at hcov
          exact munmarshal_ok_WF h hu hcov
    exact applyMOps_WF ops (applyMOp o op) hstep hok.2

/-- Claim C7 counterexample: from a fresh container, Set x then a
successful UnmarshalJSON; the stale x stays in the values map (Get
finds it) while the rebuilt key order does not contain it, so the set
of keys in the order sequence differs from the key set of the values
mapping. -/
theorem invariant_counterexample :
    (Get (applyMOps New [.mset "x" (.vnum 1),
        .munmarshal "\x7b\"a\":1\x7d"]) "x").2 = true
    ∧ "x" ∉ Keys (applyMOps New [.mset "x" (.vnum 1),
        .munmarshal "\x7b\"a\":1\x7d"]) := by
  refine ⟨by decide, by decide⟩

/-- Claim C7 (amended): after every sequence of Set, Delete, Sort,
SortKeys and UnmarshalJSON operations from a fresh container in which
each successful UnmarshalJSON's rebuilt key order covers the keys
already in the values map (`mergeOk`), the key order sequence has no
duplicates and holds exactly the keys of the values mapping.  Without
that proviso, UnmarshalJSON's retained stale entries break the key-set
equality, as the counterexample shows. -/
theorem invariant_preserved (ops : List MOp)
    (hok : mergeOk New ops = true) :
    (applyMOps New ops).keys.Nodup
    ∧ ∀ k, k ∈ (applyMOps New ops).keys
        ↔ (mapLookup (applyMOps New ops).values k).isSome = true :=
  (applyMOps_WF ops New New_WF hok).1

/-- Witness for the amended C7 on a concrete run mixing all five
operations. -/
theorem invariant_preserved_witness :
    mergeOk New [.mset "b" (.vnum 2), .mset "a" (.vnum 1),
        .msortKeys strLt, .munmarshal "\x7b\"c\":3,\"a\":4,\"b\":5\x7d",
        .msort (fun p q => strLt p.1 q.1), .mdel "c"] = true
    ∧ ((applyMOps New [.mset "b" (.vnum 2), .mset "a" (.vnum 1),
        .msortKeys strLt, .munmarshal "\x7b\"c\":3,\"a\":4,\"b\":5\x7d",
        .msort (fun p q => strLt p.1 q.1), .mdel "c"]).keys.Nodup
      ∧ ∀ k, k ∈ (applyMOps New [.mset "b" (.vnum 2), .mset "a" (.vnum 1),
          .msortKeys strLt, .munmarshal "\x7b\"c\":3,\"a\":4,\"b\":5\x7d",
          .msort (fun p q => strLt p.1 q.1), .mdel "c"]).keys
        ↔ (mapLookup (applyMOps New [.mset "b" (.vnum 2),
            .mset "a" (.vnum 1), .msortKeys strLt,
            .munmarshal "\x7b\"c\":3,\"a\":4,\"b\":5\x7d",
            .msort (fun p q => strLt p.1 q.1), .mdel "c"]).values k).isSome
          = true) :=
  ⟨by decide, invariant_preserved [.mset "b" (.vnum 2), .mset "a" (.vnum 1),
    .msortKeys strLt, .munmarshal "\x7b\"c\":3,\"a\":4,\"b\":5\x7d",
    .msort (fun p q => strLt p.1 q.1), .mdel "c"] (by decide)⟩

end Orderedmap
